import Mathlib

/-! # tfs-cli: the client core

A shallow embedding of the access layer of `tfs-cli` (Go) and the properties proved of it.

* `internal/errs/errs.go`: `AppError`, `New`.
* `internal/api/client.go`: the retrying transport `Client.doFullURLWithHeaders` with
  `shouldRetry`, `retryAfter` and the constants `maxRetries`, `initialBackoff`, `maxBackoff`;
  `Client.WhoamiFromHeaders`, `Client.WorkItemURL`, `joinURL`; `Client.newRequest`,
  `basicAuthToken`, `Client.logRequest`, `truncateBody`.
* `internal/config/config.go`: `Config`, `Config.Redacted`.
* `internal/api/types.go`: `WorkItem`, `WorkItemReference`, `WorkItemLink`, `WiqlResponse`,
  `Identity`, `Profile`, `HeaderIdentity`.
* `internal/output/output.go`: `WorkItem`, `NormalizeWorkItem`, `identityString`,
  `fieldString`, `stringPtr`.
* `internal/cli/cli.go`: `collectIDs`, `fetchWorkItems`, `orderWorkItems`, `maxBatchSize`;
  `identityProperty`, `identityUniqueName`, `identityRefValue`, `identityRefFallback`;
  `escapeWiql`, `joinWiqlValues`, `wiqlSearchQuery`, `myWiqlQuery`; `parseAssignment`,
  `buildPatch`, `buildCreatePatch`; `runConfigView`, `splitPositional`, `wiqlValueFlags`,
  `updateValueFlags`, `normalizeBaseURL`.

Conventions of the embedding

* Go `string` is `String`; Go `int` is `Int` (64-bit platform); a `time.Duration` is an `Int`
  count of nanoseconds, and the products the source forms are wrapped to 64 bits (`wrap64`).
* Go `error` is `GoError`: an `errs.AppError` or any other error value.
* A Go `map` is an association list in which the first binding of a key is the live one;
  the assignment `m[k] = v` puts `(k, v)` in front. Where the source ranges over a map and
  the order shows in the result (`Client.logRequest`), the order of the range is a
  parameter.
* The network, the remote server and the clock are not part of the program. A run of the
  transport is taken over an arbitrary `env : Nat → api.Outcome` giving what attempt `k`
  meets, and a run of the batch fetch over an arbitrary `server` answering the `n`-th call
  of `Client.GetWorkItemsBatch`. The round trips, sleeps and batch calls are recorded in the
  value a run returns, so "how many attempts", "how long a wait" and "which chunks" are
  statements about that value. A wait is the duration passed to `time.Sleep`; the pause
  that the call makes is `time.Sleep` of it, none for a negative duration.
* The functions of the Go library that the source calls are defined here on the characters of
  a `String` (`strings.TrimSpace`, `strings.SplitN`, `strings.ReplaceAll`, `strconv.Atoi`, ...);
  `strings.EqualFold`, which rests on the case tables of Unicode, is a parameter `equalFold`,
  and so are `unicode.ToLower`, `url.Parse`, `URL.String`, the base64 encoding, the request
  constructor of `net/http` and `json.Marshal`.
  The identity calls of the client are the fields of a `cli.Resolver`.
* Loops are structural recursions on a fuel argument that also carry the loop test of the
  source; `api.doFullURLWithHeaders_returns` and `cli.fetchWorkItems_returns` show that the
  fuel given never runs out.

The file has two parts: the definitions, then the theorems.
-/

/-! ## errs -/

/-- Go `error` values: `errs.AppError{Code, Message, Details}` or any other error. -/
inductive GoError where
  | app (code : String) (message : String) (details : Option String)
  | other (message : String)
  deriving DecidableEq, Repr

/-- The function `errs.New`. -/
def errs.New (code message : String) (details : Option String) : GoError :=
  GoError.app code message details

/-- The `Code` of an `errs.AppError`; `none` for every other error. -/
def GoError.code? : GoError → Option String
  | GoError.app code _ _ => some code
  | GoError.other _ => none

/-! ## Durations and integers -/

/-- Two's-complement wrap of an integer to 64 bits (Go `int64` arithmetic). -/
def wrap64 (x : Int) : Int := (x + 2 ^ 63) % 2 ^ 64 - 2 ^ 63

/-- One `time.Millisecond`, in nanoseconds. -/
def time.Millisecond : Int := 1000000

/-- One `time.Second`, in nanoseconds. -/
def time.Second : Int := 1000000000

/-- The function `strconv.Atoi` on a 64-bit platform: an optional sign, then one or more
decimal digits, and the value must fit `int64`. -/
def strconv.Atoi (s : String) : Option Int :=
  match s.toList with
  | [] => none
  | c :: cs =>
    let digits := if c = '-' ∨ c = '+' then cs else c :: cs
    if digits.isEmpty then none
    else if digits.all Char.isDigit then
      let un : Nat := digits.foldl (fun n ch => n * 10 + (ch.toNat - 48)) 0
      let v : Int := if c = '-' then -(un : Int) else (un : Int)
      if -(2 : Int) ^ 63 ≤ v ∧ v ≤ 2 ^ 63 - 1 then some v else none
    else none

/-! ## net/http values -/

/-- An `http.Header`: canonical header name to its values. -/
structure http.Header where
  entries : List (String × List String)
  deriving DecidableEq, Repr

/-- The method `http.Header.Get`: the first value of the header, or `""`. The keys the
source asks for (`Retry-After`, `X-Vss-Userdata`) are already in canonical form. -/
def http.Header.Get (h : http.Header) (key : String) : String :=
  match h.entries.lookup key with
  | some (v :: _) => v
  | _ => ""

/-- What the transport reads of an `http.Response`: status code, headers, and the body
read by `io.ReadAll`. -/
structure http.Response where
  StatusCode : Int
  Header : http.Header
  Body : String
  deriving DecidableEq, Repr

/-! ## api: the transport -/

/-- The constant `maxRetries`. -/
def api.maxRetries : Nat := 4

/-- The constant `initialBackoff` (500 ms). -/
def api.initialBackoff : Int := 500 * time.Millisecond

/-- The constant `maxBackoff` (5 s). -/
def api.maxBackoff : Int := 5 * time.Second

/-- The function `shouldRetry`. -/
def api.shouldRetry (status : Int) : Bool :=
  status == 429 || decide (status ≥ 500)

/-- The function `retryAfter`: the header value as a duration, `0` when it is empty or
not an integer. -/
def api.retryAfter (value : String) : Int :=
  if value = "" then 0
  else
    match strconv.Atoi value with
    | some seconds => wrap64 (seconds * time.Second)
    | none => 0

/-- What one pass of the attempt loop meets. The errors of `net/http` and `io` are not
`errs.AppError` values, so each is given by its message and reaches the caller as
`GoError.other`. -/
inductive api.Outcome where
  /-- The call `c.newRequest` returned an error. -/
  | newRequestErr (err : String)
  /-- The call `c.client.Do` returned an error: no response. -/
  | doErr (err : String)
  /-- A response arrived but `io.ReadAll` of its body failed. -/
  | readErr (err : String)
  /-- A response arrived and its body was read. -/
  | response (resp : http.Response)
  deriving DecidableEq, Repr

/-- The observable actions of the transport. -/
inductive api.Event where
  /-- The call `c.client.Do(req)` of the attempt with this index. -/
  | send (attempt : Nat)
  /-- The call `time.Sleep(wait)`. -/
  | sleep (wait : Int)
  deriving DecidableEq, Repr

/-- A run of `doFullURLWithHeaders`: the actions in order and what was returned
(`none`: the model ran out of fuel, which `doFullURLWithHeaders` never does). -/
structure api.Run where
  trace : List api.Event
  result : Option (Except GoError (http.Header × String))

/-- Put actions in front of a run. -/
def api.Run.after (events : List api.Event) (r : api.Run) : api.Run :=
  { trace := events ++ r.trace, result := r.result }

/-- The number of round trips of a trace. -/
def api.attempts (trace : List api.Event) : Nat :=
  (trace.filter (fun e => match e with
    | api.Event.send _ => true
    | api.Event.sleep _ => false)).length

/-- The durations slept, in order. -/
def api.waits (trace : List api.Event) : List Int :=
  trace.filterMap (fun e => match e with
    | api.Event.send _ => none
    | api.Event.sleep w => some w)

/-- The loop `for attempt := 0; attempt <= maxRetries; attempt++` of
`doFullURLWithHeaders` from the state `(attempt, backoff, lastErr)`, followed by the
statements after the loop. The query string is appended to the URL before the loop and the
same request is built on every pass; verbose logging writes to a sink only; neither is
part of the model. -/
def api.attemptLoop (env : Nat → api.Outcome) :
    Nat → Nat → Int → Option GoError → api.Run
  | 0, _, _, _ => { trace := [], result := none }
  | fuel + 1, attempt, backoff, lastErr =>
    if attempt ≤ api.maxRetries then
      match env attempt with
      | api.Outcome.newRequestErr err =>
        { trace := [], result := some (Except.error (GoError.other err)) }
      | api.Outcome.doErr err =>
        { trace := [api.Event.send attempt], result := some (Except.error (GoError.other err)) }
      | api.Outcome.readErr readErr =>
        { trace := [api.Event.send attempt],
          result := some (Except.error (GoError.other readErr)) }
      | api.Outcome.response resp =>
        if resp.StatusCode ≥ 200 ∧ resp.StatusCode ≤ 299 then
          { trace := [api.Event.send attempt],
            result := some (Except.ok (resp.Header, resp.Body)) }
        else if api.shouldRetry resp.StatusCode = true ∧ attempt < api.maxRetries then
          let wait := api.retryAfter (resp.Header.Get "Retry-After")
          let lastErr := errs.New "http_retry"
            ("retryable status " ++ toString resp.StatusCode) (some resp.Body)
          if wait = 0 then
            let wait := backoff
            let backoff := wrap64 (backoff * 2)
            let backoff := if backoff > api.maxBackoff then api.maxBackoff else backoff
            (api.attemptLoop env fuel (attempt + 1) backoff (some lastErr)).after
              [api.Event.send attempt, api.Event.sleep wait]
          else
            (api.attemptLoop env fuel (attempt + 1) backoff (some lastErr)).after
              [api.Event.send attempt, api.Event.sleep wait]
        else
          { trace := [api.Event.send attempt],
            result := some (Except.error (errs.New "http_error"
              ("request failed with status " ++ toString resp.StatusCode)
              (some resp.Body))) }
    else
      match lastErr with
      | some err => { trace := [], result := some (Except.error err) }
      | none =>
        { trace := [], result := some (Except.error (errs.New "http_error" "request failed" none)) }

/-- The method `Client.doFullURLWithHeaders`, as a function of what the attempts meet. The loop
body runs at most `maxRetries + 1` times and the fuel allows one more pass for the
loop test that leaves the loop. -/
def api.doFullURLWithHeaders (env : Nat → api.Outcome) : api.Run :=
  api.attemptLoop env (api.maxRetries + 2) 0 api.initialBackoff none

/-! ### Names for the parts of one pass of the loop -/

/-- The duration slept after a retryable response, given the current backoff. -/
def api.waitFor (resp : http.Response) (backoff : Int) : Int :=
  if api.retryAfter (resp.Header.Get "Retry-After") = 0 then backoff
  else api.retryAfter (resp.Header.Get "Retry-After")

/-- The backoff after a retryable response, given the current backoff. -/
def api.nextBackoff (resp : http.Response) (backoff : Int) : Int :=
  if api.retryAfter (resp.Header.Get "Retry-After") = 0 then
    (if wrap64 (backoff * 2) > api.maxBackoff then api.maxBackoff else wrap64 (backoff * 2))
  else backoff

/-- The `http_retry` error built for a retryable response. -/
def api.retryErr (resp : http.Response) : GoError :=
  errs.New "http_retry" ("retryable status " ++ toString resp.StatusCode) (some resp.Body)

/-- The `http_error` error built for a terminal response. -/
def api.statusErr (resp : http.Response) : GoError :=
  errs.New "http_error" ("request failed with status " ++ toString resp.StatusCode)
    (some resp.Body)

/-- The response of an outcome (an empty response when the outcome has none). -/
def api.responseOf : api.Outcome → http.Response
  | api.Outcome.response resp => resp
  | _ => { StatusCode := 0, Header := { entries := [] }, Body := "" }

/-- The backoff value once the responses `rs 0, ..., rs (k - 1)` have each been retried. -/
def api.backoffAfter (rs : Nat → http.Response) : Nat → Int
  | 0 => api.initialBackoff
  | k + 1 => api.nextBackoff (rs k) (api.backoffAfter rs k)

/-- The value of `lastErr` once the responses `rs 0, ..., rs (k - 1)` have each been retried. -/
def api.lastErrAfter (rs : Nat → http.Response) : Nat → Option GoError
  | 0 => none
  | k + 1 => some (api.retryErr (rs k))

/-- The actions of the first `k` passes when the responses `rs 0, ..., rs (k - 1)` are each
retried. -/
def api.retryTrace (rs : Nat → http.Response) : Nat → List api.Event
  | 0 => []
  | k + 1 => api.retryTrace rs k ++
      [api.Event.send k, api.Event.sleep (api.waitFor (rs k) (api.backoffAfter rs k))]

/-! ## Dynamically typed values -/

/-- A decoded JSON value (Go `interface{}` holding what `encoding/json` produces). The
payload of a number is never inspected by the code embedded here and is kept as its
literal. -/
inductive JsonValue where
  | null
  | bool (b : Bool)
  | number (literal : String)
  | string (s : String)
  | array (items : List JsonValue)
  | object (members : List (String × JsonValue))

/-- A Go `map[string]interface{}`. -/
abbrev JsonObject := List (String × JsonValue)

/-- Indexing `m[key]` without the `ok` result: the nil interface when the key is absent. -/
def JsonObject.index (m : JsonObject) (key : String) : JsonValue :=
  match m.lookup key with
  | some v => v
  | none => JsonValue.null

/-- The type assertion `v.(string)`: the string and `ok`. -/
def JsonValue.asString : JsonValue → Option String
  | JsonValue.string s => some s
  | _ => none

/-! ## api: payload types -/

/-- The struct `api.WorkItem`; `Fields = none` is the nil map. -/
structure api.WorkItem where
  ID : Int
  Fields : Option JsonObject
  Relations : List JsonValue
  URL : String

/-- The struct `api.WorkItemReference`. -/
structure api.WorkItemReference where
  ID : Int
  URL : String
  deriving DecidableEq, Repr

/-- The struct `api.WorkItemLink`. -/
structure api.WorkItemLink where
  Rel : String
  Source : api.WorkItemReference
  Target : api.WorkItemReference
  deriving DecidableEq, Repr

/-- The struct `api.WiqlResponse`. -/
structure api.WiqlResponse where
  QueryType : String
  QueryResultType : String
  WorkItems : List api.WorkItemReference
  WorkItemLinks : List api.WorkItemLink
  deriving DecidableEq, Repr

/-! ## output -/

/-- The struct `output.WorkItem`; a `*string` field is an `Option String`. -/
structure output.WorkItem where
  ID : Int
  /-- The field `Type` (a reserved word here). -/
  Type_ : Option String
  State : Option String
  Title : Option String
  AssignedTo : Option String
  AreaPath : Option String
  IterationPath : Option String
  Tags : Option String
  URL : Option String
  Fields : JsonObject

/-- The function `stringPtr`: nil for the empty string. -/
def output.stringPtr (s : String) : Option String :=
  if s = "" then none else some s

/-- The function `fieldString`. -/
def output.fieldString (fields : JsonObject) (key : String) : Option String :=
  match fields.lookup key with
  | some v =>
    match v.asString with
    | some s => output.stringPtr s
    | none => none
  | none => none

/-- The function `identityString`. -/
def output.identityString (v : JsonValue) : Option String :=
  match v with
  | JsonValue.string val => output.stringPtr val
  | JsonValue.object val =>
    match (JsonObject.index val "displayName").asString with
    | some dn =>
      if dn ≠ "" then
        match (JsonObject.index val "uniqueName").asString with
        | some un => if un ≠ "" then output.stringPtr (dn ++ "<" ++ un ++ ">")
                     else output.stringPtr dn
        | none => output.stringPtr dn
      else
        match (JsonObject.index val "uniqueName").asString with
        | some un => if un ≠ "" then output.stringPtr un else none
        | none => none
    | none =>
      match (JsonObject.index val "uniqueName").asString with
      | some un => if un ≠ "" then output.stringPtr un else none
      | none => none
  | _ => none

/-- The function `NormalizeWorkItem`. -/
def output.NormalizeWorkItem (raw : api.WorkItem) : output.WorkItem :=
  let fields : JsonObject := match raw.Fields with
    | some fields => fields
    | none => []
  { ID := raw.ID,
    Type_ := output.fieldString fields "System.WorkItemType",
    State := output.fieldString fields "System.State",
    Title := output.fieldString fields "System.Title",
    AssignedTo := output.identityString (JsonObject.index fields "System.AssignedTo"),
    AreaPath := output.fieldString fields "System.AreaPath",
    IterationPath := output.fieldString fields "System.IterationPath",
    Tags := output.fieldString fields "System.Tags",
    URL := output.stringPtr raw.URL,
    Fields := fields }

/-! ## cli: collecting ids and fetching in batches -/

/-- The constant `maxBatchSize`. -/
def cli.maxBatchSize : Nat := 200

/-- The locals `seen` and `ids` of `collectIDs`; `seen` lists the keys set to `true`. -/
structure cli.Collected where
  seen : List Int
  ids : List Int
  deriving DecidableEq, Repr

/-- The statements `ids = append(ids, id); seen[id] = true`, run when `!seen[id]`. -/
def cli.Collected.visit (st : cli.Collected) (id : Int) : cli.Collected :=
  if id ∈ st.seen then st else { seen := id :: st.seen, ids := st.ids ++ [id] }

/-- The body of the second loop of `collectIDs`, for one link. -/
def cli.Collected.visitLink (st : cli.Collected) (link : api.WorkItemLink) : cli.Collected :=
  let st := if link.Source.ID ≠ 0 then st.visit link.Source.ID else st
  if link.Target.ID ≠ 0 then st.visit link.Target.ID else st

/-- The function `collectIDs`. -/
def cli.collectIDs (resp : api.WiqlResponse) : List Int :=
  let st : cli.Collected := { seen := [], ids := [] }
  let st := resp.WorkItems.foldl (fun st item => st.visit item.ID) st
  let st := resp.WorkItemLinks.foldl (fun st link => st.visitLink link) st
  st.ids

/-- The slice expression `ids[lo:hi]`, for `lo ≤ hi ≤ len(ids)`. -/
def cli.slice (ids : List Int) (lo hi : Nat) : List Int :=
  (ids.drop lo).take (hi - lo)

/-- The function `orderWorkItems`: `byID` is filled in response order, a later item
replacing an earlier one with the same id, then read in the order of `ids`. -/
def cli.orderWorkItems (ids : List Int) (items : List api.WorkItem) : List output.WorkItem :=
  let byID : List (Int × api.WorkItem) :=
    items.foldl (fun byID item => (item.ID, item) :: byID) []
  ids.foldl (fun ordered id =>
    match byID.lookup id with
    | some item => ordered ++ [output.NormalizeWorkItem item]
    | none => ordered) []

/-- A run of `fetchWorkItems`: the id chunks passed to `client.GetWorkItemsBatch`, in call
order, and what was returned (`none`: the model ran out of fuel). An error result carries
no items: the source returns `nil, err`. -/
structure cli.FetchRun where
  calls : List (List Int)
  result : Option (Except GoError (List output.WorkItem))

/-- Put a batch call in front of a run. -/
def cli.FetchRun.afterCall (chunk : List Int) (r : cli.FetchRun) : cli.FetchRun :=
  { calls := chunk :: r.calls, result := r.result }

/-- The ids of the items a run returned, in order; `none` when it returned an error. -/
def cli.FetchRun.itemIDs (r : cli.FetchRun) : Option (List Int) :=
  match r.result with
  | some (Except.ok items) => some (items.map (fun w => w.ID))
  | _ => none

/-- The loop `for i := 0; i < len(ids); i += maxBatchSize` of `fetchWorkItems` from the
state `(i, results)`, with the final `return results, nil`. The method
`client.GetWorkItemsBatch` is the parameter `server`: given the number `n` of the call and
the chunk, it answers with the decoded items or an error (the list `fields` it is also
given is the same constant on every call). -/
def cli.fetchLoop (server : Nat → List Int → Except GoError (List api.WorkItem))
    (ids : List Int) : Nat → Nat → Nat → List output.WorkItem → cli.FetchRun
  | 0, _, _, _ => { calls := [], result := none }
  | fuel + 1, n, i, results =>
    if i < ids.length then
      let end_ := i + cli.maxBatchSize
      let end_ := if end_ > ids.length then ids.length else end_
      let chunk := cli.slice ids i end_
      match server n chunk with
      | Except.error err => { calls := [chunk], result := some (Except.error err) }
      | Except.ok items =>
        let ordered := cli.orderWorkItems chunk items
        (cli.fetchLoop server ids fuel (n + 1) (i + cli.maxBatchSize)
          (results ++ ordered)).afterCall chunk
    else { calls := [], result := some (Except.ok results) }

/-- The function `fetchWorkItems`. The loop body runs at most `len(ids)` times and the fuel
allows one more pass for the loop test that leaves the loop. -/
def cli.fetchWorkItems (server : Nat → List Int → Except GoError (List api.WorkItem))
    (ids : List Int) : cli.FetchRun :=
  if ids.length = 0 then { calls := [], result := some (Except.ok []) }
  else cli.fetchLoop server ids (ids.length + 1) 0 0 []

/-- The ids of a list, each kept at its first occurrence only (the words of the
specification: "deduplicates ids by first occurrence, preserving first-seen order"). -/
def cli.firstOccurrences : List Int → List Int
  | [] => []
  | id :: rest => id :: (cli.firstOccurrences rest).filter (fun other => other ≠ id)

/-- The ids that `collectIDs` walks over, in the order it meets them: the work items, then
for each link its source and its target, a zero link end being passed over. -/
def cli.candidateIDs (resp : api.WiqlResponse) : List Int :=
  resp.WorkItems.map (fun item => item.ID) ++
    (resp.WorkItemLinks.flatMap (fun link => [link.Source.ID, link.Target.ID])).filter
      (fun id => id ≠ 0)

/-! ## Sample inputs -/

/-- A response with this status and `Retry-After` value and an empty body. -/
def api.sampleResponse (status : Int) (retryAfterValue : String) : http.Response :=
  { StatusCode := status,
    Header := { entries := if retryAfterValue = "" then [] else [("Retry-After", [retryAfterValue])] },
    Body := "" }

/-- A raw work item with this id and nothing else. -/
def api.bareWorkItem (id : Int) : api.WorkItem :=
  { ID := id, Fields := none, Relations := [], URL := "" }

/-- A server that holds the work items `store` and answers every batch call with those of
them whose id is requested, in its own order. -/
def cli.storeServer (store : List api.WorkItem) (_ : Nat) (chunk : List Int) :
    Except GoError (List api.WorkItem) :=
  Except.ok (store.filter (fun item => chunk.contains item.ID))

/-- A server on which every batch call fails. -/
def cli.downServer (_ : Nat) (_ : List Int) : Except GoError (List api.WorkItem) :=
  Except.error (GoError.other "connection refused")

/-- The ids 1, 2, ..., `n`. -/
def cli.idsUpTo (n : Nat) : List Int :=
  List.map (fun (k : Nat) => Int.ofNat k + 1) (List.range n)

/-- A flat query response that lists the work items 5, 1, 5, 3. -/
def cli.sampleWiql : api.WiqlResponse :=
  { QueryType := "flat",
    QueryResultType := "workItem",
    WorkItems := [⟨5, ""⟩, ⟨1, ""⟩, ⟨5, ""⟩, ⟨3, ""⟩],
    WorkItemLinks := [] }

/-- A server holding the work items 1, 3 and 5. -/
def cli.sampleServer : Nat → List Int → Except GoError (List api.WorkItem) :=
  cli.storeServer [api.bareWorkItem 1, api.bareWorkItem 3, api.bareWorkItem 5]

/-- A server that answers the batch call number `j` with an error and every other call with
no items. -/
def cli.failingAt (j : Nat) (n : Nat) (_ : List Int) : Except GoError (List api.WorkItem) :=
  if n = j then Except.error (GoError.other "connection refused") else Except.ok []

/-! ## strings and unicode -/

/-- The function `unicode.IsSpace`: the Latin-1 white space and the other code points with
the property `White_Space`. -/
def unicode.IsSpace (r : Char) : Bool :=
  r.toNat = 9 || r.toNat = 10 || r.toNat = 11 || r.toNat = 12 || r.toNat = 13 ||
    r.toNat = 32 || r.toNat = 133 || r.toNat = 160 || r.toNat = 5760 ||
    (8192 ≤ r.toNat && r.toNat ≤ 8202) || r.toNat = 8232 || r.toNat = 8233 ||
    r.toNat = 8239 || r.toNat = 8287 || r.toNat = 12288

/-- Remove the characters satisfying `p` from the end of a list. -/
def strings.dropRightWhile (p : Char → Bool) (cs : List Char) : List Char :=
  (cs.reverse.dropWhile p).reverse

/-- The function `strings.TrimSpace`. -/
def strings.TrimSpace (s : String) : String :=
  String.mk (strings.dropRightWhile unicode.IsSpace (s.toList.dropWhile unicode.IsSpace))

/-- The function `strings.TrimRight`: trailing characters that occur in `cutset` removed. -/
def strings.TrimRight (s cutset : String) : String :=
  String.mk (strings.dropRightWhile (fun c => cutset.toList.contains c) s.toList)

/-- The function `strings.TrimLeft`: leading characters that occur in `cutset` removed. -/
def strings.TrimLeft (s cutset : String) : String :=
  String.mk (s.toList.dropWhile (fun c => cutset.toList.contains c))

/-- The part before and the part after the first occurrence of `sep`, if there is one. -/
def strings.cutChars (sep : Char) : List Char → Option (List Char × List Char)
  | [] => none
  | c :: cs =>
    if c = sep then some ([], cs)
    else
      match strings.cutChars sep cs with
      | some (before, after) => some (c :: before, after)
      | none => none

/-- The call `strings.SplitN(s, sep, 2)` for a separator `sep` of one character: the text
before and the text after the first separator, or `s` alone when it has none. -/
def strings.SplitN2 (s : String) (sep : Char) : List String :=
  match strings.cutChars sep s.toList with
  | some (before, after) => [String.mk before, String.mk after]
  | none => [s]

/-- Whether the characters `s` start with the characters `p`. -/
def strings.startsWith : List Char → List Char → Bool
  | _, [] => true
  | [], _ :: _ => false
  | c :: cs, p :: ps => c == p && strings.startsWith cs ps

/-- The replacement loop of `strings.ReplaceAll` for a non-empty `old`: at each position,
from the left, an occurrence of `old` is replaced by `new` and skipped, any other character
is copied. -/
def strings.replaceChars (old new : List Char) : Nat → List Char → List Char
  | 0, _ => []
  | _ + 1, [] => []
  | fuel + 1, c :: cs =>
    if strings.startsWith (c :: cs) old then
      new ++ strings.replaceChars old new fuel ((c :: cs).drop old.length)
    else c :: strings.replaceChars old new fuel cs

/-- The function `strings.ReplaceAll`. An empty `old` matches at the start of the string and
after every character. -/
def strings.ReplaceAll (s old new : String) : String :=
  if old.toList.isEmpty then
    String.mk (new.toList ++ s.toList.flatMap (fun c => c :: new.toList))
  else String.mk (strings.replaceChars old.toList new.toList s.toList.length s.toList)

/-- The function `strings.Join`. -/
def strings.Join (elems : List String) (sep : String) : String :=
  sep.intercalate elems

/-! ## api: identities -/

/-- The struct `api.Identity`; `Properties = none` is the nil map. -/
structure api.Identity where
  ID : String
  Descriptor : String
  SubjectDescriptor : String
  ProviderDisplayName : String
  Properties : Option JsonObject

/-- The struct `api.Profile`. -/
structure api.Profile where
  DisplayName : String
  EmailAddress : String
  ID : String
  deriving DecidableEq, Repr

/-- The struct `api.HeaderIdentity`. -/
structure api.HeaderIdentity where
  ID : String
  UniqueName : String
  Raw : String
  deriving DecidableEq, Repr

/-- The method `Client.WhoamiFromHeaders`. The client's `project` and the outcome `call` of
`c.doWithHeaders(ctx, GET, project/_apis/wit/workitemtypes, ...)` are parameters; the call
is made only when the project is set. -/
def api.WhoamiFromHeaders (project : String) (call : Except GoError (http.Header × String)) :
    Except GoError api.HeaderIdentity :=
  if project = "" then Except.error (errs.New "config_missing" "project is required" none)
  else
    match call with
    | Except.error err => Except.error err
    | Except.ok (headers, _) =>
      let raw := headers.Get "X-Vss-Userdata"
      if raw = "" then
        Except.error (errs.New "whoami_unavailable" "X-Vss-Userdata header missing" none)
      else
        match strings.SplitN2 raw ':' with
        | [id, uniqueName] => Except.ok { ID := id, UniqueName := uniqueName, Raw := raw }
        | _ => Except.ok { ID := "", UniqueName := raw, Raw := raw }

/-! ## cli: identity references -/

/-- One backslash. -/
def cli.backslash : String := String.singleton (Char.ofNat 92)

/-- The function `identityProperty`. -/
def cli.identityProperty (identity : api.Identity) (key : String) : String :=
  match identity.Properties with
  | none => ""
  | some properties =>
    match properties.lookup key with
    | none => ""
    | some raw =>
      let unwrapped : Option String := match raw with
        | JsonValue.object prop => (JsonObject.index prop "$value").asString
        | _ => none
      match unwrapped with
      | some val => val
      | none =>
        match raw.asString with
        | some val => val
        | none => ""

/-- The function `identityUniqueName`. The separator is the raw string literal of the
source, which holds two backslash characters. -/
def cli.identityUniqueName (identity : api.Identity) (fallback : String) : String :=
  let domain := cli.identityProperty identity "Domain"
  let account := cli.identityProperty identity "Account"
  if domain ≠ "" ∧ account ≠ "" then domain ++ (cli.backslash ++ cli.backslash) ++ account
  else if cli.identityProperty identity "Mail" ≠ "" then cli.identityProperty identity "Mail"
  else if cli.identityProperty identity "Account" ≠ "" then
    cli.identityProperty identity "Account"
  else if cli.identityProperty identity "UniqueName" ≠ "" then
    cli.identityProperty identity "UniqueName"
  else fallback

/-- An identity with these properties and nothing else. -/
def api.identityWith (properties : JsonObject) : api.Identity :=
  { ID := "", Descriptor := "", SubjectDescriptor := "", ProviderDisplayName := "",
    Properties := some properties }

/-- The properties `Domain: "D", Account: "A", Mail: "m@x.com"`, as bare strings. -/
def cli.sampleProperties : JsonObject :=
  [("Domain", JsonValue.string "D"), ("Account", JsonValue.string "A"),
   ("Mail", JsonValue.string "m@x.com")]

/-- The header `X-Vss-Userdata` with this value, as the only header of a response. -/
def api.userdataHeader (raw : String) : http.Header :=
  { entries := [("X-Vss-Userdata", [raw])] }

/-! ## cli: query text -/

/-- The single quote character. -/
def cli.quote : Char := Char.ofNat 39

/-- The function `escapeWiql`. -/
def cli.escapeWiql (value : String) : String :=
  strings.ReplaceAll value "'" "''"

/-- The function `wiqlSearchQuery`. -/
def cli.wiqlSearchQuery (text : String) : String :=
  let escaped := strings.ReplaceAll text "'" "''"
  "SELECT [System.Id] FROM WorkItems WHERE ([System.Title] CONTAINS '" ++ escaped ++
    "' OR [System.Description] CONTAINS '" ++ escaped ++
    "') ORDER BY [System.ChangedDate] DESC"

/-- The function `joinWiqlValues`. -/
def cli.joinWiqlValues (values : List String) : String :=
  let quoted := values.foldl (fun quoted value =>
    let trimmed := strings.TrimSpace value
    if trimmed = "" then quoted else quoted ++ ["'" ++ cli.escapeWiql trimmed ++ "'"]) []
  strings.Join quoted ", "

/-- The function `myWiqlQuery`. -/
def cli.myWiqlQuery (typeFilter : String) (allTypes : Bool) (excludeState : String)
    (allStates : Bool) : String :=
  let conditions := ["[System.TeamProject] = @Project", "[System.AssignedTo] = @Me"]
  let conditions :=
    if allTypes = false ∧ strings.TrimSpace typeFilter ≠ "" then
      conditions ++ ["[System.WorkItemType] = '" ++ cli.escapeWiql typeFilter ++ "'"]
    else conditions
  let conditions :=
    if allStates = false ∧ strings.TrimSpace excludeState ≠ "" then
      conditions ++ ["[System.State] <> '" ++ cli.escapeWiql excludeState ++ "'"]
    else if allStates = false then
      conditions ++
        ["[System.State] IN (" ++ cli.joinWiqlValues ["Разработка", "Выполняется"] ++ ")"]
    else conditions
  "SELECT [System.Id] FROM WorkItems WHERE " ++ strings.Join conditions " AND " ++
    " ORDER BY [System.ChangedDate] DESC"

/-- The text `q` with every single quote replaced by two single quotes (the words of the
specification for the escaped text). -/
def cli.doubledQuotes (q : String) : String :=
  String.mk (q.toList.flatMap (fun c => if c = cli.quote then [cli.quote, cli.quote] else [c]))

/-- The conditions of the "my items" query, in the words of the specification: the project
condition, the assigned-to-me condition, the type equality if `allTypes` is false and the
type filter is not blank, and the state condition: none when `allStates` is true, the
inequality when the excluded state is not blank, the two default states otherwise. -/
def cli.myConditions (typeFilter : String) (allTypes : Bool) (excludeState : String)
    (allStates : Bool) : List String :=
  ["[System.TeamProject] = @Project", "[System.AssignedTo] = @Me"] ++
    (if allTypes = false ∧ strings.TrimSpace typeFilter ≠ "" then
      ["[System.WorkItemType] = '" ++ cli.doubledQuotes typeFilter ++ "'"] else []) ++
    (if allStates = true then []
     else if strings.TrimSpace excludeState ≠ "" then
      ["[System.State] <> '" ++ cli.doubledQuotes excludeState ++ "'"]
     else ["[System.State] IN ('Разработка', 'Выполняется')"])

/-! ## cli: patch documents -/

/-- The method `AppError.Error`, and the message of any other error. -/
def GoError.Error : GoError → String
  | GoError.app _ message _ => message
  | GoError.other message => message

/-- One element of a patch document: the map literal with the keys `op`, `path` and
`value` that the builders append. -/
structure cli.PatchOp where
  op : String
  path : String
  value : JsonValue

/-- The function `parseAssignment`. -/
def cli.parseAssignment (input : String) : Except GoError (String × String) :=
  match strings.SplitN2 input '=' with
  | [before, after] =>
    let field := strings.TrimSpace before
    let value := strings.TrimSpace after
    if field = "" then
      Except.error (errs.New "invalid_args" "field name is required" (some input))
    else Except.ok (field, value)
  | _ =>
    Except.error
      (errs.New "invalid_args" "invalid --set format, expected Field=Value" (some input))

/-- The loop `for _, set := range sets` of `buildPatch`, from the patch built so far. -/
def cli.buildPatchLoop : List String → List cli.PatchOp → Except GoError (List cli.PatchOp)
  | [], patch => Except.ok patch
  | set :: rest, patch =>
    match cli.parseAssignment set with
    | Except.error err => Except.error err
    | Except.ok (field, value) =>
      cli.buildPatchLoop rest
        (patch ++ [{ op := "add", path := "/fields/" ++ field, value := JsonValue.string value }])

/-- The function `buildPatch`. -/
def cli.buildPatch (sets : List String) (comment : String) :
    Except GoError (List cli.PatchOp) :=
  match cli.buildPatchLoop sets [] with
  | Except.error err => Except.error err
  | Except.ok patch =>
    if comment ≠ "" then
      Except.ok (patch ++
        [{ op := "add", path := "/fields/System.History", value := JsonValue.string comment }])
    else Except.ok patch

/-- The function `identityRefValue`. -/
def cli.identityRefValue (identity : api.Identity) (fallbackUnique : String) : JsonObject :=
  let ref : JsonObject := [("id", JsonValue.string identity.ID)]
  let ref :=
    if identity.ProviderDisplayName ≠ "" then
      ("displayName", JsonValue.string identity.ProviderDisplayName) :: ref
    else ref
  let ref :=
    if identity.SubjectDescriptor ≠ "" then
      ("descriptor", JsonValue.string identity.SubjectDescriptor) :: ref
    else if identity.Descriptor ≠ "" then
      ("descriptor", JsonValue.string identity.Descriptor) :: ref
    else ref
  if cli.identityUniqueName identity fallbackUnique ≠ "" then
    ("uniqueName", JsonValue.string (cli.identityUniqueName identity fallbackUnique)) :: ref
  else ref

/-- The function `identityRefFallback`. -/
def cli.identityRefFallback (identity : api.HeaderIdentity) : JsonValue :=
  if identity.ID ≠ "" then
    JsonValue.object [("id", JsonValue.string identity.ID),
      ("uniqueName", JsonValue.string identity.UniqueName)]
  else if identity.UniqueName ≠ "" then JsonValue.string identity.UniqueName
  else JsonValue.string ""

/-- The function `joinURL`. -/
def api.joinURL (base path : String) : String :=
  strings.TrimRight base "/" ++ "/" ++ strings.TrimLeft path "/"

/-- The method `Client.WorkItemURL`, with the client's `baseURL` as a parameter. -/
def api.WorkItemURL (baseURL : String) (id : Int) : String :=
  api.joinURL baseURL ("_apis/wit/workItems/" ++ toString id)

/-- The comparison `assignedValue == ""` of an `interface{}` with the empty string. -/
def JsonValue.isEmptyString : JsonValue → Bool
  | JsonValue.string s => s = ""
  | _ => false

/-- The remote calls of the identity cascade. -/
inductive cli.Lookup where
  /-- The call `client.ProfileMe(ctx)`. -/
  | profileMe
  /-- The call `client.WhoamiFromHeaders(ctx)`. -/
  | whoamiFromHeaders
  /-- The call `client.ResolveIdentityByID(ctx, id)`. -/
  | resolveIdentityByID (id : String)
  deriving DecidableEq, Repr

/-- What the three identity calls of the client answer. A successful
`ResolveIdentityByID` gives a pointer, which the source tests for nil. -/
structure cli.Resolver where
  ProfileMe : Except GoError api.Profile
  WhoamiFromHeaders : Except GoError api.HeaderIdentity
  ResolveIdentityByID : String → Except GoError (Option api.Identity)

/-- A run of `buildCreatePatch`: the identity calls made, in order, and what was returned. -/
structure cli.CreateRun where
  lookups : List cli.Lookup
  result : Except GoError (List cli.PatchOp)

/-- The first loop of `buildCreatePatch`, from the state `(assignedString, remainingSets)`.
The function `strings.EqualFold` is the parameter `equalFold` (it rests on the case tables
of Unicode). -/
def cli.scanSets (equalFold : String → String → Bool) :
    List String → String → List String → Except GoError (String × List String)
  | [], assignedString, remainingSets => Except.ok (assignedString, remainingSets)
  | set :: rest, assignedString, remainingSets =>
    match cli.parseAssignment set with
    | Except.error err => Except.error err
    | Except.ok (field, value) =>
      if equalFold field "System.AssignedTo" = true then
        cli.scanSets equalFold rest (if assignedString = "" then value else assignedString)
          remainingSets
      else cli.scanSets equalFold rest assignedString (remainingSets ++ [set])

/-- The block `if assignedValue == "" { ... }` of `buildCreatePatch` that asks the client:
the calls made, and the new `assignedValue` or the error returned from inside the block. -/
def cli.resolveAssignee (resolver : cli.Resolver) : List cli.Lookup × Except GoError JsonValue :=
  match resolver.ProfileMe with
  | Except.ok profile =>
    ([cli.Lookup.profileMe],
      Except.ok
        (if profile.EmailAddress ≠ "" ∧ profile.DisplayName ≠ "" then
          JsonValue.string (profile.DisplayName ++ "<" ++ profile.EmailAddress ++ ">")
        else if profile.EmailAddress ≠ "" then JsonValue.string profile.EmailAddress
        else if profile.DisplayName ≠ "" then JsonValue.string profile.DisplayName
        else JsonValue.string ""))
  | Except.error err =>
    let unresolved : Except GoError JsonValue :=
      Except.error (errs.New "assigned_to_required"
        "assigned-to is required and could not be resolved from PAT profile"
        (some err.Error))
    match resolver.WhoamiFromHeaders with
    | Except.ok identity =>
      if identity.ID ≠ "" then
        let assignedValue :=
          match resolver.ResolveIdentityByID identity.ID with
          | Except.ok (some resolved) =>
            JsonValue.object (cli.identityRefValue resolved identity.UniqueName)
          | _ => cli.identityRefFallback identity
        ([cli.Lookup.profileMe, cli.Lookup.whoamiFromHeaders,
            cli.Lookup.resolveIdentityByID identity.ID],
          if assignedValue.isEmptyString = true then unresolved else Except.ok assignedValue)
      else if identity.UniqueName ≠ "" then
        ([cli.Lookup.profileMe, cli.Lookup.whoamiFromHeaders],
          Except.ok (JsonValue.string identity.UniqueName))
      else ([cli.Lookup.profileMe, cli.Lookup.whoamiFromHeaders], unresolved)
    | Except.error _ => ([cli.Lookup.profileMe, cli.Lookup.whoamiFromHeaders], unresolved)

/-- The function `buildCreatePatch`. The client is given by what its identity calls answer
(`resolver`) and by its `baseURL`. -/
def cli.buildCreatePatch (equalFold : String → String → Bool) (resolver : cli.Resolver)
    (baseURL : String) (title assigned : String) (sets : List String) (parentID : Int)
    (parentRel : String) : cli.CreateRun :=
  let patch : List cli.PatchOp :=
    [{ op := "add", path := "/fields/System.Title", value := JsonValue.string title }]
  match cli.scanSets equalFold sets assigned [] with
  | Except.error err => { lookups := [], result := Except.error err }
  | Except.ok (assignedString, remainingSets) =>
    let assignedValue : JsonValue :=
      if assignedString ≠ "" then JsonValue.string assignedString else JsonValue.string ""
    let resolution : List cli.Lookup × Except GoError JsonValue :=
      if assignedValue.isEmptyString = true then cli.resolveAssignee resolver
      else ([], Except.ok assignedValue)
    match resolution.2 with
    | Except.error err => { lookups := resolution.1, result := Except.error err }
    | Except.ok assignedValue =>
      if assignedValue.isEmptyString = true then
        { lookups := resolution.1,
          result := Except.error (errs.New "assigned_to_required" "assigned-to is required" none) }
      else
        let patch := patch ++
          [{ op := "add", path := "/fields/System.AssignedTo", value := assignedValue }]
        let patch :=
          if parentID > 0 then
            let relationType :=
              if parentRel = "" then "System.LinkTypes.Hierarchy-Reverse" else parentRel
            patch ++ [{ op := "add", path := "/relations/-",
                        value := JsonValue.object [("rel", JsonValue.string relationType),
                          ("url", JsonValue.string (api.WorkItemURL baseURL parentID))] }]
          else patch
        match cli.buildPatch remainingSets "" with
        | Except.error err => { lookups := resolution.1, result := Except.error err }
        | Except.ok setPatch => { lookups := resolution.1, result := Except.ok (patch ++ setPatch) }

/-- The add-operation of a well-formed assignment; none for a malformed one. -/
def cli.assignmentOp (set : String) : Option cli.PatchOp :=
  match cli.parseAssignment set with
  | Except.ok (field, value) =>
    some { op := "add", path := "/fields/" ++ field, value := JsonValue.string value }
  | Except.error _ => none

/-- Whether an assignment is well formed and names the assignee field, letter case aside. -/
def cli.isAssigneeSet (equalFold : String → String → Bool) (set : String) : Bool :=
  match cli.parseAssignment set with
  | Except.ok (field, _) => equalFold field "System.AssignedTo"
  | Except.error _ => false

/-- The value of the first assignment that names the assignee field and has a non-empty
value, if there is one (the words of the specification for the assignee supplied through a
generic assignment). -/
def cli.setAssignee (equalFold : String → String → Bool) (sets : List String) : Option String :=
  (sets.filterMap (fun set =>
    match cli.parseAssignment set with
    | Except.ok (field, value) =>
      if equalFold field "System.AssignedTo" = true ∧ value ≠ "" then some value else none
    | Except.error _ => none)).head?

/-- The patch document of a create, in the order of the specification: the title, the
assignee with the value `assignee`, the parent relation when `parentID > 0`, then the
operations `setPatch` of the remaining assignments. -/
def cli.createDocument (baseURL title : String) (assignee : JsonValue) (parentID : Int)
    (parentRel : String) (setPatch : List cli.PatchOp) : List cli.PatchOp :=
  [{ op := "add", path := "/fields/System.Title", value := JsonValue.string title },
   { op := "add", path := "/fields/System.AssignedTo", value := assignee }] ++
    (if parentID > 0 then
      [{ op := "add", path := "/relations/-",
         value := JsonValue.object
          [("rel", JsonValue.string
              (if parentRel = "" then "System.LinkTypes.Hierarchy-Reverse" else parentRel)),
           ("url", JsonValue.string (api.joinURL baseURL
              ("_apis/wit/workItems/" ++ toString parentID)))] }]
     else []) ++ setPatch

/-- The assignments that do not name the assignee field, in their original order. -/
def cli.remainingSets (equalFold : String → String → Bool) (sets : List String) : List String :=
  sets.filter (fun set => !cli.isAssigneeSet equalFold set)

/-- The text of `assignedString` after the first loop of `buildCreatePatch`: the explicit
assignee when it is not empty, else the assignee supplied by an assignment, else empty. -/
def cli.suppliedAssignee (equalFold : String → String → Bool) (assigned : String)
    (sets : List String) : String :=
  if assigned ≠ "" then assigned else (cli.setAssignee equalFold sets).getD ""

/-! ## Sample inputs for the patch builders -/

/-- A comparison of two texts that ignores the case of the letters `a` to `z` (an instance
of the parameter `equalFold` on texts without other letters). -/
def cli.asciiEqualFold (s t : String) : Bool :=
  s.toList.map Char.toLower == t.toList.map Char.toLower

/-- A client whose profile lookup succeeds with neither display name nor e-mail address,
while its response headers identify the user `42:CORP-alice` and the directory knows the
identity `42`. -/
def cli.emptyProfileResolver : cli.Resolver :=
  { ProfileMe := Except.ok { DisplayName := "", EmailAddress := "", ID := "42" },
    WhoamiFromHeaders := Except.ok { ID := "42", UniqueName := "CORP-alice", Raw := "42:CORP-alice" },
    ResolveIdentityByID := fun id => Except.ok (some
      { ID := id, Descriptor := "", SubjectDescriptor := "", ProviderDisplayName := "Alice",
        Properties := none }) }

/-- The same client with a failing profile lookup. -/
def cli.noProfileResolver : cli.Resolver :=
  { ProfileMe := Except.error (GoError.other "profile service unreachable"),
    WhoamiFromHeaders := cli.emptyProfileResolver.WhoamiFromHeaders,
    ResolveIdentityByID := cli.emptyProfileResolver.ResolveIdentityByID }

/-- A client whose profile lookup gives the display name `Ann` and the address
`ann@x.com`. -/
def cli.profileResolver : cli.Resolver :=
  { ProfileMe := Except.ok { DisplayName := "Ann", EmailAddress := "ann@x.com", ID := "7" },
    WhoamiFromHeaders := Except.error (GoError.other "not asked"),
    ResolveIdentityByID := fun _ => Except.error (GoError.other "not asked") }

/-! ## config -/

/-- The struct `config.Config`. -/
structure config.Config where
  BaseURL : String
  Project : String
  PAT : String
  deriving DecidableEq, Repr

/-- The method `Config.Redacted`. -/
def config.Config.Redacted (c : config.Config) : config.Config :=
  if c.PAT = "" then c
  else { BaseURL := c.BaseURL, Project := c.Project, PAT := "***" }

/-- What `runConfigView` writes to `stdout` for the loaded configuration `cfg`: the JSON of
the redacted configuration and a newline (`output.PrintJSON`), or the three text lines. The
function `json.Marshal` on a `Config` is the parameter `marshal`. -/
def cli.configViewOutput (marshal : config.Config → String) (jsonMode : Bool)
    (cfg : config.Config) : String :=
  if jsonMode = true then marshal cfg.Redacted ++ "\n"
  else "BaseURL: " ++ cfg.BaseURL ++ "\nProject: " ++ cfg.Project ++ "\nPAT: " ++
    cfg.Redacted.PAT ++ "\n"

/-! ## api: the verbose log -/

/-- The function `truncateBody`, on the bytes of the body and of the text returned. -/
def api.truncateBody (body : List UInt8) : List UInt8 :=
  if body.length ≤ 2048 then body
  else body.take 2048 ++ [46, 46, 46]

/-- What the transport reads of an `http.Request`: the method, the text `req.URL.String()`
and the headers. -/
structure http.Request where
  Method : String
  URL : String
  Header : http.Header
  deriving DecidableEq, Repr

/-- The method `http.Header.Set`, for a key in canonical form: the key gets the one value,
whatever it had before. -/
def http.Header.Set (h : http.Header) (key value : String) : http.Header :=
  { entries := (key, [value]) :: h.entries.filter (fun entry => entry.1 ≠ key) }

/-- The function `basicAuthToken`; the standard base64 encoding is the parameter
`base64`. -/
def api.basicAuthToken (base64 : String → String) (pat : String) : String :=
  base64 (":" ++ pat)

/-- The method `Client.newRequest`. The call `http.NewRequestWithContext(ctx, method,
fullURL, reader)` is the parameter `newRequestWithContext`: an error, or the text of the
parsed URL of a request that has no header yet. -/
def api.newRequest (base64 : String → String)
    (newRequestWithContext : String → String → Except String String) (pat : String)
    (method fullURL contentType : String) : Except GoError http.Request :=
  match newRequestWithContext method fullURL with
  | Except.error err => Except.error (GoError.other err)
  | Except.ok url =>
    let header : http.Header := { entries := [] }
    let header := header.Set "Accept" "application/json"
    let header := if contentType ≠ "" then header.Set "Content-Type" contentType else header
    let header := header.Set "Authorization" ("Basic " ++ api.basicAuthToken base64 pat)
    Except.ok { Method := method, URL := url, Header := header }

/-- One call of `fmt.Fprintf` on the log sink, with the arguments of its format. -/
inductive api.LogEntry where
  /-- The format `"> %s %s\n"`: method and URL. -/
  | requestLine (method url : String)
  /-- The format `"> %s: %s\n"`: header name and one of its values. -/
  | header (key value : String)
  /-- The format `"> body: %s\n"`: the truncated body. -/
  | body (text : List UInt8)
  deriving DecidableEq, Repr

/-- The calls of `fmt.Fprintf` made by the loop over the header map of `logRequest`, when
the loop meets the entries in the order `visited`: the lines of every header but those
named `Authorization`, letter case aside. `strings.EqualFold` is the parameter
`equalFold`. -/
def api.headerLines (equalFold : String → String → Bool)
    (visited : List (String × List String)) : List api.LogEntry :=
  visited.flatMap (fun entry =>
    if equalFold entry.1 "Authorization" = true then []
    else entry.2.map (fun value => api.LogEntry.header entry.1 value))

/-- The method `Client.logRequest`: the calls of `fmt.Fprintf`, in order. The parameter
`hasLog` is `c.log != nil`. The loop ranges over the header map, and Go leaves the order
of a range over a map open, also between two calls: the parameter `order` gives the order
in which this call meets the entries, a rearrangement of `req.Header.entries`. -/
def api.logRequest (equalFold : String → String → Bool) (hasLog : Bool)
    (order : List (String × List String) → List (String × List String))
    (req : http.Request) (body : List UInt8) : List api.LogEntry :=
  if hasLog = false then []
  else
    [api.LogEntry.requestLine req.Method req.URL] ++
      api.headerLines equalFold (order req.Header.entries) ++
      (if body.length > 0 then [api.LogEntry.body (api.truncateBody body)] else [])

/-- The header name of a log entry, if it is a header line. -/
def api.LogEntry.headerName : api.LogEntry → Option String
  | api.LogEntry.header key _ => some key
  | _ => none

/-! ## api: counting the waits computed by backoff -/

/-- Whether the wait after the response of attempt `i` is computed by backoff: the function
`retryAfter` gives 0 for its `Retry-After` value. -/
def api.waitIsBackoff (env : Nat → api.Outcome) (i : Nat) : Bool :=
  decide (api.retryAfter ((api.responseOf (env i)).Header.Get "Retry-After") = 0)

/-- The number of attempts before attempt `k` whose wait is computed by backoff. -/
def api.backoffWaitsBefore (env : Nat → api.Outcome) (k : Nat) : Nat :=
  ((List.range k).filter (api.waitIsBackoff env)).length

/-- The backoff value after `c` doublings: `min (500 * 2 ^ c) 5000` ms. -/
def api.cappedBackoff (c : Nat) : Int :=
  min (500 * 2 ^ c) 5000 * time.Millisecond

/-- Five responses with status 503; the first, second and fourth carry `Retry-After: 7`. -/
def api.mixedServer (k : Nat) : api.Outcome :=
  api.Outcome.response (api.sampleResponse 503 (if k = 0 ∨ k = 1 ∨ k = 3 then "7" else ""))

/-! ## Sample inputs for the log and the normalisation -/

/-- A stand-in for the base64 encoding: the text between brackets. -/
def api.sampleBase64 (s : String) : String := "[" ++ s ++ "]"

/-- A stand-in for `http.NewRequestWithContext` that accepts every call and keeps the URL as
written. -/
def api.sampleNewRequest (_ : String) (fullURL : String) : Except String String :=
  Except.ok fullURL

/-- The request that `newRequest` builds for a `POST` of JSON, for the token `pat`. -/
def api.sampleRequest (pat : String) : Except GoError http.Request :=
  api.newRequest api.sampleBase64 api.sampleNewRequest pat "POST"
    "https://tfs/Coll/Proj/_apis/wit/wiql?api-version=6.0" "application/json"

/-- The request of `sampleRequest`, written out. -/
def api.sampleBuilt (pat : String) : http.Request :=
  { Method := "POST",
    URL := "https://tfs/Coll/Proj/_apis/wit/wiql?api-version=6.0",
    Header := { entries :=
      [("Authorization", ["Basic " ++ api.sampleBase64 (":" ++ pat)]),
       ("Content-Type", ["application/json"]),
       ("Accept", ["application/json"])] } }

/-- The raw work item of the test `TestNormalizeWorkItemIdentity`. -/
def output.sampleIdentityItem : api.WorkItem :=
  { ID := 42,
    Fields := some
      [("System.WorkItemType", JsonValue.string "User Story"),
       ("System.State", JsonValue.string "Active"),
       ("System.Title", JsonValue.string "Test"),
       ("System.AssignedTo", JsonValue.object
          [("displayName", JsonValue.string "Alex Doe"),
           ("uniqueName", JsonValue.string "alex@example.com")])],
    Relations := [],
    URL := "http://example.com/wi/42" }

/-- The raw work item of the test `TestNormalizeWorkItemAssignedString`. -/
def output.sampleStringItem : api.WorkItem :=
  { ID := 1,
    Fields := some [("System.AssignedTo", JsonValue.string "Pat Owner")],
    Relations := [],
    URL := "" }

/-- The fields of a raw work item as a mapping: the nil map has no binding. -/
def api.WorkItem.fieldMap (raw : api.WorkItem) : JsonObject :=
  match raw.Fields with
  | some fields => fields
  | none => []

/-- The paths of the operations of a patch that a run returned, in order; none for an
error. -/
def cli.CreateRun.paths (run : cli.CreateRun) : Option (List String) :=
  match run.result with
  | Except.ok patch => some (patch.map (fun op => op.path))
  | Except.error _ => none

/-! ## cli: quoted literals -/

/-- The lengths of the maximal runs of single quotes in a list of characters, in order;
`run` is the length of the run that the characters read so far end with. -/
def cli.quoteRunsFrom : Nat → List Char → List Nat
  | run, [] => if run = 0 then [] else [run]
  | run, c :: cs =>
    if c = cli.quote then cli.quoteRunsFrom (run + 1) cs
    else (if run = 0 then [] else [run]) ++ cli.quoteRunsFrom 0 cs

/-- The lengths of the maximal runs of single quotes in a text. -/
def cli.quoteRuns (s : String) : List Nat :=
  cli.quoteRunsFrom 0 s.toList

/-- Reading a quoted literal of the query language, from just after its opening quote: two
single quotes stand for one quote of the content, a single quote ends the literal. The
result is the content and the characters after the closing quote; none when the literal is
not closed. -/
def cli.scanLiteral : List Char → Option (List Char × List Char)
  | [] => none
  | [c] => if c = cli.quote then some ([], []) else none
  | c :: d :: ds =>
    if c = cli.quote then
      if d = cli.quote then
        match cli.scanLiteral ds with
        | some (content, rest) => some (cli.quote :: content, rest)
        | none => none
      else some ([], d :: ds)
    else
      match cli.scanLiteral (d :: ds) with
      | some (content, rest) => some (c :: content, rest)
      | none => none


/-! ## cli: the positional argument -/

/-- The function `strings.HasPrefix`. -/
def strings.HasPrefix (s pre : String) : Bool :=
  strings.startsWith s.toList pre.toList

/-- The scan of `strings.IndexByte`: the byte offset of the first `c` at or after offset
`off`, or `-1`. -/
def strings.indexByteFrom (c : Char) : Nat → List Char → Int
  | _, [] => -1
  | off, d :: ds => if d = c then Int.ofNat off else strings.indexByteFrom c (off + d.utf8Size) ds

/-- The function `strings.IndexByte` for a byte `c` below 128, which in UTF-8 occurs only as
the character `c` itself. -/
def strings.IndexByte (s : String) (c : Char) : Int :=
  strings.indexByteFrom c 0 s.toList

/-- The table `wiqlValueFlags`. -/
def cli.wiqlValueFlags : List (String × Bool) :=
  [("top", true), ("base-url", true), ("project", true), ("pat", true)]

/-- The table `updateValueFlags`: the entries of `wiqlValueFlags` and three more. -/
def cli.updateValueFlags : List (String × Bool) :=
  [("set", true), ("add-comment", true), ("yes", false)] ++ cli.wiqlValueFlags

/-- The read `valueFlags[name]` of a `map[string]bool`: a missing key reads as `false`. -/
def cli.flagTakesValue (valueFlags : List (String × Bool)) (name : String) : Bool :=
  match valueFlags.lookup name with
  | some b => b
  | none => false

/-- The variables of the loop of `splitPositional`. -/
structure cli.SplitState where
  positional : String
  rest : List String
  skipNext : Bool

/-- One round of the loop of `splitPositional`. -/
def cli.splitStep (valueFlags : List (String × Bool)) (st : cli.SplitState) (arg : String) :
    cli.SplitState :=
  if st.skipNext then { st with rest := st.rest ++ [arg], skipNext := false }
  else if strings.HasPrefix arg "-" then
    if strings.IndexByte (strings.TrimLeft arg "-") '=' ≥ 0 then
      { st with rest := st.rest ++ [arg] }
    else if cli.flagTakesValue valueFlags (strings.TrimLeft arg "-") then
      { st with rest := st.rest ++ [arg], skipNext := true }
    else { st with rest := st.rest ++ [arg] }
  else if st.positional = "" then { st with positional := arg }
  else { st with rest := st.rest ++ [arg] }

/-- The function `splitPositional`. -/
def cli.splitPositional (args : List String) (valueFlags : List (String × Bool)) :
    String × List String :=
  let st := args.foldl (cli.splitStep valueFlags) { positional := "", rest := [], skipNext := false }
  (st.positional, st.rest)

/-- Whether an argument starts with `-`. -/
def cli.isFlagArg (arg : String) : Bool :=
  arg.toList.head? = some '-'

/-- Whether an argument is a value-taking flag written without `=`: it starts with `-`,
holds no `=`, and the table marks its name, the argument without its leading dashes. -/
def cli.isValueFlagArg (valueFlags : List (String × Bool)) (arg : String) : Bool :=
  cli.isFlagArg arg && !arg.toList.contains '=' &&
    cli.flagTakesValue valueFlags (strings.TrimLeft arg "-")

/-- The index of the first argument that does not start with `-` and is not the value
following a value-taking flag written without `=`; `skip` says that the first argument of
the list follows such a flag. -/
def cli.firstCandidate (valueFlags : List (String × Bool)) : Bool → List String → Option Nat
  | _, [] => none
  | true, _ :: args => (cli.firstCandidate valueFlags false args).map (fun i => i + 1)
  | false, arg :: args =>
    if cli.isFlagArg arg then
      (cli.firstCandidate valueFlags (cli.isValueFlagArg valueFlags arg) args).map
        (fun i => i + 1)
    else some 0

/-- The result described for `splitPositional`: the first candidate as positional and the
other arguments as rest, or the empty positional and all arguments. -/
def cli.splitAtFirstCandidate (valueFlags : List (String × Bool)) (args : List String) :
    String × List String :=
  match cli.firstCandidate valueFlags false args with
  | some i => (args.getD i "", args.eraseIdx i)
  | none => ("", args)

/-- The result of `splitPositional` in full: flags and their values are kept, empty
candidates are dropped, and the first non-empty candidate is the positional, after which
every argument is kept. -/
def cli.splitNonEmpty (valueFlags : List (String × Bool)) :
    Bool → List String → String × List String
  | _, [] => ("", [])
  | true, arg :: args =>
    ((cli.splitNonEmpty valueFlags false args).1,
      arg :: (cli.splitNonEmpty valueFlags false args).2)
  | false, arg :: args =>
    if cli.isFlagArg arg then
      ((cli.splitNonEmpty valueFlags (cli.isValueFlagArg valueFlags arg) args).1,
        arg :: (cli.splitNonEmpty valueFlags (cli.isValueFlagArg valueFlags arg) args).2)
    else if arg = "" then cli.splitNonEmpty valueFlags false args
    else (arg, args)

/-! ## cli: the base URL without the project -/

/-- The function `strings.ToLower`, which maps every character of `s` by `unicode.ToLower`;
the character map is the parameter `toLower`. -/
def strings.ToLower (toLower : Char → Char) (s : String) : String :=
  String.mk (s.toList.map toLower)

/-- The function `strings.HasSuffix`. -/
def strings.HasSuffix (s suffix : String) : Bool :=
  suffix.toList.isSuffixOf s.toList

/-- The parts of a text between the occurrences of `sep`. -/
def strings.splitChars (sep : Char) : List Char → List (List Char)
  | [] => [[]]
  | c :: cs =>
    if c = sep then [] :: strings.splitChars sep cs
    else
      match strings.splitChars sep cs with
      | part :: parts => (c :: part) :: parts
      | [] => [[c]]

/-- The call `strings.Split(s, sep)` for a separator `sep` of one character. -/
def strings.Split (s : String) (sep : Char) : List String :=
  (strings.splitChars sep s.toList).map String.mk

/-- The number of bytes of a text in UTF-8, the `len` of a Go string. -/
def strings.byteLen (cs : List Char) : Nat :=
  (cs.map Char.utf8Size).sum

/-- The first `n` bytes of a text: `none` when the text is shorter than `n` bytes, and when
byte `n` falls inside a character. -/
def strings.takeBytes : List Char → Nat → Option (List Char)
  | _, 0 => some []
  | [], _ + 1 => none
  | c :: cs, n + 1 =>
    if c.utf8Size ≤ n + 1 then
      match strings.takeBytes cs (n + 1 - c.utf8Size) with
      | some head => some (c :: head)
      | none => none
    else none

/-- The slice expression `s[:n]`. The result is `none` when `n` is out of range, where the
expression panics, and when the cut falls inside a character, where the bytes of the
result are not the UTF-8 form of a text. -/
def strings.sliceTo (s : String) (n : Int) : Option String :=
  if n < 0 then none
  else
    match strings.takeBytes s.toList n.toNat with
    | some head => some (String.mk head)
    | none => none

/-- The fields of the struct `url.URL`; the user information is kept as text. -/
structure url.URL where
  Scheme : String
  Opaque : String
  User : String
  Host : String
  Path : String
  RawPath : String
  RawQuery : String
  Fragment : String

/-- The block of `normalizeBaseURL` that works on the parsed URL: `some` result when the
block returns, `none` when control reaches the statement after it. The functions
`url.Parse` and `URL.String` are the parameters `urlParse` and `urlString`. -/
def cli.normalizeParsed (equalFold : String → String → Bool)
    (urlParse : String → Except GoError url.URL) (urlString : url.URL → String)
    (trimmed project : String) : Option String :=
  match urlParse trimmed with
  | Except.error _ => none
  | Except.ok parsed =>
    if parsed.Scheme = "" then none
    else
      let pathTrim := strings.TrimRight parsed.Path "/"
      let parts := strings.Split pathTrim '/'
      match parts.getLast? with
      | none => none
      | some last =>
        if equalFold last project then
          let path := strings.Join parts.dropLast "/"
          let path := if path = "" then "/" else path
          some (strings.TrimRight (urlString { parsed with Path := path }) "/")
        else none

/-- The function `normalizeBaseURL`. The result is `none` when the slice expression of the
last statement has no value, see `strings.sliceTo`. -/
def cli.normalizeBaseURL (toLower : Char → Char) (equalFold : String → String → Bool)
    (urlParse : String → Except GoError url.URL) (urlString : url.URL → String)
    (baseURL project : String) : Option (String × Bool) :=
  if baseURL = "" ∨ project = "" then some (baseURL, false)
  else
    let trimmed := strings.TrimRight baseURL "/"
    let lowerTrim := strings.ToLower toLower trimmed
    let lowerProject := strings.ToLower toLower project
    if !strings.HasSuffix lowerTrim ("/" ++ lowerProject) then some (baseURL, false)
    else
      match cli.normalizeParsed equalFold urlParse urlString trimmed project with
      | some result => some (result, true)
      | none =>
        match strings.sliceTo trimmed
            (Int.ofNat (strings.byteLen trimmed.toList) -
              Int.ofNat (strings.byteLen project.toList) - 1) with
        | some head => some (strings.TrimRight head "/", true)
        | none => none

/-- Whether the base URL, with trailing slashes removed, ends in `/` and the project when
letter case is ignored: the test made by `normalizeBaseURL`. -/
def cli.endsInProject (toLower : Char → Char) (baseURL project : String) : Bool :=
  strings.HasSuffix (strings.ToLower toLower (strings.TrimRight baseURL "/"))
    ("/" ++ strings.ToLower toLower project)

/-- The base URL with trailing slashes removed, then without its last characters, as many
as `/` and the project have, then again with trailing slashes removed. -/
def cli.withoutProject (baseURL project : String) : String :=
  strings.TrimRight
    (String.mk ((strings.TrimRight baseURL "/").toList.take
      ((strings.TrimRight baseURL "/").length - (project.length + 1)))) "/"

/-- An instance of `url.Parse` for texts of the form scheme, `://`, host, path, where the
scheme is made of letters and host and path of letters, digits, `.`, `-`, `_` and `/`, with a
non-empty host: the scheme in lower case, the host up to the first `/`, and the path from
there. Every other text is answered with an error. -/
def url.sampleParse (rawURL : String) : Except GoError url.URL :=
  match strings.cutChars ':' rawURL.toList with
  | some (scheme, '/' :: '/' :: rest) =>
    if !scheme.isEmpty && scheme.all Char.isAlpha &&
        rest.all (fun c => c.isAlphanum || c = '.' || c = '-' || c = '_' || c = '/') &&
        rest.head? ≠ some '/' && !rest.isEmpty then
      Except.ok
        { Scheme := String.mk (scheme.map Char.toLower), Opaque := "", User := "",
          Host := String.mk (rest.takeWhile (fun c => c ≠ '/')),
          Path := String.mk (rest.dropWhile (fun c => c ≠ '/')),
          RawPath := "", RawQuery := "", Fragment := "" }
    else Except.error (GoError.other "parse: not of the plain form")
  | _ => Except.error (GoError.other "parse: not of the plain form")

/-- An instance of `URL.String` for a URL with scheme, host and a path that is empty or
starts with `/` and needs no escaping, and with no other part. -/
def url.sampleString (u : url.URL) : String :=
  u.Scheme ++ "://" ++ u.Host ++ u.Path

/-- The URL `parsed` prints back as the text it was parsed from: the text is a fixed part
followed by the path, the path is empty or starts with `/`, and with `/` or the beginning
of the path in place of the path `urlString` gives the fixed part followed by that. -/
def url.printsBack (urlString : url.URL → String) (text : String) (parsed : url.URL) : Prop :=
  ∃ fixed : String, text = fixed ++ parsed.Path ∧
    (parsed.Path = "" ∨ parsed.Path.toList.head? = some '/') ∧
    ∀ path : String, (path = "/" ∨ path.toList <+: parsed.Path.toList) →
      urlString { parsed with Path := path } = fixed ++ path

/-- An instance of `unicode.ToLower` on the letters `A` to `Z` and on the Kelvin sign
U+212A, whose lower case is the letter `k`; every other character is left as it is. -/
def unicode.sampleToLower (c : Char) : Char :=
  if c = Char.ofNat 0x212A then 'k' else c.toLower

/-- An instance of `url.Parse` for texts that hold no scheme, no host, no query and no
fragment, such as `host/k` and `/k`: the whole text is the path. -/
def url.pathOnlyParse (rawURL : String) : Except GoError url.URL :=
  Except.ok
    { Scheme := "", Opaque := "", User := "", Host := "", Path := rawURL, RawPath := "",
      RawQuery := "", Fragment := "" }

/-! ## time: pauses -/

/-- The pause made by the call `time.Sleep(d)`: the duration `d`, and none at all for a
negative or zero duration, for which `time.Sleep` returns at once. -/
def time.Sleep (d : Int) : Int :=
  if d ≤ 0 then 0 else d

/-- The pauses of a run, in order: what each call of `time.Sleep` waits. -/
def api.pauses (trace : List api.Event) : List Int :=
  (api.waits trace).map time.Sleep

/-! ## cli: lists of quoted literals -/

/-- The texts `ts` written as quoted literals separated by a comma and a blank, every
single quote of a text doubled (the words of the specification for a value list). -/
def cli.encodeLiterals : List (List Char) → List Char
  | [] => []
  | [t] =>
    cli.quote :: (t.flatMap (fun c => if c = cli.quote then [cli.quote, cli.quote] else [c]) ++
      [cli.quote])
  | t :: next :: ts =>
    cli.quote :: (t.flatMap (fun c => if c = cli.quote then [cli.quote, cli.quote] else [c]) ++
      cli.quote :: ',' :: ' ' :: cli.encodeLiterals (next :: ts))

/-- A reader of a list of quoted literals separated by a comma and a blank: each literal
starts with a quote and is read by `scanLiteral`. -/
def cli.scanLiteralList : Nat → List Char → Option (List (List Char))
  | 0, _ => none
  | _ + 1, [] => some []
  | fuel + 1, c :: cs =>
    if c = cli.quote then
      match cli.scanLiteral cs with
      | some (content, []) => some [content]
      | some (content, ',' :: ' ' :: more) =>
        match cli.scanLiteralList fuel more with
        | some literals => some (content :: literals)
        | none => none
      | _ => none
    else none

/-- The texts of the quoted literals of a value list. -/
def cli.readLiterals (s : String) : Option (List String) :=
  match cli.scanLiteralList (s.length + 1) s.toList with
  | some literals => some (literals.map String.mk)
  | none => none

/-- The values that `joinWiqlValues` keeps: each value trimmed, the blank ones left out. -/
def cli.keptValues (values : List String) : List String :=
  (values.map strings.TrimSpace).filter (fun t => t ≠ "")

/-! ## cli: the last segment of a path -/

/-- The last segment of a path: the text after its last `/`, and the whole path when it
holds no `/`. -/
def strings.lastSegment (path : String) : String :=
  String.mk (path.toList.reverse.takeWhile (fun c => c ≠ '/')).reverse

/-- A path without its last segment: the text before its last `/`, and the empty text when
it holds no `/`. -/
def strings.withoutLastSegment (path : String) : String :=
  String.mk ((path.toList.reverse.dropWhile (fun c => c ≠ '/')).drop 1).reverse

/-- What `normalizeBaseURL` returns from the parsed URL, in the words of the
specification: when `url.Parse` accepts the trimmed base URL with a non-empty scheme and
the last segment of its path, trailing slashes aside, is the project under `EqualFold`,
the URL printed by `URL.String` with that segment removed from its path (`/` when nothing
remains), without trailing slashes; `none` in every other case. -/
def cli.printedWithoutProject (equalFold : String → String → Bool)
    (urlParse : String → Except GoError url.URL) (urlString : url.URL → String)
    (trimmed project : String) : Option String :=
  match urlParse trimmed with
  | Except.error _ => none
  | Except.ok parsed =>
    if parsed.Scheme ≠ "" ∧
        equalFold (strings.lastSegment (strings.TrimRight parsed.Path "/")) project = true then
      some (strings.TrimRight
        (urlString { parsed with
          Path :=
            if strings.withoutLastSegment (strings.TrimRight parsed.Path "/") = "" then "/"
            else strings.withoutLastSegment (strings.TrimRight parsed.Path "/") }) "/")
    else none
/-! # Theorems -/

/-! ## The transport: one pass of the loop -/

theorem api.shouldRetry_not_2xx {status : Int} (h : api.shouldRetry status = true) :
    ¬ (status ≥ 200 ∧ status ≤ 299) := by
  simp [api.shouldRetry] at h
  omega

theorem api.attemptLoop_retry (env : Nat → api.Outcome) (fuel attempt : Nat) (backoff : Int)
    (lastErr : Option GoError) (resp : http.Response)
    (hresp : env attempt = api.Outcome.response resp)
    (hretry : api.shouldRetry resp.StatusCode = true) (hlt : attempt < api.maxRetries) :
    api.attemptLoop env (fuel + 1) attempt backoff lastErr =
      (api.attemptLoop env fuel (attempt + 1) (api.nextBackoff resp backoff)
        (some (api.retryErr resp))).after
        [api.Event.send attempt, api.Event.sleep (api.waitFor resp backoff)] := by
  have h2 := api.shouldRetry_not_2xx hretry
  have hle : attempt ≤ api.maxRetries := Nat.le_of_lt hlt
  simp only [api.attemptLoop, hle, hresp, if_true, h2, if_false, hretry, hlt, and_self,
    api.waitFor, api.nextBackoff, api.retryErr]
  split <;> rfl

theorem api.attemptLoop_last (env : Nat → api.Outcome) (fuel : Nat) (backoff : Int)
    (lastErr : Option GoError) (resp : http.Response)
    (hresp : env api.maxRetries = api.Outcome.response resp)
    (hretry : api.shouldRetry resp.StatusCode = true) :
    api.attemptLoop env (fuel + 1) api.maxRetries backoff lastErr =
      { trace := [api.Event.send api.maxRetries],
        result := some (Except.error (api.statusErr resp)) } := by
  have h2 := api.shouldRetry_not_2xx hretry
  simp [api.attemptLoop, hresp, h2, api.statusErr]

theorem api.attempts_append (a b : List api.Event) :
    api.attempts (a ++ b) = api.attempts a + api.attempts b := by
  simp [api.attempts]

theorem api.waits_append (a b : List api.Event) :
    api.waits (a ++ b) = api.waits a ++ api.waits b := by
  simp [api.waits]

theorem api.Run.after_after (a b : List api.Event) (r : api.Run) :
    (r.after b).after a = r.after (a ++ b) := by
  simp [api.Run.after]

theorem api.Run.after_nil (r : api.Run) : r.after [] = r := by
  simp [api.Run.after]

theorem api.attempts_retryTrace (rs : Nat → http.Response) (k : Nat) :
    api.attempts (api.retryTrace rs k) = k := by
  induction k with
  | zero => rfl
  | succ k ih =>
    rw [api.retryTrace, api.attempts_append, ih]
    rfl

theorem api.length_waits_retryTrace (rs : Nat → http.Response) (k : Nat) :
    (api.waits (api.retryTrace rs k)).length = k := by
  induction k with
  | zero => rfl
  | succ k ih =>
    rw [api.retryTrace, api.waits_append, List.length_append, ih]
    rfl

/-- While every response so far is retryable, the run is the recorded retries followed by
the loop continued from attempt `k`. -/
theorem api.attemptLoop_retries (env : Nat → api.Outcome) (k : Nat)
    (hk : k ≤ api.maxRetries)
    (hprev : ∀ j, j < k → ∃ r, env j = api.Outcome.response r ∧
      api.shouldRetry r.StatusCode = true) (fuel : Nat) :
    api.attemptLoop env (fuel + k) 0 api.initialBackoff none =
      (api.attemptLoop env fuel k (api.backoffAfter (fun j => api.responseOf (env j)) k)
        (api.lastErrAfter (fun j => api.responseOf (env j)) k)).after
        (api.retryTrace (fun j => api.responseOf (env j)) k) := by
  induction k generalizing fuel with
  | zero => simp [api.backoffAfter, api.lastErrAfter, api.retryTrace, api.Run.after_nil]
  | succ k ih =>
    have hk1 : k ≤ api.maxRetries := Nat.le_of_succ_le hk
    have hprev1 : ∀ j, j < k → ∃ r, env j = api.Outcome.response r ∧
        api.shouldRetry r.StatusCode = true := fun j hj => hprev j (Nat.lt_succ_of_lt hj)
    obtain ⟨r, hr, hretry⟩ := hprev k (Nat.lt_succ_self k)
    have hro : api.responseOf (env k) = r := by rw [hr]; rfl
    have hfuel : fuel + (k + 1) = (fuel + 1) + k := by omega
    rw [hfuel, ih hk1 hprev1 (fuel + 1)]
    rw [api.attemptLoop_retry env fuel k _ _ r hr hretry (Nat.lt_of_succ_le hk)]
    rw [api.Run.after_after]
    simp only [api.backoffAfter, api.lastErrAfter, api.retryTrace, hro]

theorem api.doFullURLWithHeaders_retries (env : Nat → api.Outcome) (k : Nat)
    (hk : k ≤ api.maxRetries)
    (hprev : ∀ j, j < k → ∃ r, env j = api.Outcome.response r ∧
      api.shouldRetry r.StatusCode = true) :
    api.doFullURLWithHeaders env =
      (api.attemptLoop env (api.maxRetries + 2 - k) k
        (api.backoffAfter (fun j => api.responseOf (env j)) k)
        (api.lastErrAfter (fun j => api.responseOf (env j)) k)).after
        (api.retryTrace (fun j => api.responseOf (env j)) k) := by
  have h := api.attemptLoop_retries env k hk hprev (api.maxRetries + 2 - k)
  have hfuel : api.maxRetries + 2 - k + k = api.maxRetries + 2 := by omega
  rw [hfuel] at h
  exact h

/-- The loop returns from every state it can reach: the fuel never runs out. -/
theorem api.attemptLoop_returns (env : Nat → api.Outcome) (fuel : Nat) :
    ∀ (attempt : Nat) (backoff : Int) (lastErr : Option GoError),
      api.maxRetries + 1 - attempt < fuel →
      ∃ r, (api.attemptLoop env fuel attempt backoff lastErr).result = some r := by
  induction fuel with
  | zero =>
    intro attempt backoff lastErr hfuel
    exact absurd hfuel (Nat.not_lt_zero _)
  | succ fuel ih =>
    intro attempt backoff lastErr hfuel
    simp only [api.attemptLoop]
    split
    · split
      · exact ⟨_, rfl⟩
      · exact ⟨_, rfl⟩
      · exact ⟨_, rfl⟩
      · split
        · exact ⟨_, rfl⟩
        · split
          · rename_i hcont
            have hnext : api.maxRetries + 1 - (attempt + 1) < fuel := by
              have := hcont.2
              omega
            split
            · exact ih _ _ _ hnext
            · exact ih _ _ _ hnext
          · exact ⟨_, rfl⟩
    · split
      · exact ⟨_, rfl⟩
      · exact ⟨_, rfl⟩

/-- The method `doFullURLWithHeaders` returns, whatever the attempts meet. -/
theorem api.doFullURLWithHeaders_returns (env : Nat → api.Outcome) :
    ∃ r, (api.doFullURLWithHeaders env).result = some r :=
  api.attemptLoop_returns env _ 0 _ _ (by simp [api.maxRetries])

theorem api.shouldRetry_of_spec {status : Int}
    (h : status = 429 ∨ (500 ≤ status ∧ status ≤ 599)) : api.shouldRetry status = true := by
  simp only [api.shouldRetry, Bool.or_eq_true, beq_iff_eq, decide_eq_true_eq]
  omega

/-- When the five responses are all retryable, the run is four recorded retries, a fifth round
trip, and the `http_error` of the fifth response. -/
theorem api.doFullURLWithHeaders_all_retryable (env : Nat → api.Outcome)
    (h : ∀ j, j ≤ api.maxRetries → ∃ r, env j = api.Outcome.response r ∧
      api.shouldRetry r.StatusCode = true) :
    (api.doFullURLWithHeaders env).trace =
        api.retryTrace (fun j => api.responseOf (env j)) api.maxRetries ++
          [api.Event.send api.maxRetries] ∧
      (api.doFullURLWithHeaders env).result =
        some (Except.error (api.statusErr (api.responseOf (env api.maxRetries)))) := by
  obtain ⟨r, hr, hretry⟩ := h api.maxRetries (Nat.le_refl _)
  have hro : api.responseOf (env api.maxRetries) = r := by rw [hr]; rfl
  rw [api.doFullURLWithHeaders_retries env api.maxRetries (Nat.le_refl _)
    (fun j hj => h j (Nat.le_of_lt hj))]
  have hfuel : api.maxRetries + 2 - api.maxRetries = 1 + 1 := by simp [api.maxRetries]
  rw [hfuel, api.attemptLoop_last env 1 _ _ r hr hretry, hro]
  exact ⟨rfl, rfl⟩

/-- C1: when every response has a status that is 429 or in [500,599], `doFullURLWithHeaders`
makes exactly 5 round trips (attempts 0 to 4), sleeps exactly 4 times, once between two
consecutive round trips, and returns an error; the trace ends with the fifth round trip, so
there is no sixth. -/
theorem api.doFullURLWithHeaders_five_attempts (env : Nat → api.Outcome)
    (h : ∀ k, ∃ resp, env k = api.Outcome.response resp ∧
      (resp.StatusCode = 429 ∨ (500 ≤ resp.StatusCode ∧ resp.StatusCode ≤ 599))) :
    api.attempts (api.doFullURLWithHeaders env).trace = 5 ∧
      (api.waits (api.doFullURLWithHeaders env).trace).length = 4 ∧
      (∃ err, (api.doFullURLWithHeaders env).result = some (Except.error err)) ∧
      (∃ w0 w1 w2 w3, (api.doFullURLWithHeaders env).trace =
        [api.Event.send 0, api.Event.sleep w0, api.Event.send 1, api.Event.sleep w1,
         api.Event.send 2, api.Event.sleep w2, api.Event.send 3, api.Event.sleep w3,
         api.Event.send 4]) := by
  have hall : ∀ j, j ≤ api.maxRetries → ∃ r, env j = api.Outcome.response r ∧
      api.shouldRetry r.StatusCode = true := by
    intro j _
    obtain ⟨r, hr, hs⟩ := h j
    exact ⟨r, hr, api.shouldRetry_of_spec hs⟩
  obtain ⟨htrace, hresult⟩ := api.doFullURLWithHeaders_all_retryable env hall
  refine ⟨?_, ?_, ⟨_, hresult⟩, ?_⟩
  · rw [htrace, api.attempts_append, api.attempts_retryTrace]
    rfl
  · rw [htrace, api.waits_append, List.length_append, api.length_waits_retryTrace]
    rfl
  · rw [htrace]
    exact ⟨_, _, _, _, rfl⟩

/-- C1, at a concrete server: five responses with status 503. -/
theorem api.doFullURLWithHeaders_five_attempts_witness :
    api.attempts (api.doFullURLWithHeaders
        (fun _ => api.Outcome.response (api.sampleResponse 503 ""))).trace = 5 ∧
      (api.waits (api.doFullURLWithHeaders
        (fun _ => api.Outcome.response (api.sampleResponse 503 ""))).trace).length = 4 :=
  have h := api.doFullURLWithHeaders_five_attempts
    (fun _ => api.Outcome.response (api.sampleResponse 503 ""))
    (fun _ => ⟨api.sampleResponse 503 "", rfl, Or.inr (by decide)⟩)
  ⟨h.1, h.2.1⟩

/-- C2, as amended: when the first response has a status that is not in [200,299], is not 429
and is below 500, `doFullURLWithHeaders` makes that one round trip, does not sleep, and
returns the `http_error` whose message carries the status and whose details are the raw
response body. -/
theorem api.doFullURLWithHeaders_terminal_status (env : Nat → api.Outcome)
    (resp : http.Response) (hresp : env 0 = api.Outcome.response resp)
    (h2xx : ¬ (200 ≤ resp.StatusCode ∧ resp.StatusCode ≤ 299))
    (h429 : resp.StatusCode ≠ 429) (h500 : resp.StatusCode < 500) :
    (api.doFullURLWithHeaders env).trace = [api.Event.send 0] ∧
      (api.doFullURLWithHeaders env).result =
        some (Except.error (errs.New "http_error"
          ("request failed with status " ++ toString resp.StatusCode) (some resp.Body))) := by
  have hno : ¬ (api.shouldRetry resp.StatusCode = true) := by
    simp only [api.shouldRetry, Bool.or_eq_true, beq_iff_eq, decide_eq_true_eq]
    omega
  have h2 : ¬ (resp.StatusCode ≥ 200 ∧ resp.StatusCode ≤ 299) := h2xx
  simp [api.doFullURLWithHeaders, api.attemptLoop, hresp, h2, hno]

/-- C2 as amended, at a concrete server: a first response with status 404 and body `gone`. -/
theorem api.doFullURLWithHeaders_terminal_status_witness :
    (api.doFullURLWithHeaders (fun _ => api.Outcome.response
        { StatusCode := 404, Header := { entries := [] }, Body := "gone" })).trace =
      [api.Event.send 0] ∧
    (api.doFullURLWithHeaders (fun _ => api.Outcome.response
        { StatusCode := 404, Header := { entries := [] }, Body := "gone" })).result =
      some (Except.error (errs.New "http_error" "request failed with status 404"
        (some "gone"))) :=
  api.doFullURLWithHeaders_terminal_status
    (fun _ => api.Outcome.response
      { StatusCode := 404, Header := { entries := [] }, Body := "gone" })
    { StatusCode := 404, Header := { entries := [] }, Body := "gone" } rfl
    (by decide) (by decide) (by decide)

/-- C2, as stated, fails at status 600: it is not in [200,299], is not 429 and is not in
[500,599], yet the transport sleeps 500 ms and makes a second round trip; when that one is
answered with status 200 the call returns no error at all. -/
theorem api.doFullURLWithHeaders_status_600_retried :
    ¬ ((200 : Int) ≤ 600 ∧ (600 : Int) ≤ 299) ∧ (600 : Int) ≠ 429 ∧
      ¬ ((500 : Int) ≤ 600 ∧ (600 : Int) ≤ 599) ∧
      (api.doFullURLWithHeaders (fun k => api.Outcome.response
        (api.sampleResponse (if k = 0 then 600 else 200) ""))).trace =
        [api.Event.send 0, api.Event.sleep 500000000, api.Event.send 1] ∧
      (api.doFullURLWithHeaders (fun k => api.Outcome.response
        (api.sampleResponse (if k = 0 then 600 else 200) ""))).result =
        some (Except.ok ({ entries := [] }, "")) := by
  refine ⟨by decide, by decide, by decide, by decide, rfl⟩

theorem wrap64_of_fits (x : Int) (h : -9223372036854775808 ≤ x ∧ x ≤ 9223372036854775807) :
    wrap64 x = x := by
  unfold wrap64
  norm_num
  omega

theorem api.retryAfter_of_atoi (value : String) (n : Int)
    (hparse : strconv.Atoi value = some n) (hrange : -9223372036 ≤ n ∧ n ≤ 9223372036) :
    api.retryAfter value = n * time.Second := by
  have hne : value ≠ "" := by
    intro h
    have hempty : strconv.Atoi "" = none := by decide
    rw [h, hempty] at hparse
    exact Option.noConfusion hparse
  simp only [api.retryAfter, hne, if_false, hparse]
  apply wrap64_of_fits
  simp only [time.Second]
  omega

theorem api.waitFor_of_atoi (resp : http.Response) (backoff n : Int)
    (hparse : strconv.Atoi (resp.Header.Get "Retry-After") = some n)
    (hn : n ≠ 0) (hrange : -9223372036 ≤ n ∧ n ≤ 9223372036) :
    api.waitFor resp backoff = n * time.Second ∧ api.nextBackoff resp backoff = backoff := by
  have h := api.retryAfter_of_atoi _ n hparse hrange
  have hne : n * time.Second ≠ 0 := by
    simp only [time.Second]
    omega
  simp [api.waitFor, api.nextBackoff, h, hne]

theorem api.retryAfter_of_parse (value : String) (n : Int)
    (hparse : strconv.Atoi value = some n) :
    api.retryAfter value = wrap64 (n * time.Second) := by
  have hne : value ≠ "" := by
    intro h
    have hempty : strconv.Atoi "" = none := by decide
    rw [h, hempty] at hparse
    exact Option.noConfusion hparse
  simp only [api.retryAfter, hne, if_false, hparse]

theorem api.waits_at_retry (env : Nat → api.Outcome) (k : Nat) (resp : http.Response)
    (hk : k < api.maxRetries)
    (hprev : ∀ j, j < k → ∃ r, env j = api.Outcome.response r ∧
      api.shouldRetry r.StatusCode = true)
    (hresp : env k = api.Outcome.response resp)
    (hretry : api.shouldRetry resp.StatusCode = true) :
    (api.waits (api.doFullURLWithHeaders env).trace)[k]? =
      some (api.waitFor resp (api.backoffAfter (fun j => api.responseOf (env j)) k)) := by
  rw [api.doFullURLWithHeaders_retries env k (Nat.le_of_lt hk) hprev]
  have hfuel : api.maxRetries + 2 - k = (api.maxRetries + 1 - k) + 1 := by omega
  rw [hfuel, api.attemptLoop_retry env _ k _ _ resp hresp hretry hk]
  simp only [api.Run.after, api.waits_append]
  have hlen := api.length_waits_retryTrace (fun j => api.responseOf (env j)) k
  rw [List.getElem?_append_right (Nat.le_of_eq hlen), hlen, Nat.sub_self]
  simp [api.waits]

theorem api.pauses_getElem? (trace : List api.Event) (k : Nat) (w : Int)
    (h : (api.waits trace)[k]? = some w) : (api.pauses trace)[k]? = some (time.Sleep w) := by
  unfold api.pauses
  rw [List.getElem?_map, h]
  rfl

/-- C3, as amended: let the response of attempt `k` be retryable and followed by a retry
(`k < 4`), and let its `Retry-After` value parse as the integer `n`. The duration passed to
`time.Sleep` before attempt `k + 1`, the `k`-th of the run, is `n` seconds wrapped to 64
bits, unless that is 0, and then it is the current backoff value, which advances; from
every state of the loop. So for `0 < n ≤ 9223372036` the duration is `n` seconds and the
pause is exactly `n` seconds; for `-9223372036 ≤ n < 0` the duration is the negative
`n` seconds, `time.Sleep` returns at once and the pause is 0; in both cases the backoff is
left unchanged; and for `n = 0`, as for every `n` whose duration wraps to 0, the duration
is the current backoff value. -/
theorem api.doFullURLWithHeaders_retry_after_wait (env : Nat → api.Outcome) (k : Nat)
    (resp : http.Response) (n : Int) (hk : k < api.maxRetries)
    (hprev : ∀ j, j < k → ∃ r, env j = api.Outcome.response r ∧
      api.shouldRetry r.StatusCode = true)
    (hresp : env k = api.Outcome.response resp)
    (hretry : api.shouldRetry resp.StatusCode = true)
    (hparse : strconv.Atoi (resp.Header.Get "Retry-After") = some n) :
    (api.waits (api.doFullURLWithHeaders env).trace)[k]? =
        some (if wrap64 (n * time.Second) = 0 then
          api.backoffAfter (fun j => api.responseOf (env j)) k
        else wrap64 (n * time.Second)) ∧
      (∀ (fuel : Nat) (backoff : Int) (lastErr : Option GoError),
        api.attemptLoop env (fuel + 1) k backoff lastErr =
          (api.attemptLoop env fuel (k + 1)
            (if wrap64 (n * time.Second) = 0 then
              (if wrap64 (backoff * 2) > api.maxBackoff then api.maxBackoff
               else wrap64 (backoff * 2))
             else backoff)
            (some (api.retryErr resp))).after
            [api.Event.send k,
              api.Event.sleep (if wrap64 (n * time.Second) = 0 then backoff
                else wrap64 (n * time.Second))]) ∧
      (0 < n ∧ n ≤ 9223372036 →
        (api.waits (api.doFullURLWithHeaders env).trace)[k]? = some (n * time.Second) ∧
        (api.pauses (api.doFullURLWithHeaders env).trace)[k]? = some (n * time.Second)) ∧
      (-9223372036 ≤ n ∧ n < 0 →
        (api.waits (api.doFullURLWithHeaders env).trace)[k]? = some (n * time.Second) ∧
        (api.pauses (api.doFullURLWithHeaders env).trace)[k]? = some 0) ∧
      (n ≠ 0 ∧ -9223372036 ≤ n ∧ n ≤ 9223372036 →
        ∀ (fuel : Nat) (backoff : Int) (lastErr : Option GoError),
          api.attemptLoop env (fuel + 1) k backoff lastErr =
            (api.attemptLoop env fuel (k + 1) backoff (some (api.retryErr resp))).after
              [api.Event.send k, api.Event.sleep (n * time.Second)]) ∧
      (n = 0 ∨ wrap64 (n * time.Second) = 0 →
        (api.waits (api.doFullURLWithHeaders env).trace)[k]? =
          some (api.backoffAfter (fun j => api.responseOf (env j)) k)) := by
  have hra := api.retryAfter_of_parse _ n hparse
  have hwait : ∀ backoff : Int, api.waitFor resp backoff =
      (if wrap64 (n * time.Second) = 0 then backoff else wrap64 (n * time.Second)) := by
    intro backoff
    simp only [api.waitFor, hra]
  have hnext : ∀ backoff : Int, api.nextBackoff resp backoff =
      (if wrap64 (n * time.Second) = 0 then
        (if wrap64 (backoff * 2) > api.maxBackoff then api.maxBackoff
         else wrap64 (backoff * 2))
       else backoff) := by
    intro backoff
    simp only [api.nextBackoff, hra]
  have hgen := api.waits_at_retry env k resp hk hprev hresp hretry
  rw [hwait] at hgen
  have hloop : ∀ (fuel : Nat) (backoff : Int) (lastErr : Option GoError),
      api.attemptLoop env (fuel + 1) k backoff lastErr =
        (api.attemptLoop env fuel (k + 1)
          (if wrap64 (n * time.Second) = 0 then
            (if wrap64 (backoff * 2) > api.maxBackoff then api.maxBackoff
             else wrap64 (backoff * 2))
           else backoff)
          (some (api.retryErr resp))).after
          [api.Event.send k,
            api.Event.sleep (if wrap64 (n * time.Second) = 0 then backoff
              else wrap64 (n * time.Second))] := by
    intro fuel backoff lastErr
    rw [api.attemptLoop_retry env fuel k backoff lastErr resp hresp hretry hk, hwait, hnext]
  have hfits : -9223372036 ≤ n ∧ n ≤ 9223372036 → wrap64 (n * time.Second) = n * time.Second := by
    intro hrange
    apply wrap64_of_fits
    simp only [time.Second]
    omega
  have hnz : n ≠ 0 → n * time.Second ≠ 0 := by
    intro hn
    simp only [time.Second]
    omega
  refine ⟨hgen, hloop, ?_, ?_, ?_, ?_⟩
  · rintro ⟨hpos, hle⟩
    have hw := hfits ⟨by omega, hle⟩
    have hne := hnz (by omega)
    have hwaits : (api.waits (api.doFullURLWithHeaders env).trace)[k]? =
        some (n * time.Second) := by
      rw [hgen, hw, if_neg hne]
    refine ⟨hwaits, ?_⟩
    rw [api.pauses_getElem? _ k _ hwaits]
    have hsleep : time.Sleep (n * time.Second) = n * time.Second := by
      unfold time.Sleep
      rw [if_neg]
      simp only [time.Second]
      omega
    rw [hsleep]
  · rintro ⟨hge, hneg⟩
    have hw := hfits ⟨hge, by omega⟩
    have hne := hnz (by omega)
    have hwaits : (api.waits (api.doFullURLWithHeaders env).trace)[k]? =
        some (n * time.Second) := by
      rw [hgen, hw, if_neg hne]
    refine ⟨hwaits, ?_⟩
    rw [api.pauses_getElem? _ k _ hwaits]
    have hsleep : time.Sleep (n * time.Second) = 0 := by
      unfold time.Sleep
      rw [if_pos]
      simp only [time.Second]
      omega
    rw [hsleep]
  · rintro ⟨hn, hge, hle⟩ fuel backoff lastErr
    rw [hloop, hfits ⟨hge, hle⟩, if_neg (hnz hn), if_neg (hnz hn)]
  · intro hzero
    have hw0 : wrap64 (n * time.Second) = 0 := by
      rcases hzero with h | h
      · rw [h]; decide
      · exact h
    rw [hgen, if_pos hw0]

/-- C3 as amended, at a concrete server: status 503 with `Retry-After: 3` on the first
response; the duration passed to `time.Sleep` and the pause are 3 seconds. -/
theorem api.doFullURLWithHeaders_retry_after_wait_witness :
    (api.waits (api.doFullURLWithHeaders
        (fun _ => api.Outcome.response (api.sampleResponse 503 "3"))).trace)[0]? =
        some (3 * time.Second) ∧
      (api.pauses (api.doFullURLWithHeaders
        (fun _ => api.Outcome.response (api.sampleResponse 503 "3"))).trace)[0]? =
        some (3 * time.Second) :=
  (api.doFullURLWithHeaders_retry_after_wait
    (fun _ => api.Outcome.response (api.sampleResponse 503 "3")) 0
    (api.sampleResponse 503 "3") 3 (by decide) (fun j hj => absurd hj (Nat.not_lt_zero j))
    rfl (by decide) (by decide)).2.2.1 (by decide)

/-- C3, as stated, fails for `Retry-After: 0`: the value parses as the integer 0 and the
response is retried, but the sleep is the backoff value 500 ms, not 0 seconds; and for
`Retry-After: 36028797018963968` the duration wraps to 0, so the sleep is again 500 ms. -/
theorem api.doFullURLWithHeaders_retry_after_zero :
    strconv.Atoi "0" = some 0 ∧
      (api.waits (api.doFullURLWithHeaders
        (fun _ => api.Outcome.response (api.sampleResponse 503 "0"))).trace)[0]? =
        some 500000000 ∧
      strconv.Atoi "36028797018963968" = some 36028797018963968 ∧
      (api.waits (api.doFullURLWithHeaders
        (fun _ => api.Outcome.response (api.sampleResponse 503 "36028797018963968"))).trace)[0]? =
        some 500000000 := by
  refine ⟨by decide, by decide, by decide, by decide⟩

/-- C4: when every response is retryable and none carries a `Retry-After` value, the four
sleeps are 500 ms, 1000 ms, 2000 ms and 4000 ms, in this order: the `k`-th sleep is
`min (500 * 2 ^ (k - 1)) 5000` ms, a function of `k` alone. -/
theorem api.doFullURLWithHeaders_backoff_sequence (env : Nat → api.Outcome)
    (h : ∀ k, ∃ resp, env k = api.Outcome.response resp ∧
      api.shouldRetry resp.StatusCode = true ∧ resp.Header.Get "Retry-After" = "") :
    api.waits (api.doFullURLWithHeaders env).trace =
        [500 * time.Millisecond, 1000 * time.Millisecond, 2000 * time.Millisecond,
         4000 * time.Millisecond] ∧
      ∀ k : Nat, 1 ≤ k → k ≤ 4 →
        (api.waits (api.doFullURLWithHeaders env).trace)[k - 1]? =
          some (min (500 * 2 ^ (k - 1)) 5000 * time.Millisecond) := by
  have hall : ∀ j, j ≤ api.maxRetries → ∃ r, env j = api.Outcome.response r ∧
      api.shouldRetry r.StatusCode = true := by
    intro j _
    obtain ⟨r, hr, hs, _⟩ := h j
    exact ⟨r, hr, hs⟩
  have hg : ∀ j, (api.responseOf (env j)).Header.Get "Retry-After" = "" := by
    intro j
    obtain ⟨r, hr, _, hget⟩ := h j
    rw [hr]
    exact hget
  have hzero : api.retryAfter "" = 0 := by decide
  have hwaits : api.waits (api.doFullURLWithHeaders env).trace =
      [500 * time.Millisecond, 1000 * time.Millisecond, 2000 * time.Millisecond,
       4000 * time.Millisecond] := by
    rw [(api.doFullURLWithHeaders_all_retryable env hall).1]
    simp only [api.maxRetries, api.retryTrace, api.backoffAfter, api.waitFor, api.nextBackoff,
      hg, hzero, if_true, api.waits, api.initialBackoff, api.maxBackoff, time.Millisecond,
      time.Second, wrap64]
    norm_num
    rfl
  refine ⟨hwaits, ?_⟩
  intro k hk1 hk4
  rw [hwaits]
  have hcases : k = 1 ∨ k = 2 ∨ k = 3 ∨ k = 4 := by omega
  rcases hcases with hk | hk | hk | hk <;> subst hk <;> simp [time.Millisecond]

/-- C4, at a concrete server: five responses with status 500 and no `Retry-After`. -/
theorem api.doFullURLWithHeaders_backoff_sequence_witness :
    api.waits (api.doFullURLWithHeaders
      (fun _ => api.Outcome.response (api.sampleResponse 500 ""))).trace =
      [500 * time.Millisecond, 1000 * time.Millisecond, 2000 * time.Millisecond,
       4000 * time.Millisecond] :=
  (api.doFullURLWithHeaders_backoff_sequence
    (fun _ => api.Outcome.response (api.sampleResponse 500 ""))
    (fun _ => ⟨api.sampleResponse 500 "", rfl, by decide, by decide⟩)).1

/-- From every state inside the loop, what is returned is not an `http_retry` error. -/
theorem api.attemptLoop_not_http_retry (env : Nat → api.Outcome) (fuel : Nat) :
    ∀ (attempt : Nat) (backoff : Int) (lastErr : Option GoError) (err : GoError),
      attempt ≤ api.maxRetries →
      (api.attemptLoop env fuel attempt backoff lastErr).result = some (Except.error err) →
      err.code? ≠ some "http_retry" := by
  induction fuel with
  | zero =>
    intro attempt backoff lastErr err _ hres
    simp [api.attemptLoop] at hres
  | succ fuel ih =>
    intro attempt backoff lastErr err hle hres
    simp only [api.attemptLoop, hle, if_true] at hres
    split at hres
    · simp only [Option.some.injEq, Except.error.injEq] at hres
      rw [← hres]; simp [GoError.code?]
    · simp only [Option.some.injEq, Except.error.injEq] at hres
      rw [← hres]; simp [GoError.code?]
    · simp only [Option.some.injEq, Except.error.injEq] at hres
      rw [← hres]; simp [GoError.code?]
    · split at hres
      · simp at hres
      · split at hres
        · rename_i hcont
          split at hres
          · exact ih _ _ _ err (Nat.succ_le_of_lt hcont.2) hres
          · exact ih _ _ _ err (Nat.succ_le_of_lt hcont.2) hres
        · simp only [Option.some.injEq, Except.error.injEq] at hres
          rw [← hres]; simp [GoError.code?, errs.New]

/-- C5, as amended: when the retries are exhausted (all five responses are retryable), the
error returned is the `http_error` of the fifth response, carrying its status and body; and
whatever the attempts meet, `doFullURLWithHeaders` never returns an error with code
`http_retry`. -/
theorem api.doFullURLWithHeaders_exhausted_error (env : Nat → api.Outcome) :
    ((∀ k, k ≤ api.maxRetries → ∃ resp, env k = api.Outcome.response resp ∧
        api.shouldRetry resp.StatusCode = true) →
      ∃ last, env api.maxRetries = api.Outcome.response last ∧
        (api.doFullURLWithHeaders env).result =
          some (Except.error (errs.New "http_error"
            ("request failed with status " ++ toString last.StatusCode) (some last.Body)))) ∧
      ∀ err, (api.doFullURLWithHeaders env).result = some (Except.error err) →
        err.code? ≠ some "http_retry" := by
  constructor
  · intro h
    obtain ⟨r, hr, _⟩ := h api.maxRetries (Nat.le_refl _)
    refine ⟨r, hr, ?_⟩
    rw [(api.doFullURLWithHeaders_all_retryable env h).2, hr]
    rfl
  · intro err hres
    exact api.attemptLoop_not_http_retry env _ 0 _ _ err (Nat.zero_le _) hres

/-- C5 as amended, at a concrete server: five responses with status 503. -/
theorem api.doFullURLWithHeaders_exhausted_error_witness :
    ∃ last, (fun _ => api.Outcome.response (api.sampleResponse 503 "")) api.maxRetries =
        api.Outcome.response last ∧
      (api.doFullURLWithHeaders
        (fun _ => api.Outcome.response (api.sampleResponse 503 ""))).result =
        some (Except.error (errs.New "http_error"
          ("request failed with status " ++ toString last.StatusCode) (some last.Body))) :=
  (api.doFullURLWithHeaders_exhausted_error
    (fun _ => api.Outcome.response (api.sampleResponse 503 ""))).1
    (fun _ _ => ⟨api.sampleResponse 503 "", rfl, by decide⟩)

/-- C5, as stated, fails when all five responses have status 503: the retries are exhausted
and the error returned has code `http_error`, not `http_retry`. -/
theorem api.doFullURLWithHeaders_exhausted_not_http_retry :
    (api.doFullURLWithHeaders
        (fun _ => api.Outcome.response (api.sampleResponse 503 ""))).result =
      some (Except.error (errs.New "http_error" "request failed with status 503" (some ""))) ∧
    (errs.New "http_error" "request failed with status 503" (some "")).code? ≠
      some "http_retry" := by
  refine ⟨rfl, by decide⟩

/-- C6: when the round trip of attempt `k` fails (every earlier attempt having received a
retryable status), `doFullURLWithHeaders` returns that error unchanged; the trace ends with
the round trip of attempt `k`: `k + 1` round trips and `k` sleeps in all, so no sleep and no
attempt follows the failure. -/
theorem api.doFullURLWithHeaders_network_error (env : Nat → api.Outcome) (k : Nat)
    (err : String) (hk : k ≤ api.maxRetries)
    (hprev : ∀ j, j < k → ∃ r, env j = api.Outcome.response r ∧
      api.shouldRetry r.StatusCode = true)
    (hfail : env k = api.Outcome.doErr err) :
    (api.doFullURLWithHeaders env).result = some (Except.error (GoError.other err)) ∧
      api.attempts (api.doFullURLWithHeaders env).trace = k + 1 ∧
      (api.waits (api.doFullURLWithHeaders env).trace).length = k ∧
      (api.doFullURLWithHeaders env).trace.getLast? = some (api.Event.send k) := by
  rw [api.doFullURLWithHeaders_retries env k hk hprev]
  have hfuel : api.maxRetries + 2 - k = (api.maxRetries + 1 - k) + 1 := by omega
  rw [hfuel]
  simp only [api.attemptLoop, hk, if_true, hfail, api.Run.after, api.attempts_append,
    api.waits_append, api.attempts_retryTrace, api.length_waits_retryTrace,
    List.length_append, List.getLast?_append, List.getLast?_singleton]
  simp [api.attempts, api.waits]

/-- C6, at a concrete server: two responses with status 503, then a failed round trip. -/
theorem api.doFullURLWithHeaders_network_error_witness :
    (api.doFullURLWithHeaders (fun k => if k < 2 then
        api.Outcome.response (api.sampleResponse 503 "") else
        api.Outcome.doErr "connection refused")).result =
      some (Except.error (GoError.other "connection refused")) ∧
    api.attempts (api.doFullURLWithHeaders (fun k => if k < 2 then
        api.Outcome.response (api.sampleResponse 503 "") else
        api.Outcome.doErr "connection refused")).trace = 3 :=
  have h := api.doFullURLWithHeaders_network_error
    (fun k => if k < 2 then api.Outcome.response (api.sampleResponse 503 "") else
      api.Outcome.doErr "connection refused") 2 "connection refused" (by decide)
    (fun j hj => ⟨api.sampleResponse 503 "", by simp [hj], by decide⟩) (by simp)
  ⟨h.1, h.2.1⟩

/-! ## The batch fetch -/

theorem cli.byID_eq (items : List api.WorkItem) (init : List (Int × api.WorkItem)) :
    items.foldl (fun byID item => (item.ID, item) :: byID) init =
      (items.map (fun item => (item.ID, item))).reverse ++ init := by
  induction items generalizing init with
  | nil => rfl
  | cons item rest ih => simp [List.foldl_cons, ih]

theorem cli.lookup_pairs_some (items : List api.WorkItem) (id : Int) (item : api.WorkItem)
    (h : (items.map (fun item => (item.ID, item))).lookup id = some item) :
    item ∈ items ∧ item.ID = id := by
  induction items with
  | nil => simp at h
  | cons first rest ih =>
    simp only [List.map_cons, List.lookup_cons] at h
    split at h
    · rename_i heq
      simp only [Option.some.injEq] at h
      subst h
      exact ⟨List.mem_cons_self _ _, (eq_of_beq heq).symm⟩
    · obtain ⟨hmem, hid⟩ := ih h
      exact ⟨List.mem_cons_of_mem _ hmem, hid⟩

theorem cli.lookup_pairs_none (items : List api.WorkItem) (id : Int) :
    (items.map (fun item => (item.ID, item))).lookup id = none ↔
      ∀ item ∈ items, item.ID ≠ id := by
  induction items with
  | nil => simp
  | cons first rest ih =>
    simp only [List.map_cons, List.lookup_cons, List.mem_cons, forall_eq_or_imp]
    split
    · rename_i heq
      have : first.ID = id := (eq_of_beq heq).symm
      simp [this]
    · rename_i hne
      have : first.ID ≠ id := fun h => by simp [h] at hne
      simp [this, ih]

theorem cli.orderWorkItems_eq (ids : List Int) (items : List api.WorkItem) :
    cli.orderWorkItems ids items =
      ids.filterMap (fun id =>
        ((items.reverse.map (fun item => (item.ID, item))).lookup id).map
          output.NormalizeWorkItem) := by
  have hfold : ∀ (byID : List (Int × api.WorkItem)) (acc : List output.WorkItem),
      ids.foldl (fun ordered id =>
        match byID.lookup id with
        | some item => ordered ++ [output.NormalizeWorkItem item]
        | none => ordered) acc =
      acc ++ ids.filterMap (fun id => (byID.lookup id).map output.NormalizeWorkItem) := by
    intro byID
    induction ids with
    | nil => intro acc; simp
    | cons id rest ih =>
      intro acc
      rw [List.foldl_cons, ih]
      cases hl : byID.lookup id with
      | none => simp [List.filterMap_cons, hl]
      | some item => simp [List.filterMap_cons, hl]
  unfold cli.orderWorkItems
  simp only [cli.byID_eq, List.append_nil, hfold, List.nil_append, List.map_reverse]

/-- The ids of the items `orderWorkItems` returns are the requested ids that have an item in
the response, in the order requested. -/
theorem cli.map_ID_orderWorkItems (ids : List Int) (items : List api.WorkItem) :
    (cli.orderWorkItems ids items).map (fun w => w.ID) =
      ids.filter (fun id => items.any (fun item => item.ID == id)) := by
  rw [cli.orderWorkItems_eq]
  induction ids with
  | nil => rfl
  | cons id rest ih =>
    cases hl : (items.reverse.map (fun item => (item.ID, item))).lookup id with
    | none =>
      have hnone := (cli.lookup_pairs_none items.reverse id).1 hl
      have hany : items.any (fun item => item.ID == id) = false := by
        rw [List.any_eq_false]
        intro item hmem
        simpa using hnone item (List.mem_reverse.2 hmem)
      simp only [List.filterMap_cons, hl, Option.map_none', List.filter_cons, hany]
      simpa using ih
    | some item =>
      obtain ⟨hmem, hid⟩ := cli.lookup_pairs_some items.reverse id item hl
      have hany : items.any (fun item => item.ID == id) = true := by
        rw [List.any_eq_true]
        exact ⟨item, List.mem_reverse.1 hmem, by simp [hid]⟩
      simp only [List.filterMap_cons, hl, Option.map_some', List.map_cons,
        List.filter_cons, hany, if_true]
      rw [ih]
      simp [output.NormalizeWorkItem, hid]

/-- Every item `orderWorkItems` returns is the normalised form of a response item whose id
was requested. -/
theorem cli.mem_orderWorkItems (ids : List Int) (items : List api.WorkItem)
    (w : output.WorkItem) (hw : w ∈ cli.orderWorkItems ids items) :
    ∃ item ∈ items, item.ID ∈ ids ∧ w = output.NormalizeWorkItem item := by
  rw [cli.orderWorkItems_eq, List.mem_filterMap] at hw
  obtain ⟨id, hid, hw⟩ := hw
  cases hl : (items.reverse.map (fun item => (item.ID, item))).lookup id with
  | none =>
    rw [hl] at hw
    exact Option.noConfusion hw
  | some item =>
    obtain ⟨hmem, hitem⟩ := cli.lookup_pairs_some items.reverse id item hl
    rw [hl] at hw
    simp only [Option.map_some', Option.some.injEq] at hw
    exact ⟨item, List.mem_reverse.1 hmem, by rw [hitem]; exact hid, hw.symm⟩

/-! ### The chunk loop -/

theorem cli.slice_chunk (ids : List Int) (i : Nat) :
    cli.slice ids i
        (if i + cli.maxBatchSize > ids.length then ids.length else i + cli.maxBatchSize) =
      (ids.drop i).take cli.maxBatchSize := by
  unfold cli.slice
  split
  · rename_i hgt
    rw [List.take_of_length_le (by simp), List.take_of_length_le (by simp; omega)]
  · simp

theorem cli.chunk_append_drop (ids : List Int) (i : Nat) :
    (ids.drop i).take cli.maxBatchSize ++ ids.drop (i + cli.maxBatchSize) = ids.drop i := by
  rw [← List.drop_drop, List.take_append_drop]

theorem cli.fetchLoop_step_ok (server : Nat → List Int → Except GoError (List api.WorkItem))
    (ids : List Int) (fuel n i : Nat) (results : List output.WorkItem)
    (items : List api.WorkItem) (hi : i < ids.length)
    (hok : server n ((ids.drop i).take cli.maxBatchSize) = Except.ok items) :
    cli.fetchLoop server ids (fuel + 1) n i results =
      (cli.fetchLoop server ids fuel (n + 1) (i + cli.maxBatchSize)
        (results ++ cli.orderWorkItems ((ids.drop i).take cli.maxBatchSize) items)).afterCall
        ((ids.drop i).take cli.maxBatchSize) := by
  simp only [cli.fetchLoop, hi, if_true, cli.slice_chunk ids i, hok]

theorem cli.fetchLoop_step_error (server : Nat → List Int → Except GoError (List api.WorkItem))
    (ids : List Int) (fuel n i : Nat) (results : List output.WorkItem)
    (err : GoError) (hi : i < ids.length)
    (herr : server n ((ids.drop i).take cli.maxBatchSize) = Except.error err) :
    cli.fetchLoop server ids (fuel + 1) n i results =
      { calls := [(ids.drop i).take cli.maxBatchSize], result := some (Except.error err) } := by
  simp only [cli.fetchLoop, hi, if_true, cli.slice_chunk ids i, herr]

theorem cli.fetchLoop_step_exit (server : Nat → List Int → Except GoError (List api.WorkItem))
    (ids : List Int) (fuel n i : Nat) (results : List output.WorkItem)
    (hi : ¬ i < ids.length) :
    cli.fetchLoop server ids (fuel + 1) n i results =
      { calls := [], result := some (Except.ok results) } := by
  simp only [cli.fetchLoop, hi, if_false]

/-- The chunk loop returns from every state it can reach: the fuel never runs out. -/
theorem cli.fetchLoop_returns (server : Nat → List Int → Except GoError (List api.WorkItem))
    (ids : List Int) (fuel : Nat) :
    ∀ (n i : Nat) (results : List output.WorkItem),
      ids.length - i < fuel →
      ∃ r, (cli.fetchLoop server ids fuel n i results).result = some r := by
  induction fuel with
  | zero =>
    intro n i results hfuel
    exact absurd hfuel (Nat.not_lt_zero _)
  | succ fuel ih =>
    intro n i results hfuel
    by_cases hi : i < ids.length
    · cases hs : server n ((ids.drop i).take cli.maxBatchSize) with
      | error err =>
        rw [cli.fetchLoop_step_error server ids fuel n i results err hi hs]
        exact ⟨_, rfl⟩
      | ok items =>
        rw [cli.fetchLoop_step_ok server ids fuel n i results items hi hs]
        exact ih _ _ _ (by simp only [cli.maxBatchSize]; omega)
    · rw [cli.fetchLoop_step_exit server ids fuel n i results hi]
      exact ⟨_, rfl⟩

/-- The function `fetchWorkItems` returns, whatever the server answers. -/
theorem cli.fetchWorkItems_returns
    (server : Nat → List Int → Except GoError (List api.WorkItem)) (ids : List Int) :
    ∃ r, (cli.fetchWorkItems server ids).result = some r := by
  unfold cli.fetchWorkItems
  split
  · exact ⟨_, rfl⟩
  · exact cli.fetchLoop_returns server ids _ 0 0 [] (by omega)

/-- Every batch call of the loop is the slice of at most `maxBatchSize` ids that starts
`maxBatchSize * k` after the loop index, and that start lies inside the list. -/
theorem cli.fetchLoop_calls (server : Nat → List Int → Except GoError (List api.WorkItem))
    (ids : List Int) (fuel : Nat) :
    ∀ (n i : Nat) (results : List output.WorkItem) (k : Nat) (c : List Int),
      (cli.fetchLoop server ids fuel n i results).calls[k]? = some c →
      c = (ids.drop (i + cli.maxBatchSize * k)).take cli.maxBatchSize ∧
        i + cli.maxBatchSize * k < ids.length := by
  induction fuel with
  | zero =>
    intro n i results k c h
    simp [cli.fetchLoop] at h
  | succ fuel ih =>
    intro n i results k c h
    by_cases hi : i < ids.length
    · cases hs : server n ((ids.drop i).take cli.maxBatchSize) with
      | error err =>
        rw [cli.fetchLoop_step_error server ids fuel n i results err hi hs] at h
        cases k with
        | zero =>
          simp only [List.getElem?_cons_zero, Option.some.injEq] at h
          exact ⟨by simp [← h], by simpa using hi⟩
        | succ k => simp at h
      | ok items =>
        rw [cli.fetchLoop_step_ok server ids fuel n i results items hi hs] at h
        cases k with
        | zero =>
          simp only [cli.FetchRun.afterCall, List.getElem?_cons_zero, Option.some.injEq] at h
          exact ⟨by simp [← h], by simpa using hi⟩
        | succ k =>
          simp only [cli.FetchRun.afterCall, List.getElem?_cons_succ] at h
          obtain ⟨hc, hlt⟩ := ih _ _ _ k c h
          have harith : i + cli.maxBatchSize * (k + 1) = i + cli.maxBatchSize + cli.maxBatchSize * k := by
            rw [Nat.mul_succ]; omega
          rw [harith]
          exact ⟨hc, hlt⟩
    · rw [cli.fetchLoop_step_exit server ids fuel n i results hi] at h
      simp at h

/-- The batch calls of the loop, put end to end, are the start of the ids not yet fetched, and
there are at most `⌈(len - i) / maxBatchSize⌉` of them. -/
theorem cli.fetchLoop_calls_bound (server : Nat → List Int → Except GoError (List api.WorkItem))
    (ids : List Int) (fuel : Nat) :
    ∀ (n i : Nat) (results : List output.WorkItem),
      (∃ rest, (cli.fetchLoop server ids fuel n i results).calls.flatten ++ rest = ids.drop i) ∧
        (cli.fetchLoop server ids fuel n i results).calls.length ≤
          (ids.length - i + (cli.maxBatchSize - 1)) / cli.maxBatchSize := by
  induction fuel with
  | zero =>
    intro n i results
    exact ⟨⟨ids.drop i, by simp [cli.fetchLoop]⟩, by simp [cli.fetchLoop]⟩
  | succ fuel ih =>
    intro n i results
    by_cases hi : i < ids.length
    · have hone : 1 ≤ (ids.length - i + (cli.maxBatchSize - 1)) / cli.maxBatchSize := by
        simp only [cli.maxBatchSize]; omega
      cases hs : server n ((ids.drop i).take cli.maxBatchSize) with
      | error err =>
        rw [cli.fetchLoop_step_error server ids fuel n i results err hi hs]
        exact ⟨⟨ids.drop (i + cli.maxBatchSize), by simp [cli.chunk_append_drop]⟩, by simpa using hone⟩
      | ok items =>
        rw [cli.fetchLoop_step_ok server ids fuel n i results items hi hs]
        obtain ⟨⟨rest, hrest⟩, hlen⟩ := ih (n + 1) (i + cli.maxBatchSize)
          (results ++ cli.orderWorkItems ((ids.drop i).take cli.maxBatchSize) items)
        refine ⟨⟨rest, ?_⟩, ?_⟩
        · simp only [cli.FetchRun.afterCall, List.flatten_cons, List.append_assoc, hrest,
            cli.chunk_append_drop]
        · simp only [cli.FetchRun.afterCall, List.length_cons]
          simp only [cli.maxBatchSize] at hlen ⊢
          omega
    · rw [cli.fetchLoop_step_exit server ids fuel n i results hi]
      exact ⟨⟨ids.drop i, by simp⟩, by simp⟩

theorem cli.map_ID_orderWorkItems_sublist (chunk : List Int) (items : List api.WorkItem) :
    ((cli.orderWorkItems chunk items).map (fun w => w.ID)).Sublist chunk := by
  rw [cli.map_ID_orderWorkItems]
  exact List.filter_sublist chunk

/-- When none of its batch calls fails, the loop returns the items collected so far followed
by the ordered items of each chunk; the calls cover the ids not yet fetched, and the ids of
the new items are a subsequence of these ids. -/
theorem cli.fetchLoop_success (server : Nat → List Int → Except GoError (List api.WorkItem))
    (ids : List Int) (fuel : Nat) :
    ∀ (n i : Nat) (results : List output.WorkItem),
      ids.length - i < fuel →
      (∀ k, i + cli.maxBatchSize * k < ids.length → ∃ items,
        server (n + k) ((ids.drop (i + cli.maxBatchSize * k)).take cli.maxBatchSize) =
          Except.ok items) →
      ∃ fetched,
        (cli.fetchLoop server ids fuel n i results).result =
            some (Except.ok (results ++ fetched)) ∧
          (fetched.map (fun w => w.ID)).Sublist (ids.drop i) ∧
          (cli.fetchLoop server ids fuel n i results).calls.flatten = ids.drop i ∧
          (cli.fetchLoop server ids fuel n i results).calls.length =
            (ids.length - i + (cli.maxBatchSize - 1)) / cli.maxBatchSize := by
  induction fuel with
  | zero =>
    intro n i results hfuel
    exact absurd hfuel (Nat.not_lt_zero _)
  | succ fuel ih =>
    intro n i results hfuel hserver
    by_cases hi : i < ids.length
    · obtain ⟨items, hs⟩ := hserver 0 (by simpa using hi)
      simp only [Nat.mul_zero, Nat.add_zero] at hs
      rw [cli.fetchLoop_step_ok server ids fuel n i results items hi hs]
      have hfuel2 : ids.length - (i + cli.maxBatchSize) < fuel := by
        simp only [cli.maxBatchSize]; omega
      have hserver2 : ∀ k, i + cli.maxBatchSize + cli.maxBatchSize * k < ids.length →
          ∃ items, server (n + 1 + k)
            ((ids.drop (i + cli.maxBatchSize + cli.maxBatchSize * k)).take cli.maxBatchSize) =
            Except.ok items := by
        intro k hk
        have harith : i + cli.maxBatchSize * (k + 1) =
            i + cli.maxBatchSize + cli.maxBatchSize * k := by
          rw [Nat.mul_succ]; omega
        have h := hserver (k + 1) (by rw [harith]; exact hk)
        rw [harith] at h
        have hn : n + (k + 1) = n + 1 + k := by omega
        rw [hn] at h
        exact h
      obtain ⟨fetched, hres, hsub, hflat, hlen⟩ := ih (n + 1) (i + cli.maxBatchSize)
        (results ++ cli.orderWorkItems ((ids.drop i).take cli.maxBatchSize) items)
        hfuel2 hserver2
      refine ⟨cli.orderWorkItems ((ids.drop i).take cli.maxBatchSize) items ++ fetched,
        ?_, ?_, ?_, ?_⟩
      · simp only [cli.FetchRun.afterCall, hres, List.append_assoc]
      · have happ := List.Sublist.append
          (cli.map_ID_orderWorkItems_sublist ((ids.drop i).take cli.maxBatchSize) items) hsub
        rw [cli.chunk_append_drop] at happ
        rw [List.map_append]
        exact happ
      · simp only [cli.FetchRun.afterCall, List.flatten_cons, hflat, cli.chunk_append_drop]
      · simp only [cli.FetchRun.afterCall, List.length_cons, hlen]
        simp only [cli.maxBatchSize]
        omega
    · rw [cli.fetchLoop_step_exit server ids fuel n i results hi]
      refine ⟨[], by simp, ?_, ?_, ?_⟩
      · simp
      · simp [List.drop_of_length_le (Nat.le_of_not_lt hi)]
      · have : ids.length - i = 0 := by omega
        simp [this, cli.maxBatchSize]

/-- When the batch call of chunk `j` (counted from the loop index) is the first to fail, the loop
returns that error, and that call is its last one. -/
theorem cli.fetchLoop_failure (server : Nat → List Int → Except GoError (List api.WorkItem))
    (ids : List Int) (err : GoError) (j : Nat) :
    ∀ (fuel n i : Nat) (results : List output.WorkItem),
      ids.length - i < fuel →
      i + cli.maxBatchSize * j < ids.length →
      (∀ k, k < j → ∃ items,
        server (n + k) ((ids.drop (i + cli.maxBatchSize * k)).take cli.maxBatchSize) =
          Except.ok items) →
      server (n + j) ((ids.drop (i + cli.maxBatchSize * j)).take cli.maxBatchSize) =
        Except.error err →
      (cli.fetchLoop server ids fuel n i results).result = some (Except.error err) ∧
        (cli.fetchLoop server ids fuel n i results).calls.length = j + 1 := by
  induction j with
  | zero =>
    intro fuel n i results hfuel hj _ hfail
    cases fuel with
    | zero => exact absurd hfuel (Nat.not_lt_zero _)
    | succ fuel =>
      simp only [Nat.mul_zero, Nat.add_zero] at hj hfail
      rw [cli.fetchLoop_step_error server ids fuel n i results err hj hfail]
      exact ⟨rfl, rfl⟩
  | succ j ih =>
    intro fuel n i results hfuel hj hprev hfail
    cases fuel with
    | zero => exact absurd hfuel (Nat.not_lt_zero _)
    | succ fuel =>
      have harith : ∀ k, i + cli.maxBatchSize * (k + 1) =
          i + cli.maxBatchSize + cli.maxBatchSize * k := by
        intro k; rw [Nat.mul_succ]; omega
      have hi : i < ids.length := by omega
      obtain ⟨items, hs⟩ := hprev 0 (Nat.succ_pos j)
      simp only [Nat.mul_zero, Nat.add_zero] at hs
      rw [cli.fetchLoop_step_ok server ids fuel n i results items hi hs]
      have hfuel2 : ids.length - (i + cli.maxBatchSize) < fuel := by
        simp only [cli.maxBatchSize]; omega
      have hprev2 : ∀ k, k < j → ∃ items, server (n + 1 + k)
          ((ids.drop (i + cli.maxBatchSize + cli.maxBatchSize * k)).take cli.maxBatchSize) =
          Except.ok items := by
        intro k hk
        have h := hprev (k + 1) (Nat.succ_lt_succ hk)
        rw [harith] at h
        have hn : n + (k + 1) = n + 1 + k := by omega
        rw [hn] at h
        exact h
      have hfail2 : server (n + 1 + j)
          ((ids.drop (i + cli.maxBatchSize + cli.maxBatchSize * j)).take cli.maxBatchSize) =
          Except.error err := by
        have hn : n + (j + 1) = n + 1 + j := by omega
        rw [harith, hn] at hfail
        exact hfail
      obtain ⟨hres, hlen⟩ := ih fuel (n + 1) (i + cli.maxBatchSize)
        (results ++ cli.orderWorkItems ((ids.drop i).take cli.maxBatchSize) items)
        hfuel2 (by rw [← harith]; exact hj) hprev2 hfail2
      exact ⟨by simp only [cli.FetchRun.afterCall, hres],
        by simp only [cli.FetchRun.afterCall, List.length_cons, hlen]⟩

/-! ### Deduplication in `collectIDs` -/

theorem cli.mem_firstOccurrences (ids : List Int) (id : Int) :
    id ∈ cli.firstOccurrences ids ↔ id ∈ ids := by
  induction ids with
  | nil => simp [cli.firstOccurrences]
  | cons first rest ih =>
    simp only [cli.firstOccurrences, List.mem_cons, List.mem_filter, ih, decide_eq_true_eq]
    constructor
    · rintro (h | ⟨h, _⟩)
      · exact Or.inl h
      · exact Or.inr h
    · intro h
      by_cases heq : id = first
      · exact Or.inl heq
      · rcases h with h | h
        · exact Or.inl h
        · exact Or.inr ⟨h, heq⟩

theorem cli.nodup_firstOccurrences (ids : List Int) : (cli.firstOccurrences ids).Nodup := by
  induction ids with
  | nil => simp [cli.firstOccurrences]
  | cons first rest ih =>
    simp only [cli.firstOccurrences, List.nodup_cons, List.mem_filter, decide_eq_true_eq]
    exact ⟨fun h => h.2 rfl, ih.filter _⟩

theorem cli.firstOccurrences_sublist (ids : List Int) :
    (cli.firstOccurrences ids).Sublist ids := by
  induction ids with
  | nil => simp [cli.firstOccurrences]
  | cons first rest ih =>
    simp only [cli.firstOccurrences]
    exact ((List.filter_sublist _).trans ih).cons₂ first

/-- Walking over `xs` from a state whose `seen` and `ids` hold the same ids appends the first
occurrences of `xs` that are not yet in `ids`. -/
theorem cli.foldl_visit (xs : List Int) :
    ∀ st : cli.Collected, (∀ x, x ∈ st.seen ↔ x ∈ st.ids) →
      (xs.foldl (fun st id => st.visit id) st).ids =
        st.ids ++ (cli.firstOccurrences xs).filter (fun x => decide (x ∉ st.ids)) := by
  induction xs with
  | nil => intro st _; simp [cli.firstOccurrences]
  | cons x rest ih =>
    intro st hst
    rw [List.foldl_cons]
    by_cases hx : x ∈ st.seen
    · have hvisit : st.visit x = st := by simp [cli.Collected.visit, hx]
      have hxi : x ∈ st.ids := (hst x).1 hx
      rw [hvisit, ih st hst]
      congr 1
      simp only [cli.firstOccurrences, List.filter_cons, hxi, not_true_eq_false,
        decide_False, Bool.false_eq_true, if_false, List.filter_filter]
      apply List.filter_congr
      intro y _
      by_cases hy : y ∈ st.ids
      · simp [hy]
      · have : y ≠ x := fun h => hy (h ▸ hxi)
        simp [hy, this]
    · have hvisit : st.visit x = { seen := x :: st.seen, ids := st.ids ++ [x] } := by
        simp [cli.Collected.visit, hx]
      have hxi : x ∉ st.ids := fun h => hx ((hst x).2 h)
      rw [hvisit, ih _ (by intro y; simp [hst y]; tauto)]
      simp only [cli.firstOccurrences, List.filter_cons, hxi, not_false_eq_true, decide_True,
        if_true, List.append_assoc, List.singleton_append, List.filter_filter]
      congr 2
      apply List.filter_congr
      intro y _
      by_cases hy : y ∈ st.ids
      · simp [hy]
      · by_cases hyx : y = x
        · simp [hyx]
        · simp [hy, hyx]

theorem cli.foldl_visitLink (links : List api.WorkItemLink) :
    ∀ st : cli.Collected,
      links.foldl (fun st link => st.visitLink link) st =
        ((links.flatMap (fun link => [link.Source.ID, link.Target.ID])).filter
          (fun id => id ≠ 0)).foldl (fun st id => st.visit id) st := by
  induction links with
  | nil => intro st; rfl
  | cons link rest ih =>
    intro st
    rw [List.foldl_cons, ih]
    by_cases hs : link.Source.ID = 0 <;> by_cases ht : link.Target.ID = 0 <;>
      simp [cli.Collected.visitLink, hs, ht, List.flatMap_cons, List.filter_cons]

/-- The function `collectIDs` returns the ids it walks over, each at its first occurrence. -/
theorem cli.collectIDs_eq (resp : api.WiqlResponse) :
    cli.collectIDs resp = cli.firstOccurrences (cli.candidateIDs resp) := by
  unfold cli.collectIDs cli.candidateIDs
  simp only [cli.foldl_visitLink]
  have hmap : resp.WorkItems.foldl (fun (st : cli.Collected) item => st.visit item.ID)
      { seen := [], ids := [] } =
      (resp.WorkItems.map (fun item => item.ID)).foldl (fun st id => st.visit id)
        { seen := [], ids := [] } := by
    rw [List.foldl_map]
  rw [hmap, ← List.foldl_append, cli.foldl_visit _ _ (by intro x; simp)]
  simp

/-! ### The claims on the batch fetch -/

/-- C9: `orderWorkItems` returns one item for each position of `ids` whose id has an item
in the response and none for the others, in the order of `ids` (an id without an item is
left out, and nothing is reported for it); and every item returned is the normalised form
of a response item whose id was requested, so a response item with another id is dropped. -/
theorem cli.orderWorkItems_requested_and_present (ids : List Int)
    (items : List api.WorkItem) :
    (cli.orderWorkItems ids items).map (fun w => w.ID) =
        ids.filter (fun id => items.any (fun item => item.ID == id)) ∧
      ∀ w ∈ cli.orderWorkItems ids items, ∃ item ∈ items,
        item.ID ∈ ids ∧ w = output.NormalizeWorkItem item :=
  ⟨cli.map_ID_orderWorkItems ids items, cli.mem_orderWorkItems ids items⟩

/-- C9, at a concrete response: ids 5, 1, 5, 3 are requested and the response holds items
8, 3 and 5; item 8 is dropped, id 1 is left out, and 5 and 3 come in the order requested. -/
theorem cli.orderWorkItems_requested_and_present_witness :
    (cli.orderWorkItems [5, 1, 5, 3]
        [api.bareWorkItem 8, api.bareWorkItem 3, api.bareWorkItem 5]).map (fun w => w.ID) =
      [5, 5, 3] :=
  (cli.orderWorkItems_requested_and_present [5, 1, 5, 3]
    [api.bareWorkItem 8, api.bareWorkItem 3, api.bareWorkItem 5]).1.trans (by decide)

/-- C7, as amended: the ids are deduplicated by `collectIDs`, before the fetch.
`collectIDs` returns the ids of the query response (work items, then link ends that are
not zero), each once, at its first occurrence; `fetchWorkItems`, on a list without
duplicates and with no failing batch call, returns at most one item per id, in the order of
the list. For a response listing work items 5, 1, 5, 3 and a server holding items 1, 3, 5,
`collectIDs` gives `[5, 1, 3]` and the fetch returns items ordered 5, 1, 3 with exactly one
batch call (`sampleWiql`, `sampleServer`). -/
theorem cli.collectIDs_dedup_then_fetch
    (server : Nat → List Int → Except GoError (List api.WorkItem)) :
    (∀ resp : api.WiqlResponse,
        cli.collectIDs resp = cli.firstOccurrences (cli.candidateIDs resp) ∧
          (cli.collectIDs resp).Nodup) ∧
      (∀ ids : List Int, ids.Nodup →
        (∀ k, cli.maxBatchSize * k < ids.length → ∃ items,
          server k ((ids.drop (cli.maxBatchSize * k)).take cli.maxBatchSize) =
            Except.ok items) →
        ∃ items, (cli.fetchWorkItems server ids).result = some (Except.ok items) ∧
          (items.map (fun w => w.ID)).Sublist ids ∧ (items.map (fun w => w.ID)).Nodup) ∧
      cli.collectIDs cli.sampleWiql = [5, 1, 3] ∧
      (cli.fetchWorkItems cli.sampleServer [5, 1, 3]).itemIDs = some [5, 1, 3] ∧
      (cli.fetchWorkItems cli.sampleServer [5, 1, 3]).calls = [[5, 1, 3]] := by
  refine ⟨?_, ?_, by decide, by decide, by decide⟩
  · intro resp
    rw [cli.collectIDs_eq]
    exact ⟨rfl, cli.nodup_firstOccurrences _⟩
  · intro ids hnodup hserver
    by_cases hlen : ids.length = 0
    · have hnil : ids = [] := List.length_eq_zero.1 hlen
      subst hnil
      exact ⟨[], by simp [cli.fetchWorkItems], by simp, by simp⟩
    · obtain ⟨fetched, hres, hsub, _, _⟩ := cli.fetchLoop_success server ids
        (ids.length + 1) 0 0 [] (by omega)
        (by intro k hk; simpa using hserver k (by simpa using hk))
      refine ⟨fetched, ?_, ?_, ?_⟩
      · simpa [cli.fetchWorkItems, hlen] using hres
      · simpa using hsub
      · exact (List.Sublist.nodup (by simpa using hsub) hnodup)

/-- C7 as amended, at a concrete input: the ids 5, 1, 3 and a server holding items 1, 3, 5. -/
theorem cli.collectIDs_dedup_then_fetch_witness :
    ∃ items, (cli.fetchWorkItems cli.sampleServer [5, 1, 3]).result = some (Except.ok items) ∧
      (items.map (fun w => w.ID)).Sublist [5, 1, 3] ∧ (items.map (fun w => w.ID)).Nodup :=
  (cli.collectIDs_dedup_then_fetch cli.sampleServer).2.1
    [5, 1, 3] (by decide) (fun _ _ => ⟨_, rfl⟩)

/-- C7, as stated, fails for the ids 5, 1, 5, 3 and a server holding items 1, 3, 5:
`fetchWorkItems` makes one batch call with all four ids and returns four items, ordered
5, 1, 5, 3; the duplicate 5 is kept. -/
theorem cli.fetchWorkItems_keeps_duplicates :
    (cli.fetchWorkItems cli.sampleServer [5, 1, 5, 3]).itemIDs = some [5, 1, 5, 3] ∧
      (cli.fetchWorkItems cli.sampleServer [5, 1, 5, 3]).calls = [[5, 1, 5, 3]] := by
  refine ⟨by decide, by decide⟩

/-- C8, as amended: for every id list of length `n`, the `k`-th batch call of
`fetchWorkItems` is the slice of the list that starts at `200 * k` and has at most 200 ids;
it has between 1 and 200 ids; the calls put end to end are the start of the list and there
are at most `⌈n / 200⌉` of them; when no batch call fails, the calls put end to end are
the whole list, there are exactly `⌈n / 200⌉` of them, and items are returned; for the empty
list there is no call and the result is empty. -/
theorem cli.fetchWorkItems_chunks
    (server : Nat → List Int → Except GoError (List api.WorkItem)) (ids : List Int) :
    (∀ (k : Nat) (c : List Int), (cli.fetchWorkItems server ids).calls[k]? = some c →
        c = (ids.drop (200 * k)).take 200 ∧ 1 ≤ c.length ∧ c.length ≤ 200) ∧
      (∃ rest, (cli.fetchWorkItems server ids).calls.flatten ++ rest = ids) ∧
      (cli.fetchWorkItems server ids).calls.length ≤ (ids.length + 199) / 200 ∧
      ((∀ k, 200 * k < ids.length → ∃ items,
          server k ((ids.drop (200 * k)).take 200) = Except.ok items) →
        (cli.fetchWorkItems server ids).calls.flatten = ids ∧
          (cli.fetchWorkItems server ids).calls.length = (ids.length + 199) / 200 ∧
          ∃ items, (cli.fetchWorkItems server ids).result = some (Except.ok items)) ∧
      (ids = [] → (cli.fetchWorkItems server ids).calls = [] ∧
        (cli.fetchWorkItems server ids).result = some (Except.ok [])) := by
  by_cases hlen : ids.length = 0
  · have hnil : ids = [] := List.length_eq_zero.1 hlen
    subst hnil
    simp [cli.fetchWorkItems]
  · have hrun : cli.fetchWorkItems server ids =
        cli.fetchLoop server ids (ids.length + 1) 0 0 [] := by
      simp [cli.fetchWorkItems, hlen]
    rw [hrun]
    refine ⟨?_, ?_, ?_, ?_, ?_⟩
    · intro k c hc
      obtain ⟨hceq, hlt⟩ := cli.fetchLoop_calls server ids _ 0 0 [] k c hc
      simp only [cli.maxBatchSize, Nat.zero_add] at hceq hlt
      refine ⟨hceq, ?_, ?_⟩
      · rw [hceq, List.length_take, List.length_drop]; omega
      · rw [hceq, List.length_take]; omega
    · simpa using (cli.fetchLoop_calls_bound server ids (ids.length + 1) 0 0 []).1
    · simpa [cli.maxBatchSize] using
        (cli.fetchLoop_calls_bound server ids (ids.length + 1) 0 0 []).2
    · intro hserver
      obtain ⟨fetched, hres, _, hflat, hcount⟩ := cli.fetchLoop_success server ids
        (ids.length + 1) 0 0 [] (by omega)
        (by intro k hk
            simpa [cli.maxBatchSize] using
              hserver k (by simpa [cli.maxBatchSize] using hk))
      exact ⟨by simpa using hflat, by simpa [cli.maxBatchSize] using hcount,
        ⟨fetched, by simpa using hres⟩⟩
    · intro hnil
      exact absurd (by simp [hnil]) hlen

theorem cli.length_idsUpTo (n : Nat) : (cli.idsUpTo n).length = n := by
  unfold cli.idsUpTo
  rw [List.length_map, List.length_range]

/-- C8 as amended, at a concrete input: 201 ids and a server that answers every call. -/
theorem cli.fetchWorkItems_chunks_witness :
    (cli.fetchWorkItems (cli.failingAt 5) (cli.idsUpTo 201)).calls.flatten = cli.idsUpTo 201 ∧
      (cli.fetchWorkItems (cli.failingAt 5) (cli.idsUpTo 201)).calls.length =
        ((cli.idsUpTo 201).length + 199) / 200 :=
  have h := (cli.fetchWorkItems_chunks (cli.failingAt 5) (cli.idsUpTo 201)).2.2.2.1
    (fun k hk => ⟨[], by
      rw [cli.length_idsUpTo] at hk
      have hk5 : k ≠ 5 := by omega
      simp [cli.failingAt, hk5]⟩)
  ⟨h.1, h.2.1⟩

set_option maxRecDepth 100000 in
/-- C8, as stated, fails for the 201 ids 1, ..., 201 when the first batch call fails: there
is one call, not `⌈201 / 200⌉ = 2`, and the calls put end to end are not the whole list. -/
theorem cli.fetchWorkItems_calls_stop_at_failure :
    (cli.idsUpTo 201).length = 201 ∧
      (cli.fetchWorkItems cli.downServer (cli.idsUpTo 201)).calls.length = 1 ∧
      ((cli.idsUpTo 201).length + 199) / 200 = 2 ∧
      (cli.fetchWorkItems cli.downServer (cli.idsUpTo 201)).calls.flatten ≠ cli.idsUpTo 201 := by
  refine ⟨by decide, by decide, by decide, by decide⟩

/-- C10: when the batch call of chunk `j` (chunks counted from 0) is the first to fail,
`fetchWorkItems` returns that error, which carries no items, and that call is the last one:
there are `j + 1` calls in all, so no call is made for a chunk after `j`. -/
theorem cli.fetchWorkItems_chunk_failure
    (server : Nat → List Int → Except GoError (List api.WorkItem)) (ids : List Int)
    (j : Nat) (err : GoError) (hj : 200 * j < ids.length)
    (hprev : ∀ k, k < j → ∃ items,
      server k ((ids.drop (200 * k)).take 200) = Except.ok items)
    (hfail : server j ((ids.drop (200 * j)).take 200) = Except.error err) :
    (cli.fetchWorkItems server ids).result = some (Except.error err) ∧
      (cli.fetchWorkItems server ids).itemIDs = none ∧
      (cli.fetchWorkItems server ids).calls.length = j + 1 ∧
      (cli.fetchWorkItems server ids).calls.getLast? = some ((ids.drop (200 * j)).take 200) := by
  have hlen : ids.length ≠ 0 := by omega
  have hrun : cli.fetchWorkItems server ids =
      cli.fetchLoop server ids (ids.length + 1) 0 0 [] := by
    simp [cli.fetchWorkItems, hlen]
  obtain ⟨hres, hcount⟩ := cli.fetchLoop_failure server ids err j (ids.length + 1) 0 0 []
    (by omega) (by simpa [cli.maxBatchSize] using hj)
    (by intro k hk; simpa [cli.maxBatchSize] using hprev k hk)
    (by simpa [cli.maxBatchSize] using hfail)
  rw [hrun]
  refine ⟨hres, by simp [cli.FetchRun.itemIDs, hres], hcount, ?_⟩
  rw [List.getLast?_eq_getElem?, hcount, Nat.add_sub_cancel]
  cases hc : (cli.fetchLoop server ids (ids.length + 1) 0 0 []).calls[j]? with
  | none =>
    rw [List.getElem?_eq_none_iff] at hc
    omega
  | some c =>
    have := (cli.fetchLoop_calls server ids _ 0 0 [] j c hc).1
    simp only [cli.maxBatchSize, Nat.zero_add] at this
    rw [this]

/-- C10, at a concrete input: 401 ids and a server whose second batch call fails. -/
theorem cli.fetchWorkItems_chunk_failure_witness :
    (cli.fetchWorkItems (cli.failingAt 1) (cli.idsUpTo 401)).result =
        some (Except.error (GoError.other "connection refused")) ∧
      (cli.fetchWorkItems (cli.failingAt 1) (cli.idsUpTo 401)).calls.length = 2 :=
  have h := cli.fetchWorkItems_chunk_failure (cli.failingAt 1) (cli.idsUpTo 401) 1
    (GoError.other "connection refused")
    (by rw [cli.length_idsUpTo]; decide)
    (fun k hk => ⟨[], by
      have hk0 : k = 0 := by omega
      simp [cli.failingAt, hk0]⟩)
    (by simp [cli.failingAt])
  ⟨h.1, h.2.2.1⟩

/-! ## Identity references -/

/-- Whenever both `Domain` and `Account` are set, the unique name is the domain, two
backslashes, and the account. -/
theorem cli.identityUniqueName_domain_account (identity : api.Identity) (fallback : String)
    (hd : cli.identityProperty identity "Domain" ≠ "")
    (ha : cli.identityProperty identity "Account" ≠ "") :
    cli.identityUniqueName identity fallback =
      cli.identityProperty identity "Domain" ++ (cli.backslash ++ cli.backslash) ++
        cli.identityProperty identity "Account" := by
  simp [cli.identityUniqueName, hd, ha]

/-- C11: at the properties `Domain: "D", Account: "A", Mail: "m@x.com"` the function
`identityUniqueName` returns `D`, two backslashes, `A`: a string of four characters, which
is not the mail address and is not the three-character string `D`, one backslash, `A` that
the claim names. -/
theorem cli.identityUniqueName_two_backslashes :
    cli.identityUniqueName (api.identityWith cli.sampleProperties) "fallback" =
        "D" ++ cli.backslash ++ cli.backslash ++ "A" ∧
      (cli.identityUniqueName (api.identityWith cli.sampleProperties) "fallback").length = 4 ∧
      cli.identityUniqueName (api.identityWith cli.sampleProperties) "fallback" ≠
        "D" ++ cli.backslash ++ "A" ∧
      cli.identityUniqueName (api.identityWith cli.sampleProperties) "fallback" ≠
        "m@x.com" := by
  refine ⟨by decide, by decide, by decide, by decide⟩

/-- C12: `identityProperty` returns `s` when the property is the bare string `s` and when it
is an envelope whose `$value` is the string `s`; it returns the empty string when the map is
nil, when the key is absent, and when the value is neither a string nor an envelope with a
string `$value`. -/
theorem cli.identityProperty_unwraps (identity : api.Identity) (key s : String) :
    (∀ props, identity.Properties = some props →
        props.lookup key = some (JsonValue.string s) →
        cli.identityProperty identity key = s) ∧
      (∀ props envelope, identity.Properties = some props →
        props.lookup key = some (JsonValue.object envelope) →
        envelope.lookup "$value" = some (JsonValue.string s) →
        cli.identityProperty identity key = s) ∧
      (identity.Properties = none → cli.identityProperty identity key = "") ∧
      (∀ props, identity.Properties = some props → props.lookup key = none →
        cli.identityProperty identity key = "") ∧
      (∀ props raw, identity.Properties = some props → props.lookup key = some raw →
        raw.asString = none →
        (∀ envelope, raw = JsonValue.object envelope →
          (JsonObject.index envelope "$value").asString = none) →
        cli.identityProperty identity key = "") := by
  refine ⟨?_, ?_, ?_, ?_, ?_⟩
  · intro props hp hl
    simp [cli.identityProperty, hp, hl, JsonValue.asString]
  · intro props envelope hp hl hv
    simp [cli.identityProperty, hp, hl, JsonObject.index, hv, JsonValue.asString]
  · intro hp
    simp [cli.identityProperty, hp]
  · intro props hp hl
    simp [cli.identityProperty, hp, hl]
  · intro props raw hp hl hs henv
    cases raw with
    | object envelope =>
      have hnone := henv envelope rfl
      simp only [cli.identityProperty, hp, hl, hnone, hs]
    | string v => simp [JsonValue.asString] at hs
    | null => simp [cli.identityProperty, hp, hl, JsonValue.asString]
    | bool b => simp [cli.identityProperty, hp, hl, JsonValue.asString]
    | number n => simp [cli.identityProperty, hp, hl, JsonValue.asString]
    | array xs => simp [cli.identityProperty, hp, hl, JsonValue.asString]

/-- C12, at a concrete identity: the property `Account` held as the envelope
`$value: "A"`. -/
theorem cli.identityProperty_unwraps_witness :
    cli.identityProperty
        (api.identityWith [("Account", JsonValue.object [("$value", JsonValue.string "A")])])
        "Account" = "A" :=
  (cli.identityProperty_unwraps
    (api.identityWith [("Account", JsonValue.object [("$value", JsonValue.string "A")])])
    "Account" "A").2.1 _ _ rfl rfl rfl

/-! ## Cutting a string at its first separator -/

theorem strings.cutChars_some (sep : Char) (cs before after : List Char)
    (h : strings.cutChars sep cs = some (before, after)) :
    cs = before ++ sep :: after ∧ sep ∉ before := by
  induction cs generalizing before with
  | nil => simp [strings.cutChars] at h
  | cons c rest ih =>
    simp only [strings.cutChars] at h
    split at h
    · rename_i hc
      simp only [Option.some.injEq, Prod.mk.injEq] at h
      obtain ⟨hb, ha⟩ := h
      subst hb ha hc
      simp
    · rename_i hc
      cases hrest : strings.cutChars sep rest with
      | none => simp [hrest] at h
      | some pair =>
        obtain ⟨b, a⟩ := pair
        simp only [hrest, Option.some.injEq, Prod.mk.injEq] at h
        obtain ⟨hb, ha⟩ := h
        subst hb ha
        obtain ⟨heq, hnot⟩ := ih b hrest
        constructor
        · simp [← heq]
        · simp only [List.mem_cons, not_or]
          exact ⟨fun hs => hc hs.symm, hnot⟩

theorem strings.cutChars_none (sep : Char) (cs : List Char) :
    strings.cutChars sep cs = none ↔ sep ∉ cs := by
  induction cs with
  | nil => simp [strings.cutChars]
  | cons c rest ih =>
    simp only [strings.cutChars, List.mem_cons, not_or]
    split
    · rename_i hc
      simp [hc]
    · rename_i hc
      cases hrest : strings.cutChars sep rest with
      | none =>
        have := ih.1 hrest
        simp [this, Ne.symm hc]
      | some pair =>
        have hmem : ¬ sep ∉ rest := fun hn => by
          rw [ih.2 hn] at hrest
          exact Option.noConfusion hrest
        simp [hmem]

/-- When `s` holds the separator, `SplitN2` gives the text before the first separator and the
text after it. -/
theorem strings.SplitN2_of_mem (s : String) (sep : Char) (h : sep ∈ s.toList) :
    ∃ before after : String, strings.SplitN2 s sep = [before, after] ∧
      before ++ String.singleton sep ++ after = s ∧ sep ∉ before.toList := by
  cases hcut : strings.cutChars sep s.toList with
  | none => exact absurd h ((strings.cutChars_none sep s.toList).1 hcut)
  | some pair =>
    obtain ⟨b, a⟩ := pair
    obtain ⟨heq, hnot⟩ := strings.cutChars_some sep s.toList b a hcut
    refine ⟨String.mk b, String.mk a, by simp only [strings.SplitN2, hcut], ?_, hnot⟩
    apply String.ext
    simp only [String.data_append, String.singleton]
    simpa using heq.symm

theorem strings.SplitN2_of_not_mem (s : String) (sep : Char) (h : sep ∉ s.toList) :
    strings.SplitN2 s sep = [s] := by
  simp only [strings.SplitN2, (strings.cutChars_none sep s.toList).2 h]

/-- The text before the first separator is determined by `s`: two ways of writing `s` as a
text without separator, the separator, and a rest agree. -/
theorem strings.cut_unique (sep : Char) (a b c d : List Char)
    (ha : sep ∉ a) (hc : sep ∉ c) (h : a ++ sep :: b = c ++ sep :: d) : a = c ∧ b = d := by
  induction a generalizing c with
  | nil =>
    cases c with
    | nil => simpa using h
    | cons x xs =>
      simp only [List.nil_append, List.cons_append, List.cons.injEq] at h
      exact absurd (by simp [h.1]) hc
  | cons y ys ih =>
    cases c with
    | nil =>
      simp only [List.nil_append, List.cons_append, List.cons.injEq] at h
      exact absurd (by simp [h.1]) ha
    | cons x xs =>
      simp only [List.cons_append, List.cons.injEq] at h
      simp only [List.mem_cons, not_or] at ha hc
      obtain ⟨h1, h2⟩ := ih xs ha.2 hc.2 h.2
      exact ⟨by rw [h.1, h1], h2⟩

/-! ## The identity of the response headers -/

/-- C14: with a project set and a successful call, let `raw` be the value of the header
`X-Vss-Userdata`. When `raw` is not empty and holds a colon, `WhoamiFromHeaders` returns the
`ID` and `UniqueName` with `ID ++ ":" ++ UniqueName = raw` and no colon in `ID`, so `ID` is
the text before the first colon and `UniqueName` all the text after it. When `raw` is not
empty and holds no colon, `ID` is empty and `UniqueName` is `raw`. When the header is
absent or empty, the call fails with `whoami_unavailable`. -/
theorem api.WhoamiFromHeaders_split (project : String) (headers : http.Header)
    (body : String) (hproject : project ≠ "") :
    (headers.Get "X-Vss-Userdata" ≠ "" → ':' ∈ (headers.Get "X-Vss-Userdata").toList →
        ∃ identity, api.WhoamiFromHeaders project (Except.ok (headers, body)) =
            Except.ok identity ∧
          identity.ID ++ ":" ++ identity.UniqueName = headers.Get "X-Vss-Userdata" ∧
          ':' ∉ identity.ID.toList ∧ identity.Raw = headers.Get "X-Vss-Userdata") ∧
      (headers.Get "X-Vss-Userdata" ≠ "" → ':' ∉ (headers.Get "X-Vss-Userdata").toList →
        api.WhoamiFromHeaders project (Except.ok (headers, body)) =
          Except.ok { ID := "", UniqueName := headers.Get "X-Vss-Userdata",
                      Raw := headers.Get "X-Vss-Userdata" }) ∧
      (headers.Get "X-Vss-Userdata" = "" →
        api.WhoamiFromHeaders project (Except.ok (headers, body)) =
          Except.error (errs.New "whoami_unavailable" "X-Vss-Userdata header missing" none)) := by
  refine ⟨?_, ?_, ?_⟩
  · intro hraw hcolon
    obtain ⟨before, after, hsplit, hjoin, hnot⟩ :=
      strings.SplitN2_of_mem (headers.Get "X-Vss-Userdata") ':' hcolon
    refine ⟨{ ID := before, UniqueName := after, Raw := headers.Get "X-Vss-Userdata" },
      ?_, hjoin, hnot, rfl⟩
    simp [api.WhoamiFromHeaders, hproject, hraw, hsplit]
  · intro hraw hcolon
    simp [api.WhoamiFromHeaders, hproject, hraw, strings.SplitN2_of_not_mem _ _ hcolon]
  · intro hraw
    simp [api.WhoamiFromHeaders, hproject, hraw]

/-- C14, at a concrete header: the value `42:CORP:alice` gives the id `42` and the unique
name `CORP:alice`, the later colon kept. -/
theorem api.WhoamiFromHeaders_split_witness :
    (∃ identity, api.WhoamiFromHeaders "Proj"
          (Except.ok (api.userdataHeader "42:CORP:alice", "")) = Except.ok identity ∧
        identity.ID ++ ":" ++ identity.UniqueName =
          (api.userdataHeader "42:CORP:alice").Get "X-Vss-Userdata" ∧
        ':' ∉ identity.ID.toList ∧
        identity.Raw = (api.userdataHeader "42:CORP:alice").Get "X-Vss-Userdata") ∧
      api.WhoamiFromHeaders "Proj" (Except.ok (api.userdataHeader "42:CORP:alice", "")) =
        Except.ok { ID := "42", UniqueName := "CORP:alice", Raw := "42:CORP:alice" } :=
  ⟨(api.WhoamiFromHeaders_split "Proj" (api.userdataHeader "42:CORP:alice") ""
      (by decide)).1 (by decide) (by decide), rfl⟩

/-! ## Query text -/

theorem strings.replaceChars_single (old : Char) (new cs : List Char) (fuel : Nat)
    (hfuel : cs.length ≤ fuel) :
    strings.replaceChars [old] new fuel cs =
      cs.flatMap (fun c => if c = old then new else [c]) := by
  induction cs generalizing fuel with
  | nil => cases fuel <;> simp [strings.replaceChars]
  | cons c rest ih =>
    cases fuel with
    | zero => simp at hfuel
    | succ fuel =>
      have hrest : rest.length ≤ fuel := by simpa using hfuel
      by_cases hc : c = old
      · simp [strings.replaceChars, strings.startsWith, hc, ih fuel hrest]
      · simp [strings.replaceChars, strings.startsWith, hc, ih fuel hrest]

/-- The function `escapeWiql` doubles every single quote and changes nothing else. -/
theorem cli.escapeWiql_eq (value : String) : cli.escapeWiql value = cli.doubledQuotes value := by
  have hold : ("'" : String).toList = [cli.quote] := by decide
  have hnew : ("''" : String).toList = [cli.quote, cli.quote] := by decide
  unfold cli.escapeWiql strings.ReplaceAll cli.doubledQuotes
  rw [hold, hnew]
  simp only [List.isEmpty_cons, Bool.false_eq_true, if_false]
  rw [strings.replaceChars_single _ _ _ _ (Nat.le_refl _)]

/-- C15: for every text `q`, `wiqlSearchQuery q` is the fixed query text with, in both
predicates, `q` with every single quote replaced by two single quotes; for `it's` both
occurrences read `'it''s'`. -/
theorem cli.wiqlSearchQuery_escapes (q : String) :
    cli.wiqlSearchQuery q =
        "SELECT [System.Id] FROM WorkItems WHERE ([System.Title] CONTAINS '" ++
          cli.doubledQuotes q ++ "' OR [System.Description] CONTAINS '" ++
          cli.doubledQuotes q ++ "') ORDER BY [System.ChangedDate] DESC" ∧
      cli.wiqlSearchQuery "it's" =
        "SELECT [System.Id] FROM WorkItems WHERE ([System.Title] CONTAINS 'it''s' OR [System.Description] CONTAINS 'it''s') ORDER BY [System.ChangedDate] DESC" := by
  refine ⟨?_, by decide⟩
  have h := cli.escapeWiql_eq q
  unfold cli.escapeWiql at h
  simp only [cli.wiqlSearchQuery, h]

set_option maxRecDepth 100000 in
/-- C16: for all inputs, `myWiqlQuery` is the `SELECT` head, the conditions joined by
`" AND "`, and the `ORDER BY` tail, the conditions being those of `myConditions`, in that
order; the two expected texts of the tests are instances. -/
theorem cli.myWiqlQuery_conditions (typeFilter : String) (allTypes : Bool)
    (excludeState : String) (allStates : Bool) :
    cli.myWiqlQuery typeFilter allTypes excludeState allStates =
        "SELECT [System.Id] FROM WorkItems WHERE " ++
          " AND ".intercalate (cli.myConditions typeFilter allTypes excludeState allStates) ++
          " ORDER BY [System.ChangedDate] DESC" ∧
      cli.myWiqlQuery "" true "" false =
        "SELECT [System.Id] FROM WorkItems WHERE [System.TeamProject] = @Project AND [System.AssignedTo] = @Me AND [System.State] IN ('Разработка', 'Выполняется') ORDER BY [System.ChangedDate] DESC" ∧
      cli.myWiqlQuery "" true "Выполнено" false =
        "SELECT [System.Id] FROM WorkItems WHERE [System.TeamProject] = @Project AND [System.AssignedTo] = @Me AND [System.State] <> 'Выполнено' ORDER BY [System.ChangedDate] DESC" := by
  refine ⟨?_, by decide, by decide⟩
  have hdefault : cli.joinWiqlValues ["Разработка", "Выполняется"] =
      "'Разработка', 'Выполняется'" := by decide
  have hin : "[System.State] IN (" ++ "'Разработка', 'Выполняется'" ++ ")" =
      "[System.State] IN ('Разработка', 'Выполняется')" := by decide
  unfold cli.myWiqlQuery cli.myConditions strings.Join
  rw [hdefault, hin, cli.escapeWiql_eq, cli.escapeWiql_eq]
  cases allTypes <;> cases allStates <;>
    by_cases ht : strings.TrimSpace typeFilter = "" <;>
    by_cases hs : strings.TrimSpace excludeState = "" <;>
    simp [ht, hs]

/-! ## Assignments and update patches -/

theorem cli.parseAssignment_no_separator (input : String) (h : '=' ∉ input.toList) :
    cli.parseAssignment input =
      Except.error
        (errs.New "invalid_args" "invalid --set format, expected Field=Value" (some input)) := by
  simp only [cli.parseAssignment, strings.SplitN2_of_not_mem input '=' h]

theorem cli.parseAssignment_cut (a b : String) (ha : '=' ∉ a.toList) :
    cli.parseAssignment (a ++ "=" ++ b) =
      if strings.TrimSpace a = "" then
        Except.error (errs.New "invalid_args" "field name is required" (some (a ++ "=" ++ b)))
      else Except.ok (strings.TrimSpace a, strings.TrimSpace b) := by
  have hmem : '=' ∈ (a ++ "=" ++ b).toList := by simp
  obtain ⟨before, after, hsplit, hjoin, hnot⟩ := strings.SplitN2_of_mem (a ++ "=" ++ b) '=' hmem
  have hdata : before.toList ++ '=' :: after.toList = a.toList ++ '=' :: b.toList := by
    have := congrArg String.toList hjoin
    simpa [String.singleton] using this
  obtain ⟨h1, h2⟩ := strings.cut_unique '=' _ _ _ _ hnot ha hdata
  have hb : before = a := String.ext h1
  have hafter : after = b := String.ext h2
  simp only [cli.parseAssignment, hsplit, hb, hafter]

/-- C18: `parseAssignment` fails with `invalid_args` when the input holds no `=`, and when
the trimmed text before the first `=` is empty; in every other case it returns the trimmed
text before the first `=` as the field and the trimmed text after it as the value. Every
input is of one of these three kinds, so it fails exactly in the first two; the value may
hold a further `=`. -/
theorem cli.parseAssignment_spec (input : String) :
    ('=' ∉ input.toList →
        cli.parseAssignment input =
          Except.error (errs.New "invalid_args"
            "invalid --set format, expected Field=Value" (some input))) ∧
      ('=' ∈ input.toList →
        ∃ before after : String, input = before ++ "=" ++ after ∧ '=' ∉ before.toList ∧
          (strings.TrimSpace before = "" →
            cli.parseAssignment input =
              Except.error (errs.New "invalid_args" "field name is required" (some input))) ∧
          (strings.TrimSpace before ≠ "" →
            cli.parseAssignment input =
              Except.ok (strings.TrimSpace before, strings.TrimSpace after))) ∧
      ((∃ err, cli.parseAssignment input = Except.error err) ↔
        ('=' ∉ input.toList ∨
          ∃ before after : String, input = before ++ "=" ++ after ∧ '=' ∉ before.toList ∧
            strings.TrimSpace before = "") ) ∧
      (∀ err, cli.parseAssignment input = Except.error err → err.code? = some "invalid_args") ∧
      cli.parseAssignment "System.Title = a=b " = Except.ok ("System.Title", "a=b") := by
  have hcases : '=' ∈ input.toList →
      ∃ before after : String, input = before ++ "=" ++ after ∧ '=' ∉ before.toList := by
    intro hmem
    obtain ⟨before, after, _, hjoin, hnot⟩ := strings.SplitN2_of_mem input '=' hmem
    exact ⟨before, after, hjoin.symm, hnot⟩
  refine ⟨cli.parseAssignment_no_separator input, ?_, ?_, ?_, rfl⟩
  · intro hmem
    obtain ⟨before, after, hin, hnot⟩ := hcases hmem
    refine ⟨before, after, hin, hnot, ?_, ?_⟩
    · intro htrim
      rw [hin, cli.parseAssignment_cut before after hnot, if_pos htrim]
    · intro htrim
      rw [hin, cli.parseAssignment_cut before after hnot, if_neg htrim]
  · constructor
    · rintro ⟨err, herr⟩
      by_cases hmem : '=' ∈ input.toList
      · obtain ⟨before, after, hin, hnot⟩ := hcases hmem
        refine Or.inr ⟨before, after, hin, hnot, ?_⟩
        by_contra htrim
        rw [hin, cli.parseAssignment_cut before after hnot, if_neg htrim] at herr
        exact Except.noConfusion herr
      · exact Or.inl hmem
    · rintro (hno | ⟨before, after, hin, hnot, htrim⟩)
      · exact ⟨_, cli.parseAssignment_no_separator input hno⟩
      · exact ⟨_, by rw [hin, cli.parseAssignment_cut before after hnot, if_pos htrim]⟩
  · intro err herr
    by_cases hmem : '=' ∈ input.toList
    · obtain ⟨before, after, hin, hnot⟩ := hcases hmem
      rw [hin, cli.parseAssignment_cut before after hnot] at herr
      split at herr
      · simp only [Except.error.injEq] at herr
        rw [← herr]; rfl
      · exact Except.noConfusion herr
    · rw [cli.parseAssignment_no_separator input hmem] at herr
      simp only [Except.error.injEq] at herr
      rw [← herr]; rfl

/-- C18, at concrete inputs: `System.Title=Hello` of the tests, parsed through the clause for
an input with a separator. -/
theorem cli.parseAssignment_spec_witness :
    ∃ before after : String, "System.Title=Hello" = before ++ "=" ++ after ∧
      '=' ∉ before.toList ∧
      (strings.TrimSpace before = "" →
        cli.parseAssignment "System.Title=Hello" =
          Except.error (errs.New "invalid_args" "field name is required"
            (some "System.Title=Hello"))) ∧
      (strings.TrimSpace before ≠ "" →
        cli.parseAssignment "System.Title=Hello" =
          Except.ok (strings.TrimSpace before, strings.TrimSpace after)) :=
  (cli.parseAssignment_spec "System.Title=Hello").2.1 (by decide)

theorem cli.assignmentOp_of_ok (set field value : String)
    (h : cli.parseAssignment set = Except.ok (field, value)) :
    cli.assignmentOp set =
      some { op := "add", path := "/fields/" ++ field, value := JsonValue.string value } := by
  simp only [cli.assignmentOp, h]

/-- On well-formed assignments the loop of `buildPatch` appends one operation per
assignment, in order. -/
theorem cli.buildPatchLoop_ok (sets : List String)
    (hwf : ∀ set ∈ sets, ∃ field value, cli.parseAssignment set = Except.ok (field, value)) :
    ∀ patch : List cli.PatchOp,
      cli.buildPatchLoop sets patch = Except.ok (patch ++ sets.filterMap cli.assignmentOp) := by
  induction sets with
  | nil => intro patch; simp [cli.buildPatchLoop]
  | cons set rest ih =>
    intro patch
    obtain ⟨field, value, hparse⟩ := hwf set (List.mem_cons_self _ _)
    have hrest := ih (fun s hs => hwf s (List.mem_cons_of_mem _ hs))
    simp only [cli.buildPatchLoop, hparse, hrest, List.filterMap_cons,
      cli.assignmentOp_of_ok set field value hparse, List.append_assoc, List.singleton_append]

theorem cli.assignmentOps_get (sets : List String)
    (hwf : ∀ set ∈ sets, ∃ field value, cli.parseAssignment set = Except.ok (field, value)) :
    (sets.filterMap cli.assignmentOp).length = sets.length ∧
      ∀ (i : Nat) (set field value : String), sets[i]? = some set →
        cli.parseAssignment set = Except.ok (field, value) →
        (sets.filterMap cli.assignmentOp)[i]? =
          some { op := "add", path := "/fields/" ++ field, value := JsonValue.string value } := by
  induction sets with
  | nil => simp
  | cons first rest ih =>
    obtain ⟨f, v, hparse⟩ := hwf first (List.mem_cons_self _ _)
    obtain ⟨hlen, hget⟩ := ih (fun s hs => hwf s (List.mem_cons_of_mem _ hs))
    rw [List.filterMap_cons, cli.assignmentOp_of_ok first f v hparse]
    refine ⟨by simp [hlen], ?_⟩
    intro i set field value hi hset
    cases i with
    | zero =>
      simp only [List.getElem?_cons_zero, Option.some.injEq] at hi
      subst hi
      rw [hparse] at hset
      simp only [Except.ok.injEq, Prod.mk.injEq] at hset
      simp [hset.1, hset.2]
    | succ i =>
      simp only [List.getElem?_cons_succ] at hi ⊢
      exact hget i set field value hi hset

theorem cli.buildPatch_ok (sets : List String) (comment : String)
    (hwf : ∀ set ∈ sets, ∃ field value, cli.parseAssignment set = Except.ok (field, value)) :
    cli.buildPatch sets comment =
      Except.ok (sets.filterMap cli.assignmentOp ++
        (if comment = "" then []
         else [{ op := "add", path := "/fields/System.History",
                 value := JsonValue.string comment }])) := by
  simp only [cli.buildPatch, cli.buildPatchLoop_ok sets hwf, List.nil_append]
  by_cases hc : comment = "" <;> simp [hc]

theorem strings.dropRightWhile_append_removed (p : Char → Bool) (cs : List Char) :
    cs = strings.dropRightWhile p cs ++ (cs.reverse.takeWhile p).reverse := by
  unfold strings.dropRightWhile
  rw [← List.reverse_append, List.takeWhile_append_dropWhile, List.reverse_reverse]

theorem strings.TrimSpace_spec (s : String) :
    ∃ left right : List Char,
      s.toList = left ++ (strings.TrimSpace s).toList ++ right ∧
      (∀ c ∈ left, unicode.IsSpace c = true) ∧ (∀ c ∈ right, unicode.IsSpace c = true) ∧
      (∀ c, (strings.TrimSpace s).toList.head? = some c → unicode.IsSpace c = false) ∧
      (∀ c, (strings.TrimSpace s).toList.getLast? = some c → unicode.IsSpace c = false) := by
  have hmid := strings.dropRightWhile_append_removed unicode.IsSpace
    (s.toList.dropWhile unicode.IsSpace)
  have htrim : (strings.TrimSpace s).toList =
      strings.dropRightWhile unicode.IsSpace (s.toList.dropWhile unicode.IsSpace) := rfl
  refine ⟨s.toList.takeWhile unicode.IsSpace,
    ((s.toList.dropWhile unicode.IsSpace).reverse.takeWhile unicode.IsSpace).reverse,
    ?_, ?_, ?_, ?_, ?_⟩
  · rw [htrim, List.append_assoc, ← hmid, List.takeWhile_append_dropWhile]
  · intro c hc
    exact (List.mem_takeWhile_imp hc)
  · intro c hc
    exact List.mem_takeWhile_imp (List.mem_reverse.1 hc)
  · intro c hc
    rw [htrim] at hc
    have hhead : (s.toList.dropWhile unicode.IsSpace).head? = some c := by
      rw [hmid]
      cases hd : strings.dropRightWhile unicode.IsSpace (s.toList.dropWhile unicode.IsSpace) with
      | nil => rw [hd] at hc; cases hc
      | cons d ds =>
        rw [hd] at hc
        simpa using hc
    have hnot := List.head?_dropWhile_not unicode.IsSpace s.toList
    rw [hhead] at hnot
    exact hnot
  · intro c hc
    rw [htrim] at hc
    unfold strings.dropRightWhile at hc
    rw [List.getLast?_reverse] at hc
    have hnot := List.head?_dropWhile_not unicode.IsSpace
      (s.toList.dropWhile unicode.IsSpace).reverse
    rw [hc] at hnot
    exact hnot

/-- C17: for well-formed assignments `sets` and every comment, `buildPatch` returns the
operations `ops`, one per assignment and in input order, followed, if and only if the
comment is not empty, by one add-operation at `/fields/System.History` with the comment as
value, as the last element. The `i`-th of `ops` is the add-operation of the `i`-th
assignment: at `/fields/` followed by the field that `parseAssignment` gives, with its
value; for an assignment written `before=after`, with no `=` in `before`, these are the
trimmed `before` and the trimmed `after`, where the trimmed form of a text is the text
without the white space at its two ends: it neither starts nor ends with white space, and
the text is white space, the trimmed form, white space. The length is `len(sets)`, plus 1
when the comment is not empty. For the assignments ` System.Title = Hello ` and
`System.Tags=a=b` with the comment `note` the patch is written out. -/
theorem cli.buildPatch_spec (sets : List String) (comment : String)
    (hwf : ∀ set ∈ sets, ∃ field value, cli.parseAssignment set = Except.ok (field, value)) :
    (∃ ops patch : List cli.PatchOp,
      cli.buildPatch sets comment = Except.ok patch ∧
      patch = ops ++
        (if comment = "" then []
         else [{ op := "add", path := "/fields/System.History",
                 value := JsonValue.string comment }]) ∧
      ops.length = sets.length ∧
      (∀ (i : Nat) (set field value : String), sets[i]? = some set →
        cli.parseAssignment set = Except.ok (field, value) →
        ops[i]? =
          some { op := "add", path := "/fields/" ++ field, value := JsonValue.string value }) ∧
      (∀ (i : Nat) (before after : String), sets[i]? = some (before ++ "=" ++ after) →
        '=' ∉ before.toList →
        ops[i]? =
          some { op := "add", path := "/fields/" ++ strings.TrimSpace before,
                 value := JsonValue.string (strings.TrimSpace after) }) ∧
      patch.length = sets.length + (if comment = "" then 0 else 1)) ∧
      (∀ s : String, ∃ left right : List Char,
        s.toList = left ++ (strings.TrimSpace s).toList ++ right ∧
        (∀ c ∈ left, unicode.IsSpace c = true) ∧ (∀ c ∈ right, unicode.IsSpace c = true) ∧
        (∀ c, (strings.TrimSpace s).toList.head? = some c → unicode.IsSpace c = false) ∧
        (∀ c, (strings.TrimSpace s).toList.getLast? = some c → unicode.IsSpace c = false)) ∧
      cli.buildPatch [" System.Title = Hello ", "System.Tags=a=b"] "note" =
        Except.ok
          [{ op := "add", path := "/fields/System.Title", value := JsonValue.string "Hello" },
           { op := "add", path := "/fields/System.Tags", value := JsonValue.string "a=b" },
           { op := "add", path := "/fields/System.History", value := JsonValue.string "note" }] := by
  obtain ⟨hlen, hget⟩ := cli.assignmentOps_get sets hwf
  refine ⟨⟨sets.filterMap cli.assignmentOp, _, cli.buildPatch_ok sets comment hwf, rfl,
    hlen, hget, ?_, ?_⟩, strings.TrimSpace_spec, rfl⟩
  · intro i before after hi hnot
    obtain ⟨field, value, hparse⟩ := hwf _ (List.getElem?_mem hi)
    have hcut := cli.parseAssignment_cut before after hnot
    rw [hparse] at hcut
    split at hcut
    · exact Except.noConfusion hcut
    · simp only [Except.ok.injEq, Prod.mk.injEq] at hcut
      rw [← hcut.1, ← hcut.2]
      exact hget i _ field value hi hparse
  · by_cases hc : comment = "" <;> simp [hc, hlen]

/-- C17, at a concrete input: the assignments ` System.Title = Hello ` and
` System.Tags = a=b ` and the comment `done` give a patch of three operations, of which the
second is at `/fields/System.Tags` with the value `a=b`: both parts are trimmed. -/
theorem cli.buildPatch_spec_witness :
    ∃ ops patch : List cli.PatchOp,
      cli.buildPatch [" System.Title = Hello ", " System.Tags = a=b "] "done" =
        Except.ok patch ∧
      patch = ops ++
        [{ op := "add", path := "/fields/System.History", value := JsonValue.string "done" }] ∧
      ops[1]? =
        some { op := "add", path := "/fields/System.Tags", value := JsonValue.string "a=b" } ∧
      patch.length = 3 :=
  match (cli.buildPatch_spec [" System.Title = Hello ", " System.Tags = a=b "] "done"
    (by
      intro set hset
      simp only [List.mem_cons, List.mem_singleton, List.not_mem_nil, or_false] at hset
      rcases hset with h | h
      · exact ⟨"System.Title", "Hello", by rw [h]; rfl⟩
      · exact ⟨"System.Tags", "a=b", by rw [h]; rfl⟩)).1 with
  | ⟨ops, patch, hok, hpatch, _, _, hcut, hlen⟩ =>
    ⟨ops, patch, hok, hpatch, hcut 1 " System.Tags " " a=b " rfl (by decide), hlen⟩

/-! ## Create patches -/

theorem cli.setAssignee_cons (equalFold : String → String → Bool) (set : String)
    (rest : List String) (field value : String)
    (hparse : cli.parseAssignment set = Except.ok (field, value)) :
    cli.setAssignee equalFold (set :: rest) =
      if equalFold field "System.AssignedTo" = true ∧ value ≠ "" then some value
      else cli.setAssignee equalFold rest := by
  unfold cli.setAssignee
  by_cases hc : equalFold field "System.AssignedTo" = true ∧ value ≠ ""
  · rw [List.filterMap_cons_some (b := value) (by simp [hparse, hc])]
    simp [hc]
  · rw [List.filterMap_cons_none (by simp only [hparse, hc, if_false])]
    simp only [hc, if_false]

/-- On well-formed assignments the first loop of `buildCreatePatch` ends with the first
non-empty assignee met and with the assignments that do not name the assignee field. -/
theorem cli.scanSets_ok (equalFold : String → String → Bool) (sets : List String)
    (hwf : ∀ set ∈ sets, ∃ field value, cli.parseAssignment set = Except.ok (field, value)) :
    ∀ (assignedString : String) (remaining : List String),
      cli.scanSets equalFold sets assignedString remaining =
        Except.ok (cli.suppliedAssignee equalFold assignedString sets,
          remaining ++ cli.remainingSets equalFold sets) := by
  induction sets with
  | nil =>
    intro a rem
    by_cases ha : a = "" <;>
      simp [cli.scanSets, cli.suppliedAssignee, cli.remainingSets, cli.setAssignee, ha]
  | cons set rest ih =>
    intro a rem
    obtain ⟨field, value, hparse⟩ := hwf set (List.mem_cons_self _ _)
    have hrest := ih (fun s hs => hwf s (List.mem_cons_of_mem _ hs))
    have hassignee : cli.isAssigneeSet equalFold set = equalFold field "System.AssignedTo" := by
      simp only [cli.isAssigneeSet, hparse]
    simp only [cli.scanSets, hparse]
    by_cases hfold : equalFold field "System.AssignedTo" = true
    · simp only [hfold, if_true, hrest, cli.suppliedAssignee, cli.remainingSets,
        cli.setAssignee_cons equalFold set rest field value hparse, List.filter_cons,
        hassignee, Bool.not_true, Bool.false_eq_true, if_false, true_and]
      by_cases ha : a = ""
      · by_cases hv : value = "" <;> simp [ha, hv]
      · simp [ha]
    · simp only [hfold, if_false, hrest, cli.suppliedAssignee, cli.remainingSets,
        cli.setAssignee_cons equalFold set rest field value hparse, List.filter_cons,
        hassignee, false_and, List.append_assoc, List.singleton_append]
      simp [hfold]

/-- The first loop of `buildCreatePatch` ends without error only on well-formed
assignments. -/
theorem cli.scanSets_wf (equalFold : String → String → Bool) (sets : List String) :
    ∀ (assignedString : String) (remaining : List String) (out : String × List String),
      cli.scanSets equalFold sets assignedString remaining = Except.ok out →
      ∀ set ∈ sets, ∃ field value, cli.parseAssignment set = Except.ok (field, value) := by
  induction sets with
  | nil => intro _ _ _ _ set hset; simp at hset
  | cons first rest ih =>
    intro a rem out hscan set hset
    cases hparse : cli.parseAssignment first with
    | error err =>
      simp only [cli.scanSets, hparse] at hscan
      exact Except.noConfusion hscan
    | ok pair =>
      obtain ⟨f, v⟩ := pair
      simp only [cli.scanSets, hparse] at hscan
      rcases List.mem_cons.1 hset with h | h
      · exact ⟨f, v, by rw [h]; exact hparse⟩
      · split at hscan
        · exact ih _ _ _ hscan set h
        · exact ih _ _ _ hscan set h

theorem cli.remainingSets_wf (equalFold : String → String → Bool) (sets : List String)
    (hwf : ∀ set ∈ sets, ∃ field value, cli.parseAssignment set = Except.ok (field, value)) :
    ∀ set ∈ cli.remainingSets equalFold sets,
      ∃ field value, cli.parseAssignment set = Except.ok (field, value) := by
  intro set hset
  exact hwf set (List.mem_of_mem_filter hset)

theorem JsonValue.isEmptyString_string (s : String) :
    (JsonValue.string s).isEmptyString = decide (s = "") := rfl

/-- With an assignee supplied by the caller, `buildCreatePatch` makes no identity call and
returns the create document with that assignee. -/
theorem cli.buildCreatePatch_supplied (equalFold : String → String → Bool)
    (resolver : cli.Resolver) (baseURL title assigned : String) (sets : List String)
    (parentID : Int) (parentRel : String)
    (hwf : ∀ set ∈ sets, ∃ field value, cli.parseAssignment set = Except.ok (field, value))
    (hsupplied : cli.suppliedAssignee equalFold assigned sets ≠ "") :
    cli.buildCreatePatch equalFold resolver baseURL title assigned sets parentID parentRel =
      { lookups := [],
        result := Except.ok (cli.createDocument baseURL title
          (JsonValue.string (cli.suppliedAssignee equalFold assigned sets)) parentID parentRel
          ((cli.remainingSets equalFold sets).filterMap cli.assignmentOp)) } := by
  have hbuild := cli.buildPatch_ok (cli.remainingSets equalFold sets) ""
    (cli.remainingSets_wf equalFold sets hwf)
  simp only [if_true] at hbuild
  simp only [cli.buildCreatePatch, cli.scanSets_ok equalFold sets hwf, List.nil_append,
    hsupplied, ne_eq, not_false_eq_true, if_true, JsonValue.isEmptyString_string,
    decide_False, Bool.false_eq_true, if_false, hbuild, List.append_nil, cli.createDocument,
    api.WorkItemURL]
  by_cases hp : parentID > 0 <;> simp [hp]

/-- With no assignee supplied by the caller, `buildCreatePatch` makes the identity calls of
`resolveAssignee` and returns its error, or `assigned_to_required` for an empty value, or the
create document with the value resolved. -/
theorem cli.buildCreatePatch_resolved (equalFold : String → String → Bool)
    (resolver : cli.Resolver) (baseURL title assigned : String) (sets : List String)
    (parentID : Int) (parentRel : String)
    (hwf : ∀ set ∈ sets, ∃ field value, cli.parseAssignment set = Except.ok (field, value))
    (hsupplied : cli.suppliedAssignee equalFold assigned sets = "") :
    cli.buildCreatePatch equalFold resolver baseURL title assigned sets parentID parentRel =
      { lookups := (cli.resolveAssignee resolver).1,
        result :=
          match (cli.resolveAssignee resolver).2 with
          | Except.error err => Except.error err
          | Except.ok assignee =>
            if assignee.isEmptyString = true then
              Except.error (errs.New "assigned_to_required" "assigned-to is required" none)
            else
              Except.ok (cli.createDocument baseURL title assignee parentID parentRel
                ((cli.remainingSets equalFold sets).filterMap cli.assignmentOp)) } := by
  have hbuild := cli.buildPatch_ok (cli.remainingSets equalFold sets) ""
    (cli.remainingSets_wf equalFold sets hwf)
  simp only [if_true] at hbuild
  simp only [cli.buildCreatePatch, cli.scanSets_ok equalFold sets hwf, List.nil_append,
    hsupplied, ne_eq, not_true_eq_false, if_false, JsonValue.isEmptyString_string,
    decide_True, if_true, hbuild, List.append_nil, cli.createDocument, api.WorkItemURL]
  cases hres : (cli.resolveAssignee resolver).2 with
  | error err => rfl
  | ok assignee =>
    simp only []
    by_cases hempty : assignee.isEmptyString = true
    · simp [hempty]
    · simp only [hempty, Bool.false_eq_true, if_false]
      by_cases hp : parentID > 0 <;> simp [hp]

theorem cli.resolveAssignee_lookups_ne_nil (resolver : cli.Resolver) :
    (cli.resolveAssignee resolver).1 ≠ [] := by
  unfold cli.resolveAssignee
  split
  · simp
  · split
    · split
      · simp
      · split <;> simp
    · simp

theorem cli.setAssignee_ne_empty (equalFold : String → String → Bool) (sets : List String)
    (value : String) (h : cli.setAssignee equalFold sets = some value) : value ≠ "" := by
  unfold cli.setAssignee at h
  have hmem := List.mem_of_mem_head? h
  rw [List.mem_filterMap] at hmem
  obtain ⟨set, _, hset⟩ := hmem
  split at hset
  · split at hset
    · rename_i hc
      simp only [Option.some.injEq] at hset
      rw [← hset]
      exact hc.2
    · exact Option.noConfusion hset
  · exact Option.noConfusion hset

/-- C20: on well-formed assignments, the assignee operation of `buildCreatePatch`, the second
of the patch, has as value the explicit assignee when that is not empty, and otherwise the
value of the first assignment that names `System.AssignedTo`, letter case aside, with a
non-empty value; in both cases no identity call is made. Identity calls are made exactly when
the explicit assignee is empty and no assignment supplies one. -/
theorem cli.buildCreatePatch_assignee (equalFold : String → String → Bool)
    (resolver : cli.Resolver) (baseURL title assigned : String) (sets : List String)
    (parentID : Int) (parentRel : String)
    (hwf : ∀ set ∈ sets, ∃ field value, cli.parseAssignment set = Except.ok (field, value)) :
    (assigned ≠ "" → ∃ rest,
        cli.buildCreatePatch equalFold resolver baseURL title assigned sets parentID parentRel =
          { lookups := [],
            result := Except.ok
              ({ op := "add", path := "/fields/System.Title", value := JsonValue.string title } ::
               { op := "add", path := "/fields/System.AssignedTo",
                 value := JsonValue.string assigned } :: rest) }) ∧
      (assigned = "" → ∀ value, cli.setAssignee equalFold sets = some value → ∃ rest,
        cli.buildCreatePatch equalFold resolver baseURL title assigned sets parentID parentRel =
          { lookups := [],
            result := Except.ok
              ({ op := "add", path := "/fields/System.Title", value := JsonValue.string title } ::
               { op := "add", path := "/fields/System.AssignedTo",
                 value := JsonValue.string value } :: rest) }) ∧
      ((cli.buildCreatePatch equalFold resolver baseURL title assigned sets parentID
          parentRel).lookups ≠ [] ↔
        (assigned = "" ∧ cli.setAssignee equalFold sets = none)) := by
  refine ⟨?_, ?_, ?_⟩
  · intro ha
    have hs : cli.suppliedAssignee equalFold assigned sets = assigned := by
      simp [cli.suppliedAssignee, ha]
    rw [cli.buildCreatePatch_supplied equalFold resolver baseURL title assigned sets parentID
      parentRel hwf (by rw [hs]; exact ha), hs]
    exact ⟨_, rfl⟩
  · intro ha value hv
    have hs : cli.suppliedAssignee equalFold assigned sets = value := by
      simp [cli.suppliedAssignee, ha, hv]
    rw [cli.buildCreatePatch_supplied equalFold resolver baseURL title assigned sets parentID
      parentRel hwf (by rw [hs]; exact cli.setAssignee_ne_empty equalFold sets value hv), hs]
    exact ⟨_, rfl⟩
  · by_cases hs : cli.suppliedAssignee equalFold assigned sets = ""
    · rw [cli.buildCreatePatch_resolved equalFold resolver baseURL title assigned sets parentID
        parentRel hwf hs]
      have hboth : assigned = "" ∧ cli.setAssignee equalFold sets = none := by
        by_cases ha : assigned = ""
        · refine ⟨ha, ?_⟩
          cases hv : cli.setAssignee equalFold sets with
          | none => rfl
          | some value =>
            have hne := cli.setAssignee_ne_empty equalFold sets value hv
            simp [cli.suppliedAssignee, ha, hv] at hs
            exact absurd hs hne
        · simp [cli.suppliedAssignee, ha] at hs
      exact ⟨fun _ => hboth, fun _ => cli.resolveAssignee_lookups_ne_nil resolver⟩
    · rw [cli.buildCreatePatch_supplied equalFold resolver baseURL title assigned sets parentID
        parentRel hwf hs]
      constructor
      · intro h
        exact absurd rfl h
      · rintro ⟨ha, hv⟩
        exact absurd (by simp [cli.suppliedAssignee, ha, hv]) hs

/-- C20, at a concrete input: no explicit assignee, and the assignments
`system.assignedto=  ` and `SYSTEM.ASSIGNEDTO= bob `; the value is `bob`, of the first
assignment with a non-empty value, and the client is not asked. -/
theorem cli.buildCreatePatch_assignee_witness :
    ∃ rest,
      cli.buildCreatePatch cli.asciiEqualFold cli.emptyProfileResolver "https://tfs/Coll" "T" ""
          ["system.assignedto=  ", "SYSTEM.ASSIGNEDTO= bob ", "System.Tags=x"] 0 "" =
        { lookups := [],
          result := Except.ok
            ({ op := "add", path := "/fields/System.Title", value := JsonValue.string "T" } ::
             { op := "add", path := "/fields/System.AssignedTo",
               value := JsonValue.string "bob" } :: rest) } :=
  (cli.buildCreatePatch_assignee cli.asciiEqualFold cli.emptyProfileResolver "https://tfs/Coll"
    "T" "" ["system.assignedto=  ", "SYSTEM.ASSIGNEDTO= bob ", "System.Tags=x"] 0 ""
    (by
      intro set hset
      simp only [List.mem_cons, List.mem_singleton, List.not_mem_nil, or_false] at hset
      rcases hset with h | h | h
      · exact ⟨"system.assignedto", "", by rw [h]; rfl⟩
      · exact ⟨"SYSTEM.ASSIGNEDTO", "bob", by rw [h]; rfl⟩
      · exact ⟨"System.Tags", "x", by rw [h]; rfl⟩)).2.1 rfl "bob" (by decide)

/-- Whenever `buildCreatePatch` succeeds, every assignment is well formed and the patch is
the create document for some assignee value. -/
theorem cli.buildCreatePatch_ok_document (equalFold : String → String → Bool)
    (resolver : cli.Resolver) (baseURL title assigned : String) (sets : List String)
    (parentID : Int) (parentRel : String) (patch : List cli.PatchOp)
    (hok : (cli.buildCreatePatch equalFold resolver baseURL title assigned sets parentID
      parentRel).result = Except.ok patch) :
    (∀ set ∈ sets, ∃ field value, cli.parseAssignment set = Except.ok (field, value)) ∧
      ∃ assignee, patch = cli.createDocument baseURL title assignee parentID parentRel
        ((cli.remainingSets equalFold sets).filterMap cli.assignmentOp) := by
  have hwf : ∀ set ∈ sets, ∃ field value,
      cli.parseAssignment set = Except.ok (field, value) := by
    cases hscan : cli.scanSets equalFold sets assigned [] with
    | error err =>
      simp only [cli.buildCreatePatch, hscan] at hok
      exact Except.noConfusion hok
    | ok out => exact cli.scanSets_wf equalFold sets assigned [] out hscan
  refine ⟨hwf, ?_⟩
  by_cases hs : cli.suppliedAssignee equalFold assigned sets = ""
  · rw [cli.buildCreatePatch_resolved equalFold resolver baseURL title assigned sets parentID
      parentRel hwf hs] at hok
    simp only at hok
    split at hok
    · exact Except.noConfusion hok
    · rename_i assignee _
      split at hok
      · exact Except.noConfusion hok
      · simp only [Except.ok.injEq] at hok
        exact ⟨assignee, hok.symm⟩
  · rw [cli.buildCreatePatch_supplied equalFold resolver baseURL title assigned sets parentID
      parentRel hwf hs] at hok
    simp only [Except.ok.injEq] at hok
    exact ⟨_, hok.symm⟩

/-- C19: whenever `buildCreatePatch` succeeds, its result is, in this order: the title
add-operation at `/fields/System.Title`; the assignee add-operation at
`/fields/System.AssignedTo`; if and only if `parentID > 0`, one add-operation at the
relations path (`/relations/` and a dash) whose value has `rel` equal to `parentRel` (or
`System.LinkTypes.Hierarchy-Reverse` when that is empty) and `url` equal to the base URL
joined with `_apis/wit/workItems/<parentID>`; then the operations `ops` that `buildPatch`
makes of the assignments whose field is not the assignee field, in their original order,
one for each. With title `T`, no assignments, parent 0 and an assignee resolved from the
profile, the patch has exactly two operations, title then assignee. -/
theorem cli.buildCreatePatch_document (equalFold : String → String → Bool)
    (resolver : cli.Resolver) (baseURL title assigned : String) (sets : List String)
    (parentID : Int) (parentRel : String) :
    (∀ patch, (cli.buildCreatePatch equalFold resolver baseURL title assigned sets parentID
          parentRel).result = Except.ok patch →
        ∃ (assignee : JsonValue) (ops : List cli.PatchOp),
          patch =
            [{ op := "add", path := "/fields/System.Title", value := JsonValue.string title },
             { op := "add", path := "/fields/System.AssignedTo", value := assignee }] ++
            (if parentID > 0 then
              [{ op := "add", path := "/relations/-",
                 value := JsonValue.object
                  [("rel", JsonValue.string
                      (if parentRel = "" then "System.LinkTypes.Hierarchy-Reverse"
                       else parentRel)),
                   ("url", JsonValue.string (api.joinURL baseURL
                      ("_apis/wit/workItems/" ++ toString parentID)))] }]
             else []) ++ ops ∧
          cli.buildPatch (cli.remainingSets equalFold sets) "" = Except.ok ops ∧
          ops.length = (cli.remainingSets equalFold sets).length) ∧
      (cli.buildCreatePatch equalFold cli.profileResolver baseURL "T" "" [] 0 "").result =
        Except.ok
          [{ op := "add", path := "/fields/System.Title", value := JsonValue.string "T" },
           { op := "add", path := "/fields/System.AssignedTo",
             value := JsonValue.string "Ann<ann@x.com>" }] := by
  refine ⟨?_, rfl⟩
  intro patch hok
  obtain ⟨hwf, assignee, hpatch⟩ := cli.buildCreatePatch_ok_document equalFold resolver
    baseURL title assigned sets parentID parentRel patch hok
  have hrem := cli.remainingSets_wf equalFold sets hwf
  have hbuild := cli.buildPatch_ok (cli.remainingSets equalFold sets) "" hrem
  simp only [if_true, List.append_nil] at hbuild
  exact ⟨assignee, _, hpatch, hbuild, (cli.assignmentOps_get _ hrem).1⟩

/-- C19, at a concrete input: an explicit assignee, the parent 12 with the default relation,
and two assignments of which one names the assignee field. -/
theorem cli.buildCreatePatch_document_witness :
    ∃ (assignee : JsonValue) (ops : List cli.PatchOp),
      [{ op := "add", path := "/fields/System.Title", value := JsonValue.string "T" },
       { op := "add", path := "/fields/System.AssignedTo", value := JsonValue.string "bob" },
       { op := "add", path := "/relations/-",
         value := JsonValue.object
          [("rel", JsonValue.string "System.LinkTypes.Hierarchy-Reverse"),
           ("url", JsonValue.string "https://tfs/Coll/_apis/wit/workItems/12")] },
       { op := "add", path := "/fields/System.Tags", value := JsonValue.string "x" }] =
        [{ op := "add", path := "/fields/System.Title", value := JsonValue.string "T" },
         { op := "add", path := "/fields/System.AssignedTo", value := assignee }] ++
        (if (12 : Int) > 0 then
          [{ op := "add", path := "/relations/-",
             value := JsonValue.object
              [("rel", JsonValue.string
                  (if "" = "" then "System.LinkTypes.Hierarchy-Reverse" else "")),
               ("url", JsonValue.string (api.joinURL "https://tfs/Coll/"
                  ("_apis/wit/workItems/" ++ toString (12 : Int))))] }]
         else []) ++ ops ∧
      cli.buildPatch (cli.remainingSets cli.asciiEqualFold
        ["System.Tags=x", "system.assignedTo=al"]) "" = Except.ok ops ∧
      ops.length =
        (cli.remainingSets cli.asciiEqualFold ["System.Tags=x", "system.assignedTo=al"]).length :=
  (cli.buildCreatePatch_document cli.asciiEqualFold cli.profileResolver "https://tfs/Coll/"
    "T" "bob" ["System.Tags=x", "system.assignedTo=al"] 12 "").1 _ rfl

theorem cli.parseAssignment_error_code (input : String) (err : GoError)
    (h : cli.parseAssignment input = Except.error err) : err.code? = some "invalid_args" := by
  unfold cli.parseAssignment at h
  split at h
  · dsimp only at h
    split at h
    · cases h; rfl
    · cases h
  · cases h; rfl

theorem cli.scanSets_malformed (equalFold : String → String → Bool) (sets : List String)
    (hbad : ∃ set ∈ sets, ∃ err, cli.parseAssignment set = Except.error err) :
    ∀ (assignedString : String) (remainingSets : List String),
      ∃ set err, set ∈ sets ∧ cli.parseAssignment set = Except.error err ∧
        cli.scanSets equalFold sets assignedString remainingSets = Except.error err := by
  induction sets with
  | nil =>
    obtain ⟨set, hmem, _⟩ := hbad
    cases hmem
  | cons first rest ih =>
    intro assignedString remainingSets
    cases hparse : cli.parseAssignment first with
    | error err =>
      exact ⟨first, err, List.mem_cons_self _ _, hparse, by simp [cli.scanSets, hparse]⟩
    | ok pair =>
      obtain ⟨field, value⟩ := pair
      have hrest : ∃ set ∈ rest, ∃ err, cli.parseAssignment set = Except.error err := by
        obtain ⟨set, hmem, err, herr⟩ := hbad
        rcases List.mem_cons.1 hmem with h | h
        · rw [h, hparse] at herr
          cases herr
        · exact ⟨set, h, err, herr⟩
      by_cases hfold : equalFold field "System.AssignedTo" = true
      · obtain ⟨set, err, hmem, herr, hscan⟩ :=
          ih hrest (if assignedString = "" then value else assignedString) remainingSets
        exact ⟨set, err, List.mem_cons_of_mem _ hmem, herr,
          by simp only [cli.scanSets, hparse, hfold, if_true]; exact hscan⟩
      · obtain ⟨set, err, hmem, herr, hscan⟩ := ih hrest assignedString (remainingSets ++ [first])
        exact ⟨set, err, List.mem_cons_of_mem _ hmem, herr,
          by simp only [cli.scanSets, hparse, hfold, Bool.false_eq_true, if_false]; exact hscan⟩

theorem cli.buildCreatePatch_cascade_wf (equalFold : String → String → Bool)
    (resolver : cli.Resolver) (baseURL title : String) (sets : List String)
    (parentID : Int) (parentRel : String) (run : cli.CreateRun)
    (hrun : run = cli.buildCreatePatch equalFold resolver baseURL title "" sets parentID
      parentRel)
    (hwf : ∀ set ∈ sets, ∃ field value, cli.parseAssignment set = Except.ok (field, value))
    (hnone : cli.setAssignee equalFold sets = none) :
    (∀ profile, resolver.ProfileMe = Except.ok profile →
        run.lookups = [cli.Lookup.profileMe] ∧
        (profile.EmailAddress = "" ∧ profile.DisplayName = "" →
          run.result =
            Except.error (errs.New "assigned_to_required" "assigned-to is required" none)) ∧
        (¬ (profile.EmailAddress = "" ∧ profile.DisplayName = "") →
          ∃ patch, run.result = Except.ok patch)) ∧
      (∀ err, resolver.ProfileMe = Except.error err →
        (∀ headerErr, resolver.WhoamiFromHeaders = Except.error headerErr →
          run.lookups = [cli.Lookup.profileMe, cli.Lookup.whoamiFromHeaders] ∧
          run.result = Except.error (errs.New "assigned_to_required"
            "assigned-to is required and could not be resolved from PAT profile"
            (some err.Error))) ∧
        (∀ identity, resolver.WhoamiFromHeaders = Except.ok identity → identity.ID ≠ "" →
          run.lookups = [cli.Lookup.profileMe, cli.Lookup.whoamiFromHeaders,
            cli.Lookup.resolveIdentityByID identity.ID] ∧
          ∃ patch, run.result = Except.ok patch) ∧
        (∀ identity, resolver.WhoamiFromHeaders = Except.ok identity → identity.ID = "" →
          run.lookups = [cli.Lookup.profileMe, cli.Lookup.whoamiFromHeaders] ∧
          (identity.UniqueName = "" →
            run.result = Except.error (errs.New "assigned_to_required"
              "assigned-to is required and could not be resolved from PAT profile"
              (some err.Error))) ∧
          (identity.UniqueName ≠ "" → ∃ patch, run.result = Except.ok patch))) := by
  have hs : cli.suppliedAssignee equalFold "" sets = "" := by
    simp [cli.suppliedAssignee, hnone]
  rw [cli.buildCreatePatch_resolved equalFold resolver baseURL title "" sets parentID
    parentRel hwf hs] at hrun
  subst hrun
  refine ⟨?_, ?_⟩
  · intro profile hp
    refine ⟨by simp [cli.resolveAssignee, hp], ?_, ?_⟩
    · rintro ⟨he, hd⟩
      simp [cli.resolveAssignee, hp, he, hd, JsonValue.isEmptyString]
    · intro hnot
      by_cases he : profile.EmailAddress = "" <;> by_cases hd : profile.DisplayName = ""
      · exact absurd ⟨he, hd⟩ hnot
      · exact ⟨cli.createDocument baseURL title (JsonValue.string profile.DisplayName) parentID parentRel
          ((cli.remainingSets equalFold sets).filterMap cli.assignmentOp), by simp [cli.resolveAssignee, hp, he, hd, JsonValue.isEmptyString]⟩
      · exact ⟨cli.createDocument baseURL title (JsonValue.string profile.EmailAddress) parentID parentRel
          ((cli.remainingSets equalFold sets).filterMap cli.assignmentOp), by simp [cli.resolveAssignee, hp, he, hd, JsonValue.isEmptyString]⟩
      · have hne : profile.DisplayName ++ "<" ++ profile.EmailAddress ++ ">" ≠ "" := by
          intro h
          have hlen := congrArg String.length h
          simp at hlen
          exact absurd hlen.2 (by decide)
        exact ⟨cli.createDocument baseURL title
          (JsonValue.string (profile.DisplayName ++ "<" ++ profile.EmailAddress ++ ">"))
          parentID parentRel
          ((cli.remainingSets equalFold sets).filterMap cli.assignmentOp),
          by simp [cli.resolveAssignee, hp, he, hd, JsonValue.isEmptyString, hne]⟩
  · intro err hp
    refine ⟨?_, ?_, ?_⟩
    · intro headerErr hh
      exact ⟨by simp [cli.resolveAssignee, hp, hh], by simp [cli.resolveAssignee, hp, hh]⟩
    · intro identity hh hid
      refine ⟨by simp [cli.resolveAssignee, hp, hh, hid], ?_⟩
      cases hr : resolver.ResolveIdentityByID identity.ID with
      | error e =>
        exact ⟨cli.createDocument baseURL title (cli.identityRefFallback identity) parentID parentRel
          ((cli.remainingSets equalFold sets).filterMap cli.assignmentOp), by simp [cli.resolveAssignee, hp, hh, hid, hr, cli.identityRefFallback,
          JsonValue.isEmptyString]⟩
      | ok found =>
        cases found with
        | none =>
          exact ⟨cli.createDocument baseURL title (cli.identityRefFallback identity) parentID parentRel
          ((cli.remainingSets equalFold sets).filterMap cli.assignmentOp), by simp [cli.resolveAssignee, hp, hh, hid, hr,
            cli.identityRefFallback, JsonValue.isEmptyString]⟩
        | some resolved =>
          exact ⟨cli.createDocument baseURL title
            (JsonValue.object (cli.identityRefValue resolved identity.UniqueName)) parentID parentRel
          ((cli.remainingSets equalFold sets).filterMap cli.assignmentOp), by simp [cli.resolveAssignee, hp, hh, hid, hr,
            JsonValue.isEmptyString]⟩
    · intro identity hh hid
      refine ⟨?_, ?_, ?_⟩
      · by_cases hu : identity.UniqueName = "" <;> simp [cli.resolveAssignee, hp, hh, hid, hu]
      · intro hu
        simp [cli.resolveAssignee, hp, hh, hid, hu]
      · intro hu
        exact ⟨cli.createDocument baseURL title (JsonValue.string identity.UniqueName) parentID parentRel
          ((cli.remainingSets equalFold sets).filterMap cli.assignmentOp), by simp [cli.resolveAssignee, hp, hh, hid, hu,
          JsonValue.isEmptyString]⟩

/-- C13, as amended: let there be no explicit and no set-supplied assignee. When some
assignment is malformed, `buildCreatePatch` asks nothing and returns the `invalid_args`
error of such an assignment. When every assignment is well formed, it asks the profile
first. When the profile lookup succeeds nothing else is asked: a profile with neither
display name nor e-mail address gives `assigned_to_required` at once, any other profile
gives a patch. When the profile lookup fails the response headers are asked; the directory
is asked exactly when the header identity has a non-empty id, and a patch is then
returned; with an empty id the unique name is the value if it is not empty; and
`assigned_to_required` is returned when the header lookup fails or gives neither id nor
unique name. -/
theorem cli.buildCreatePatch_cascade (equalFold : String → String → Bool)
    (resolver : cli.Resolver) (baseURL title : String) (sets : List String)
    (parentID : Int) (parentRel : String) (run : cli.CreateRun)
    (hrun : run = cli.buildCreatePatch equalFold resolver baseURL title "" sets parentID
      parentRel)
    (hnone : cli.setAssignee equalFold sets = none) :
    ((∃ set ∈ sets, ∃ err, cli.parseAssignment set = Except.error err) →
        run.lookups = [] ∧
        ∃ set err, set ∈ sets ∧ cli.parseAssignment set = Except.error err ∧
          run.result = Except.error err ∧ err.code? = some "invalid_args") ∧
      ((∀ set ∈ sets, ∃ field value, cli.parseAssignment set = Except.ok (field, value)) →
        (∀ profile, resolver.ProfileMe = Except.ok profile →
          run.lookups = [cli.Lookup.profileMe] ∧
          (profile.EmailAddress = "" ∧ profile.DisplayName = "" →
            run.result =
              Except.error (errs.New "assigned_to_required" "assigned-to is required" none)) ∧
          (¬ (profile.EmailAddress = "" ∧ profile.DisplayName = "") →
            ∃ patch, run.result = Except.ok patch)) ∧
        (∀ err, resolver.ProfileMe = Except.error err →
          (∀ headerErr, resolver.WhoamiFromHeaders = Except.error headerErr →
            run.lookups = [cli.Lookup.profileMe, cli.Lookup.whoamiFromHeaders] ∧
            run.result = Except.error (errs.New "assigned_to_required"
              "assigned-to is required and could not be resolved from PAT profile"
              (some err.Error))) ∧
          (∀ identity, resolver.WhoamiFromHeaders = Except.ok identity → identity.ID ≠ "" →
            run.lookups = [cli.Lookup.profileMe, cli.Lookup.whoamiFromHeaders,
              cli.Lookup.resolveIdentityByID identity.ID] ∧
            ∃ patch, run.result = Except.ok patch) ∧
          (∀ identity, resolver.WhoamiFromHeaders = Except.ok identity → identity.ID = "" →
            run.lookups = [cli.Lookup.profileMe, cli.Lookup.whoamiFromHeaders] ∧
            (identity.UniqueName = "" →
              run.result = Except.error (errs.New "assigned_to_required"
                "assigned-to is required and could not be resolved from PAT profile"
                (some err.Error))) ∧
            (identity.UniqueName ≠ "" → ∃ patch, run.result = Except.ok patch)))) := by
  refine ⟨?_, fun hwf => cli.buildCreatePatch_cascade_wf equalFold resolver baseURL title sets
    parentID parentRel run hrun hwf hnone⟩
  intro hbad
  obtain ⟨set, err, hmem, herr, hscan⟩ := cli.scanSets_malformed equalFold sets hbad "" []
  have hbuild : cli.buildCreatePatch equalFold resolver baseURL title "" sets parentID
      parentRel = { lookups := [], result := Except.error err } := by
    simp only [cli.buildCreatePatch, hscan]
  rw [hbuild] at hrun
  subst hrun
  exact ⟨rfl, set, err, hmem, herr, rfl, cli.parseAssignment_error_code set err herr⟩

/-- C13 as amended, at a concrete client: the profile lookup fails, the headers name the
identity `42`, and the directory is asked for it. -/
theorem cli.buildCreatePatch_cascade_witness :
    (cli.buildCreatePatch cli.asciiEqualFold cli.noProfileResolver "https://tfs/Coll" "T" ""
        [] 0 "").lookups =
      [cli.Lookup.profileMe, cli.Lookup.whoamiFromHeaders, cli.Lookup.resolveIdentityByID "42"] ∧
    ∃ patch, (cli.buildCreatePatch cli.asciiEqualFold cli.noProfileResolver
        "https://tfs/Coll" "T" "" [] 0 "").result = Except.ok patch :=
  (((cli.buildCreatePatch_cascade cli.asciiEqualFold cli.noProfileResolver "https://tfs/Coll"
    "T" [] 0 "" _ rfl rfl).2 (by simp)).2
    (GoError.other "profile service unreachable") rfl).2.1
    { ID := "42", UniqueName := "CORP-alice", Raw := "42:CORP-alice" } rfl (by decide)

/-- C13, as stated, fails when the profile lookup succeeds with neither display name nor
e-mail address: `buildCreatePatch` asks nothing else and returns `assigned_to_required`,
although the header and directory stages, had they been attempted (as they are when the
profile lookup fails), yield an assignee. -/
theorem cli.buildCreatePatch_empty_profile_stops :
    (cli.buildCreatePatch cli.asciiEqualFold cli.emptyProfileResolver "https://tfs/Coll" "T"
        "" [] 0 "").lookups = [cli.Lookup.profileMe] ∧
      (cli.buildCreatePatch cli.asciiEqualFold cli.emptyProfileResolver "https://tfs/Coll" "T"
        "" [] 0 "").result =
        Except.error (errs.New "assigned_to_required" "assigned-to is required" none) ∧
      (cli.buildCreatePatch cli.asciiEqualFold cli.noProfileResolver "https://tfs/Coll" "T"
        "" [] 0 "").lookups =
        [cli.Lookup.profileMe, cli.Lookup.whoamiFromHeaders,
          cli.Lookup.resolveIdentityByID "42"] ∧
      ∃ patch, (cli.buildCreatePatch cli.asciiEqualFold cli.noProfileResolver
        "https://tfs/Coll" "T" "" [] 0 "").result = Except.ok patch := by
  refine ⟨rfl, rfl, rfl, ⟨_, rfl⟩⟩

/-! ## Redaction of the configuration -/

/-- C22: `Config.Redacted` is idempotent: redacting a redacted configuration changes
nothing. -/
theorem config.Config.Redacted_idempotent (c : config.Config) :
    c.Redacted.Redacted = c.Redacted := by
  by_cases h : c.PAT = ""
  · simp [config.Config.Redacted, h]
  · simp [config.Config.Redacted, h]

/-- C23, as amended: for every configuration with a non-empty PAT, the PAT of the redacted
value is the fixed mask `***`, which differs from the PAT unless the PAT is itself `***`;
`BaseURL` and `Project` are unchanged; two configurations that differ only in their
non-empty PAT have equal redacted values, and `runConfigView` writes the same text for
both. -/
theorem config.Config.Redacted_masks (c : config.Config) (hpat : c.PAT ≠ "") :
    c.Redacted.PAT = "***" ∧ (c.PAT ≠ "***" → c.Redacted.PAT ≠ c.PAT) ∧
      c.Redacted.BaseURL = c.BaseURL ∧ c.Redacted.Project = c.Project ∧
      ∀ other : config.Config, other.PAT ≠ "" → other.BaseURL = c.BaseURL →
        other.Project = c.Project →
        other.Redacted = c.Redacted ∧
          ∀ (marshal : config.Config → String) (jsonMode : Bool),
            cli.configViewOutput marshal jsonMode other =
              cli.configViewOutput marshal jsonMode c := by
  have hred : c.Redacted = { BaseURL := c.BaseURL, Project := c.Project, PAT := "***" } := by
    simp [config.Config.Redacted, hpat]
  refine ⟨by rw [hred], ?_, by rw [hred], by rw [hred], ?_⟩
  · intro hne
    rw [hred]
    exact fun h => hne h.symm
  · intro other hother hbase hproject
    have hred2 : other.Redacted = c.Redacted := by
      rw [hred]
      simp [config.Config.Redacted, hother, hbase, hproject]
    refine ⟨hred2, ?_⟩
    intro marshal jsonMode
    simp only [cli.configViewOutput, hred2, hbase, hproject]

/-- C23 as amended, at concrete configurations: the tokens `s3cret` and `t0ken`. -/
theorem config.Config.Redacted_masks_witness :
    (config.Config.mk "https://tfs/Coll" "Proj" "s3cret").Redacted.PAT = "***" ∧
      (config.Config.mk "https://tfs/Coll" "Proj" "t0ken").Redacted =
        (config.Config.mk "https://tfs/Coll" "Proj" "s3cret").Redacted :=
  have h := config.Config.Redacted_masks (config.Config.mk "https://tfs/Coll" "Proj" "s3cret")
    (by decide)
  ⟨h.1, (h.2.2.2.2 (config.Config.mk "https://tfs/Coll" "Proj" "t0ken") (by decide) rfl
    rfl).1⟩

/-- C23, as stated, fails for the token `***`: it is not empty, and the PAT of the redacted
value is equal to it. -/
theorem config.Config.Redacted_mask_token :
    (config.Config.mk "https://tfs/Coll" "Proj" "***").PAT ≠ "" ∧
      (config.Config.mk "https://tfs/Coll" "Proj" "***").Redacted.PAT =
        (config.Config.mk "https://tfs/Coll" "Proj" "***").PAT := by
  refine ⟨by decide, by decide⟩

/-! ## The verbose log -/

theorem api.truncateBody_long (body : List UInt8) (h : 2048 < body.length) :
    api.truncateBody body = body.take 2048 ++ [46, 46, 46] ∧
      (api.truncateBody body).length = 2051 := by
  have hnot : ¬ body.length ≤ 2048 := by omega
  have hlen : (body.take 2048).length = 2048 := by
    rw [List.length_take]; omega
  refine ⟨by simp only [api.truncateBody, hnot, if_false], ?_⟩
  simp only [api.truncateBody, hnot, if_false, List.length_append, hlen]
  rfl

/-- C25, as amended: `truncateBody` returns the body itself when it has at most 2048 bytes;
otherwise it returns the first 2048 bytes of the body followed by the three bytes of `...`,
a text of 2051 bytes whose first 2048 bytes are those of the body. -/
theorem api.truncateBody_spec (body : List UInt8) :
    (body.length ≤ 2048 → api.truncateBody body = body) ∧
      (2048 < body.length →
        api.truncateBody body = body.take 2048 ++ [46, 46, 46] ∧
          (api.truncateBody body).length = 2051 ∧
          (api.truncateBody body).take 2048 = body.take 2048) := by
  constructor
  · intro h
    simp only [api.truncateBody, h, if_true]
  · intro h
    obtain ⟨heq, hlen⟩ := api.truncateBody_long body h
    refine ⟨heq, hlen, ?_⟩
    have htake : (body.take 2048).length = 2048 := by
      rw [List.length_take]; omega
    rw [heq, List.take_append_of_le_length (Nat.le_of_eq htake.symm), List.take_take,
      Nat.min_self]

/-- C25 as amended, at a concrete body: 2049 zero bytes. -/
theorem api.truncateBody_spec_witness :
    (api.truncateBody (List.replicate 2049 0)).length = 2051 :=
  ((api.truncateBody_spec (List.replicate 2049 0)).2
    (by rw [List.length_replicate]; omega)).2.1

/-- C25, as stated, fails for a body of 2049 bytes: the text returned has 2051 bytes, more
than 2048, and is not the first 2048 bytes of the body. -/
theorem api.truncateBody_marker_exceeds :
    (List.replicate 2049 (0 : UInt8)).length = 2049 ∧
      ¬ ((api.truncateBody (List.replicate 2049 0)).length ≤ 2048) ∧
      api.truncateBody (List.replicate 2049 0) ≠ (List.replicate 2049 (0 : UInt8)).take 2048 := by
  have hrep : (List.replicate 2049 (0 : UInt8)).length = 2049 := List.length_replicate _ _
  have hlen := (api.truncateBody_long (List.replicate 2049 0) (by rw [hrep]; omega)).2
  refine ⟨hrep, by omega, ?_⟩
  intro h
  have h2 := congrArg List.length h
  rw [hlen, List.length_take, hrep] at h2
  omega

theorem api.headerLines_names (equalFold : String → String → Bool)
    (visited : List (String × List String)) (entry : api.LogEntry) (key : String)
    (hmem : entry ∈ api.headerLines equalFold visited)
    (hname : entry.headerName = some key) : equalFold key "Authorization" = false := by
  unfold api.headerLines at hmem
  simp only [List.mem_flatMap] at hmem
  obtain ⟨pair, _, hin⟩ := hmem
  split at hin
  · simp at hin
  · rename_i hfold
    simp only [List.mem_map] at hin
    obtain ⟨value, _, hentry⟩ := hin
    rw [← hentry] at hname
    simp only [api.LogEntry.headerName, Option.some.injEq] at hname
    rw [← hname]
    simpa using hfold

theorem api.logRequest_header_names (equalFold : String → String → Bool) (hasLog : Bool)
    (order : List (String × List String) → List (String × List String))
    (req : http.Request) (body : List UInt8) (entry : api.LogEntry) (key : String)
    (hmem : entry ∈ api.logRequest equalFold hasLog order req body)
    (hname : entry.headerName = some key) : equalFold key "Authorization" = false := by
  unfold api.logRequest at hmem
  split at hmem
  · simp at hmem
  · simp only [List.mem_append, List.mem_singleton] at hmem
    rcases hmem with (h | h) | h
    · rw [h] at hname
      exact Option.noConfusion hname
    · exact api.headerLines_names equalFold _ entry key h hname
    · split at h
      · simp only [List.mem_singleton] at h
        rw [h] at hname
        exact Option.noConfusion hname
      · simp at h

theorem api.headerLines_filter (equalFold : String → String → Bool)
    (visited : List (String × List String)) :
    api.headerLines equalFold visited =
      api.headerLines equalFold
        (visited.filter (fun entry => !equalFold entry.1 "Authorization")) := by
  induction visited with
  | nil => rfl
  | cons entry rest ih =>
    unfold api.headerLines at ih ⊢
    by_cases hfold : equalFold entry.1 "Authorization" = true
    · simp only [List.flatMap_cons, hfold, if_true, List.nil_append, List.filter_cons,
        Bool.not_true, Bool.false_eq_true, if_false]
      exact ih
    · have hfalse : equalFold entry.1 "Authorization" = false := by simpa using hfold
      simp only [List.flatMap_cons, hfalse, Bool.false_eq_true, if_false, List.filter_cons,
        Bool.not_false, if_true]
      rw [ih]

theorem api.newRequest_entries (base64 : String → String)
    (newRequestWithContext : String → String → Except String String)
    (method fullURL contentType pat : String) (req : http.Request)
    (h : api.newRequest base64 newRequestWithContext pat method fullURL contentType =
      Except.ok req) :
    ∃ url, newRequestWithContext method fullURL = Except.ok url ∧ req.Method = method ∧
      req.URL = url ∧
      req.Header.entries =
        ("Authorization", ["Basic " ++ api.basicAuthToken base64 pat]) ::
          (if contentType ≠ "" then
            [("Content-Type", [contentType]), ("Accept", ["application/json"])]
           else [("Accept", ["application/json"])]) := by
  unfold api.newRequest at h
  cases hnew : newRequestWithContext method fullURL with
  | error err =>
    rw [hnew] at h
    exact Except.noConfusion h
  | ok url =>
    rw [hnew] at h
    simp only [Except.ok.injEq] at h
    rw [← h]
    refine ⟨url, rfl, rfl, rfl, ?_⟩
    by_cases hct : contentType = ""
    · simp [http.Header.Set, hct]
    · simp [http.Header.Set, hct]

/-- The request logs of two clients that differ in their token only have the same request
line, the same header lines up to their order, and the same body line. -/
theorem api.logRequest_newRequest (equalFold : String → String → Bool)
    (base64 : String → String)
    (newRequestWithContext : String → String → Except String String)
    (method fullURL contentType : String) (body : List UInt8) (pat1 pat2 : String)
    (req1 req2 : http.Request)
    (order1 order2 : List (String × List String) → List (String × List String))
    (hfold : equalFold "Authorization" "Authorization" = true)
    (hperm1 : (order1 req1.Header.entries).Perm req1.Header.entries)
    (hperm2 : (order2 req2.Header.entries).Perm req2.Header.entries)
    (h1 : api.newRequest base64 newRequestWithContext pat1 method fullURL contentType =
      Except.ok req1)
    (h2 : api.newRequest base64 newRequestWithContext pat2 method fullURL contentType =
      Except.ok req2) :
    req2.Method = req1.Method ∧ req2.URL = req1.URL ∧
      (api.headerLines equalFold (order1 req1.Header.entries)).Perm
        (api.headerLines equalFold (order2 req2.Header.entries)) ∧
      ((order1 req1.Header.entries).filter (fun entry => !equalFold entry.1 "Authorization") =
          (order2 req2.Header.entries).filter
            (fun entry => !equalFold entry.1 "Authorization") →
        api.logRequest equalFold true order1 req1 body =
          api.logRequest equalFold true order2 req2 body) := by
  obtain ⟨url1, hurl1, hm1, hu1, he1⟩ :=
    api.newRequest_entries base64 newRequestWithContext method fullURL contentType pat1 req1 h1
  obtain ⟨url2, hurl2, hm2, hu2, he2⟩ :=
    api.newRequest_entries base64 newRequestWithContext method fullURL contentType pat2 req2 h2
  have hurl : url2 = url1 := by
    rw [hurl1] at hurl2
    exact (Except.ok.inj hurl2).symm
  have hmethod : req2.Method = req1.Method := by rw [hm1, hm2]
  have hURL : req2.URL = req1.URL := by rw [hu1, hu2, hurl]
  refine ⟨hmethod, hURL, ?_, ?_⟩
  · have hl1 : (api.headerLines equalFold (order1 req1.Header.entries)).Perm
        (api.headerLines equalFold req1.Header.entries) :=
      List.Perm.flatMap_right _ hperm1
    have hl2 : (api.headerLines equalFold (order2 req2.Header.entries)).Perm
        (api.headerLines equalFold req2.Header.entries) :=
      List.Perm.flatMap_right _ hperm2
    have hsame : api.headerLines equalFold req1.Header.entries =
        api.headerLines equalFold req2.Header.entries := by
      rw [he1, he2]
      simp only [api.headerLines, List.flatMap_cons, hfold, if_true, List.nil_append]
    exact hl1.trans (hsame ▸ hl2.symm)
  · intro hfilter
    unfold api.logRequest
    rw [api.headerLines_filter equalFold (order1 req1.Header.entries),
      api.headerLines_filter equalFold (order2 req2.Header.entries), hfilter, hmethod, hURL]

/-- C24, as amended: no header line that `logRequest` writes has a name equal to
`Authorization`, letter case aside, in whatever order the loop meets the headers, and
without a sink nothing is written. For two clients that differ in their access token only
(and a comparison `equalFold` that finds `Authorization` equal to itself), the requests
built by `newRequest` for the same call have the same method and URL, so the same request
line, the same body line, and the same header lines up to their order; the two logs are
identical when the two loops meet the headers other than `Authorization` in the same
order. -/
theorem api.logRequest_hides_authorization (equalFold : String → String → Bool)
    (body : List UInt8) :
    (∀ (hasLog : Bool) (order : List (String × List String) → List (String × List String))
        (req : http.Request) (entry : api.LogEntry) (key : String),
        entry ∈ api.logRequest equalFold hasLog order req body →
        entry.headerName = some key → equalFold key "Authorization" = false) ∧
      (∀ (order : List (String × List String) → List (String × List String))
        (req : http.Request),
        api.logRequest equalFold false order req body = [] ∧
        api.logRequest equalFold true order req body =
          [api.LogEntry.requestLine req.Method req.URL] ++
            api.headerLines equalFold (order req.Header.entries) ++
            (if body.length > 0 then [api.LogEntry.body (api.truncateBody body)] else [])) ∧
      (equalFold "Authorization" "Authorization" = true →
        ∀ (base64 : String → String)
          (newRequestWithContext : String → String → Except String String)
          (method fullURL contentType pat1 pat2 : String) (req1 req2 : http.Request)
          (order1 order2 : List (String × List String) → List (String × List String)),
          (order1 req1.Header.entries).Perm req1.Header.entries →
          (order2 req2.Header.entries).Perm req2.Header.entries →
          api.newRequest base64 newRequestWithContext pat1 method fullURL contentType =
            Except.ok req1 →
          api.newRequest base64 newRequestWithContext pat2 method fullURL contentType =
            Except.ok req2 →
          req2.Method = req1.Method ∧ req2.URL = req1.URL ∧
            (api.headerLines equalFold (order1 req1.Header.entries)).Perm
              (api.headerLines equalFold (order2 req2.Header.entries)) ∧
            ((order1 req1.Header.entries).filter
                (fun entry => !equalFold entry.1 "Authorization") =
              (order2 req2.Header.entries).filter
                (fun entry => !equalFold entry.1 "Authorization") →
              api.logRequest equalFold true order1 req1 body =
                api.logRequest equalFold true order2 req2 body)) :=
  ⟨fun hasLog order req entry key hmem hname =>
      api.logRequest_header_names equalFold hasLog order req body entry key hmem hname,
    fun _ _ => ⟨rfl, rfl⟩,
    fun hfold base64 newRequestWithContext method fullURL contentType pat1 pat2 req1 req2
        order1 order2 hperm1 hperm2 h1 h2 =>
      api.logRequest_newRequest equalFold base64 newRequestWithContext method fullURL
        contentType body pat1 pat2 req1 req2 order1 order2 hfold hperm1 hperm2 h1 h2⟩

/-! ## Backoff and header-driven waits -/

theorem api.cappedBackoff_succ (c : Nat) :
    (if wrap64 (api.cappedBackoff c * 2) > api.maxBackoff then api.maxBackoff
      else wrap64 (api.cappedBackoff c * 2)) = api.cappedBackoff (c + 1) := by
  have hsmall : c = 0 ∨ c = 1 ∨ c = 2 ∨ c = 3 ∨ 4 ≤ c := by omega
  rcases hsmall with h | h | h | h | h
  · subst h; decide
  · subst h; decide
  · subst h; decide
  · subst h; decide
  · have hpow : (16 : Int) ≤ 2 ^ c := by
      have h16 : (2 : Int) ^ 4 ≤ 2 ^ c := pow_le_pow_right₀ (by norm_num) h
      simpa using h16
    have hpow1 : (16 : Int) ≤ 2 ^ (c + 1) := by
      have h16 : (2 : Int) ^ 4 ≤ 2 ^ (c + 1) := pow_le_pow_right₀ (by norm_num) (by omega)
      simpa using h16
    have hc : api.cappedBackoff c = 5000000000 := by
      unfold api.cappedBackoff time.Millisecond
      rw [min_eq_right (by omega)]
      norm_num
    have hc1 : api.cappedBackoff (c + 1) = 5000000000 := by
      unfold api.cappedBackoff time.Millisecond
      rw [min_eq_right (by omega)]
      norm_num
    rw [hc, hc1]
    decide

/-- The backoff value on reaching attempt `k` is `min (500 * 2 ^ c) 5000` ms for the number `c`
of earlier waits that were computed by backoff; the waits taken from a header leave it
as it is. -/
theorem api.backoffAfter_eq (env : Nat → api.Outcome) (k : Nat) :
    api.backoffAfter (fun j => api.responseOf (env j)) k =
      api.cappedBackoff (api.backoffWaitsBefore env k) := by
  induction k with
  | zero =>
    have h0 : api.backoffWaitsBefore env 0 = 0 := rfl
    have hc : api.cappedBackoff 0 = api.initialBackoff := by decide
    rw [h0, hc]
    rfl
  | succ k ih =>
    have hrange : api.backoffWaitsBefore env (k + 1) =
        api.backoffWaitsBefore env k + (if api.waitIsBackoff env k = true then 1 else 0) := by
      unfold api.backoffWaitsBefore
      rw [List.range_succ, List.filter_append, List.length_append]
      by_cases hb : api.waitIsBackoff env k = true <;> simp [hb]
    rw [hrange]
    simp only [api.backoffAfter, api.nextBackoff, ih]
    by_cases hb : api.waitIsBackoff env k = true
    · have hzero : api.retryAfter ((api.responseOf (env k)).Header.Get "Retry-After") = 0 := by
        simpa [api.waitIsBackoff] using hb
      simp only [hzero, if_true, hb]
      exact api.cappedBackoff_succ _
    · have hnz : ¬ api.retryAfter ((api.responseOf (env k)).Header.Get "Retry-After") = 0 := by
        simpa [api.waitIsBackoff] using hb
      simp only [hnz, if_false, hb, Bool.false_eq_true, Nat.add_zero]

/-- C30: when the responses of attempts `0` to `k` are retryable (`k < 4`) and the wait after
attempt `k` is computed by backoff, that wait is `min (500 * 2 ^ c) 5000` ms, where `c` is
the number of earlier waits computed by backoff: it is the `(c + 1)`-th backoff wait, and the
waits taken from a `Retry-After` header before it do not count. -/
theorem api.doFullURLWithHeaders_backoff_waits (env : Nat → api.Outcome) (k : Nat)
    (resp : http.Response) (hk : k < api.maxRetries)
    (hprev : ∀ j, j < k → ∃ r, env j = api.Outcome.response r ∧
      api.shouldRetry r.StatusCode = true)
    (hresp : env k = api.Outcome.response resp)
    (hretry : api.shouldRetry resp.StatusCode = true)
    (hbackoff : api.retryAfter (resp.Header.Get "Retry-After") = 0) :
    (api.waits (api.doFullURLWithHeaders env).trace)[k]? =
      some (min (500 * 2 ^ api.backoffWaitsBefore env k) 5000 * time.Millisecond) := by
  rw [api.doFullURLWithHeaders_retries env k (Nat.le_of_lt hk) hprev]
  have hfuel : api.maxRetries + 2 - k = (api.maxRetries + 1 - k) + 1 := by omega
  rw [hfuel, api.attemptLoop_retry env _ k _ _ resp hresp hretry hk]
  simp only [api.Run.after, api.waits_append]
  have hlen := api.length_waits_retryTrace (fun j => api.responseOf (env j)) k
  rw [List.getElem?_append_right (Nat.le_of_eq hlen), hlen, Nat.sub_self]
  have hwait : api.waitFor resp (api.backoffAfter (fun j => api.responseOf (env j)) k) =
      api.cappedBackoff (api.backoffWaitsBefore env k) := by
    simp only [api.waitFor, hbackoff, if_true, api.backoffAfter_eq]
  rw [hwait]
  simp [api.waits, api.cappedBackoff]

/-- C30, at a concrete server: the waits after attempts 0, 1 and 3 are taken from the
header, so the wait after attempt 2 is the first backoff wait, 500 ms. -/
theorem api.doFullURLWithHeaders_backoff_waits_witness :
    (api.waits (api.doFullURLWithHeaders api.mixedServer).trace)[2]? =
        some (min (500 * 2 ^ api.backoffWaitsBefore api.mixedServer 2) 5000 *
          time.Millisecond) ∧
      api.backoffWaitsBefore api.mixedServer 2 = 0 ∧
      api.waits (api.doFullURLWithHeaders api.mixedServer).trace =
        [7 * time.Second, 7 * time.Second, 500 * time.Millisecond, 7 * time.Second] :=
  ⟨api.doFullURLWithHeaders_backoff_waits api.mixedServer 2 (api.sampleResponse 503 "")
    (by decide) (fun j _ => ⟨_, rfl, rfl⟩) rfl (by decide) (by decide),
    by decide, by decide⟩

/-- C24 as amended, at concrete clients: for the tokens `s3cret` and `t0ken`, with both
loops meeting the headers in the same order, the request logs are the same: the request
line, the two other headers and the body. -/
theorem api.logRequest_hides_authorization_witness :
    api.logRequest cli.asciiEqualFold true id (api.sampleBuilt "s3cret") [123, 125] =
        api.logRequest cli.asciiEqualFold true id (api.sampleBuilt "t0ken") [123, 125] ∧
      api.logRequest cli.asciiEqualFold true id (api.sampleBuilt "s3cret") [123, 125] =
        [api.LogEntry.requestLine "POST" "https://tfs/Coll/Proj/_apis/wit/wiql?api-version=6.0",
         api.LogEntry.header "Content-Type" "application/json",
         api.LogEntry.header "Accept" "application/json",
         api.LogEntry.body [123, 125]] :=
  ⟨((api.logRequest_hides_authorization cli.asciiEqualFold [123, 125]).2.2 (by decide)
      api.sampleBase64 api.sampleNewRequest "POST"
      "https://tfs/Coll/Proj/_apis/wit/wiql?api-version=6.0" "application/json"
      "s3cret" "t0ken" (api.sampleBuilt "s3cret") (api.sampleBuilt "t0ken") id id
      (List.Perm.refl _) (List.Perm.refl _) rfl rfl).2.2.2 (by decide),
    by decide⟩

/-- C24, as stated, fails on the order of the header lines: the loop ranges over a map, so
one call may meet the headers in the order `Content-Type`, `Accept` and another in the
order `Accept`, `Content-Type`; the request logs of the clients with the tokens `s3cret`
and `t0ken` are then not identical, though they hold the same lines. -/
theorem api.logRequest_order_differs :
    (List.reverse (api.sampleBuilt "t0ken").Header.entries).Perm
        (api.sampleBuilt "t0ken").Header.entries ∧
      api.logRequest cli.asciiEqualFold true id (api.sampleBuilt "s3cret") [123, 125] =
        [api.LogEntry.requestLine "POST" "https://tfs/Coll/Proj/_apis/wit/wiql?api-version=6.0",
         api.LogEntry.header "Content-Type" "application/json",
         api.LogEntry.header "Accept" "application/json",
         api.LogEntry.body [123, 125]] ∧
      api.logRequest cli.asciiEqualFold true List.reverse (api.sampleBuilt "t0ken")
          [123, 125] =
        [api.LogEntry.requestLine "POST" "https://tfs/Coll/Proj/_apis/wit/wiql?api-version=6.0",
         api.LogEntry.header "Accept" "application/json",
         api.LogEntry.header "Content-Type" "application/json",
         api.LogEntry.body [123, 125]] ∧
      api.logRequest cli.asciiEqualFold true id (api.sampleBuilt "s3cret") [123, 125] ≠
        api.logRequest cli.asciiEqualFold true List.reverse (api.sampleBuilt "t0ken")
          [123, 125] :=
  ⟨List.reverse_perm _, by decide, by decide, by decide⟩

/-! ## Normalised work items -/

theorem output.stringPtr_of_ne (s : String) (h : s ≠ "") : output.stringPtr s = some s := by
  simp [output.stringPtr, h]

theorem output.angle_ne_empty (dn un : String) : dn ++ "<" ++ un ++ ">" ≠ "" := by
  intro h
  have hlen := congrArg String.length h
  simp at hlen
  exact absurd hlen.2 (by decide)

/-- C28: `NormalizeWorkItem` keeps the id and the fields mapping (the nil map becoming the
empty map), and renders the value `v` of `System.AssignedTo` as: the string itself when `v`
is a non-empty string; `displayName<uniqueName>` when `v` is a mapping in which both are
non-empty strings; the display name alone, or the unique name alone, when only that one is a
non-empty string; and no value in every other case. The two items of the tests are
instances. -/
theorem output.NormalizeWorkItem_spec (raw : api.WorkItem) :
    (output.NormalizeWorkItem raw).ID = raw.ID ∧
      (output.NormalizeWorkItem raw).Fields = raw.fieldMap ∧
      (∀ fields, raw.Fields = some fields → (output.NormalizeWorkItem raw).Fields = fields) ∧
      (∀ s, JsonObject.index raw.fieldMap "System.AssignedTo" = JsonValue.string s →
        (s ≠ "" → (output.NormalizeWorkItem raw).AssignedTo = some s) ∧
        (s = "" → (output.NormalizeWorkItem raw).AssignedTo = none)) ∧
      (∀ m, JsonObject.index raw.fieldMap "System.AssignedTo" = JsonValue.object m →
        (∀ dn un, (JsonObject.index m "displayName").asString = some dn → dn ≠ "" →
          (JsonObject.index m "uniqueName").asString = some un → un ≠ "" →
          (output.NormalizeWorkItem raw).AssignedTo = some (dn ++ "<" ++ un ++ ">")) ∧
        (∀ dn, (JsonObject.index m "displayName").asString = some dn → dn ≠ "" →
          (∀ un, (JsonObject.index m "uniqueName").asString = some un → un = "") →
          (output.NormalizeWorkItem raw).AssignedTo = some dn) ∧
        (∀ un, (JsonObject.index m "uniqueName").asString = some un → un ≠ "" →
          (∀ dn, (JsonObject.index m "displayName").asString = some dn → dn = "") →
          (output.NormalizeWorkItem raw).AssignedTo = some un) ∧
        ((∀ dn, (JsonObject.index m "displayName").asString = some dn → dn = "") →
          (∀ un, (JsonObject.index m "uniqueName").asString = some un → un = "") →
          (output.NormalizeWorkItem raw).AssignedTo = none)) ∧
      ((∀ s, JsonObject.index raw.fieldMap "System.AssignedTo" ≠ JsonValue.string s) →
        (∀ m, JsonObject.index raw.fieldMap "System.AssignedTo" ≠ JsonValue.object m) →
        (output.NormalizeWorkItem raw).AssignedTo = none) ∧
      (output.NormalizeWorkItem output.sampleIdentityItem).AssignedTo =
        some "Alex Doe<alex@example.com>" ∧
      (output.NormalizeWorkItem output.sampleIdentityItem).Type_ = some "User Story" ∧
      (output.NormalizeWorkItem output.sampleStringItem).AssignedTo = some "Pat Owner" := by
  have hassigned : (output.NormalizeWorkItem raw).AssignedTo =
      output.identityString (JsonObject.index raw.fieldMap "System.AssignedTo") := by
    unfold output.NormalizeWorkItem api.WorkItem.fieldMap
    cases raw.Fields <;> rfl
  refine ⟨rfl, ?_, ?_, ?_, ?_, ?_, by decide, by decide, by decide⟩
  · unfold output.NormalizeWorkItem api.WorkItem.fieldMap
    cases raw.Fields <;> rfl
  · intro fields hf
    simp only [output.NormalizeWorkItem, hf]
  · intro s hs
    rw [hassigned, hs]
    constructor
    · intro hne
      simp [output.identityString, output.stringPtr, hne]
    · intro he
      simp [output.identityString, output.stringPtr, he]
  · intro m hm
    rw [hassigned, hm]
    refine ⟨?_, ?_, ?_, ?_⟩
    · intro dn un hdn hdne hun hune
      simp [output.identityString, hdn, hdne, hun, hune, output.stringPtr,
        output.angle_ne_empty dn un]
    · intro dn hdn hdne hun
      cases hu : (JsonObject.index m "uniqueName").asString with
      | none => simp [output.identityString, hdn, hdne, hu, output.stringPtr]
      | some un =>
        have := hun un hu
        simp [output.identityString, hdn, hdne, hu, this, output.stringPtr]
    · intro un hun hune hdn
      cases hd : (JsonObject.index m "displayName").asString with
      | none => simp [output.identityString, hd, hun, hune, output.stringPtr]
      | some dn =>
        have := hdn dn hd
        simp [output.identityString, hd, this, hun, hune, output.stringPtr]
    · intro hdn hun
      cases hd : (JsonObject.index m "displayName").asString with
      | none =>
        cases hu : (JsonObject.index m "uniqueName").asString with
        | none => simp [output.identityString, hd, hu]
        | some un => simp [output.identityString, hd, hu, hun un hu]
      | some dn =>
        cases hu : (JsonObject.index m "uniqueName").asString with
        | none => simp [output.identityString, hd, hu, hdn dn hd]
        | some un => simp [output.identityString, hd, hu, hdn dn hd, hun un hu]
  · intro hs hm
    rw [hassigned]
    cases hv : JsonObject.index raw.fieldMap "System.AssignedTo" with
    | string s => exact absurd hv (hs s)
    | object m => exact absurd hv (hm m)
    | null => rfl
    | bool b => rfl
    | number n => rfl
    | array xs => rfl

/-- C28, at a concrete item: a mapping with the display name `Ann` and an empty unique
name. -/
theorem output.NormalizeWorkItem_spec_witness :
    (output.NormalizeWorkItem
      { ID := 7, Fields := some [("System.AssignedTo", JsonValue.object
          [("displayName", JsonValue.string "Ann"), ("uniqueName", JsonValue.string "")])],
        Relations := [], URL := "" }).AssignedTo = some "Ann" :=
  ((output.NormalizeWorkItem_spec
    { ID := 7, Fields := some [("System.AssignedTo", JsonValue.object
        [("displayName", JsonValue.string "Ann"), ("uniqueName", JsonValue.string "")])],
      Relations := [], URL := "" }).2.2.2.2.1
    [("displayName", JsonValue.string "Ann"), ("uniqueName", JsonValue.string "")] rfl).2.1
    "Ann" rfl (by decide) (fun un hun => by
      have h : (JsonObject.index [("displayName", JsonValue.string "Ann"),
          ("uniqueName", JsonValue.string "")] "uniqueName").asString = some "" := rfl
      rw [h] at hun
      exact (Option.some.inj hun).symm)

/-! ## Fields supplied twice to a create -/

theorem strings.append_left_cancel (p a b : String) (h : p ++ a = p ++ b) : a = b := by
  have hdata := congrArg String.data h
  simp only [String.data_append] at hdata
  exact String.ext (List.append_cancel_left hdata)

theorem cli.mem_assignmentOps (equalFold : String → String → Bool) (sets : List String)
    (op : cli.PatchOp)
    (hop : op ∈ (cli.remainingSets equalFold sets).filterMap cli.assignmentOp) :
    ∃ set field value, set ∈ sets ∧ cli.parseAssignment set = Except.ok (field, value) ∧
      equalFold field "System.AssignedTo" = false ∧
      op = { op := "add", path := "/fields/" ++ field, value := JsonValue.string value } := by
  rw [List.mem_filterMap] at hop
  obtain ⟨set, hset, hsome⟩ := hop
  unfold cli.remainingSets at hset
  rw [List.mem_filter] at hset
  obtain ⟨hmem, hnot⟩ := hset
  cases hparse : cli.parseAssignment set with
  | error err => simp [cli.assignmentOp, hparse] at hsome
  | ok pair =>
    obtain ⟨field, value⟩ := pair
    simp only [cli.assignmentOp, hparse, Option.some.injEq] at hsome
    simp only [cli.isAssigneeSet, hparse, Bool.not_eq_true'] at hnot
    exact ⟨set, field, value, hmem, hparse, hnot, hsome.symm⟩

/-- C21, as amended: whenever `buildCreatePatch` succeeds (with a comparison `equalFold`
that finds `System.AssignedTo` equal to itself), the patch has exactly one operation at
`/fields/System.AssignedTo`: the assignments that name the assignee field are consumed by
the assignee operation. No other field is deduplicated: every assignment that names another
field, `System.Title` included, has its own operation in the patch, after the title
operation built from the explicit title. -/
theorem cli.buildCreatePatch_assignee_once (equalFold : String → String → Bool)
    (resolver : cli.Resolver) (baseURL title assigned : String) (sets : List String)
    (parentID : Int) (parentRel : String) (patch : List cli.PatchOp)
    (hfold : equalFold "System.AssignedTo" "System.AssignedTo" = true)
    (hok : (cli.buildCreatePatch equalFold resolver baseURL title assigned sets parentID
      parentRel).result = Except.ok patch) :
    patch.countP (fun op => op.path = "/fields/System.AssignedTo") = 1 ∧
      patch.head? =
        some { op := "add", path := "/fields/System.Title", value := JsonValue.string title } ∧
      ∀ set field value, set ∈ sets → cli.parseAssignment set = Except.ok (field, value) →
        equalFold field "System.AssignedTo" = false →
        ∃ op ∈ patch.tail, op.path = "/fields/" ++ field ∧ op.value = JsonValue.string value := by
  obtain ⟨hwf, assignee, hpatch⟩ := cli.buildCreatePatch_ok_document equalFold resolver
    baseURL title assigned sets parentID parentRel patch hok
  subst hpatch
  refine ⟨?_, rfl, ?_⟩
  · have hops : ((cli.remainingSets equalFold sets).filterMap cli.assignmentOp).countP
        (fun op => op.path = "/fields/System.AssignedTo") = 0 := by
      rw [List.countP_eq_zero]
      intro op hop
      obtain ⟨set, field, value, _, _, hnot, hopEq⟩ := cli.mem_assignmentOps equalFold sets op hop
      rw [hopEq]
      simp only [decide_eq_true_eq]
      intro hpath
      have hfield : field = "System.AssignedTo" :=
        strings.append_left_cancel "/fields/" field "System.AssignedTo" hpath
      rw [hfield, hfold] at hnot
      exact Bool.noConfusion hnot
    have htitle : ¬ ("/fields/System.Title" = "/fields/System.AssignedTo") := by decide
    have hrel : ¬ ("/relations/-" = "/fields/System.AssignedTo") := by decide
    by_cases hp : parentID > 0
    · simp [cli.createDocument, hp, List.countP_cons, List.countP_append, hops, htitle, hrel]
    · simp [cli.createDocument, hp, List.countP_cons, List.countP_append, hops, htitle]
  · intro set field value hset hparse hnot
    refine ⟨{ op := "add", path := "/fields/" ++ field, value := JsonValue.string value },
      ?_, rfl, rfl⟩
    have hrem : set ∈ cli.remainingSets equalFold sets := by
      unfold cli.remainingSets
      rw [List.mem_filter]
      exact ⟨hset, by simp [cli.isAssigneeSet, hparse, hnot]⟩
    have hmem : ({ op := "add", path := "/fields/" ++ field, value := JsonValue.string value } :
        cli.PatchOp) ∈ (cli.remainingSets equalFold sets).filterMap cli.assignmentOp := by
      rw [List.mem_filterMap]
      exact ⟨set, hrem, cli.assignmentOp_of_ok set field value hparse⟩
    simp only [cli.createDocument, List.cons_append, List.nil_append, List.tail_cons,
      List.mem_cons, List.mem_append]
    exact Or.inr (Or.inr hmem)

/-- C21 as amended, at a concrete input: the explicit assignee `bob` and two assignments that
name the assignee field give a patch with one assignee operation. -/
theorem cli.buildCreatePatch_assignee_once_witness :
    ([{ op := "add", path := "/fields/System.Title", value := JsonValue.string "T" },
      { op := "add", path := "/fields/System.AssignedTo", value := JsonValue.string "bob" }] :
      List cli.PatchOp).countP (fun op => op.path = "/fields/System.AssignedTo") = 1 :=
  (cli.buildCreatePatch_assignee_once cli.asciiEqualFold cli.profileResolver
    "https://tfs/Coll" "T" "bob" ["System.AssignedTo=al", "system.assignedto=cy"] 0 "" _
    (by decide) rfl).1

/-- C21, as stated, fails for the title: with the explicit title `T` and the assignment
`System.Title=Other`, the patch has two operations at `/fields/System.Title`. -/
theorem cli.buildCreatePatch_title_twice :
    (cli.buildCreatePatch cli.asciiEqualFold cli.profileResolver "https://tfs/Coll" "T" "bob"
        ["System.Title=Other"] 0 "").paths =
      some ["/fields/System.Title", "/fields/System.AssignedTo", "/fields/System.Title"] := by
  decide

/-! ## Escaped quotes -/

theorem cli.quoteRunsFrom_doubled (cs : List Char) :
    ∀ run : Nat, run % 2 = 0 →
      ∀ n ∈ cli.quoteRunsFrom run
        (cs.flatMap (fun c => if c = cli.quote then [cli.quote, cli.quote] else [c])),
        n % 2 = 0 := by
  induction cs with
  | nil =>
    intro run hrun n hn
    simp only [List.flatMap_nil, cli.quoteRunsFrom] at hn
    split at hn
    · simp at hn
    · simp only [List.mem_singleton] at hn
      rw [hn]; exact hrun
  | cons c rest ih =>
    intro run hrun n hn
    by_cases hc : c = cli.quote
    · simp only [List.flatMap_cons, hc, if_true, List.cons_append, List.nil_append,
        cli.quoteRunsFrom] at hn
      exact ih (run + 1 + 1) (by omega) n hn
    · simp only [List.flatMap_cons, hc, if_false, List.cons_append, List.nil_append,
        cli.quoteRunsFrom, List.mem_append] at hn
      rcases hn with hn | hn
      · split at hn
        · simp at hn
        · simp only [List.mem_singleton] at hn
          rw [hn]; exact hrun
      · exact ih 0 rfl n hn

theorem strings.replaceChars_undouble (q : Char) (cs : List Char) :
    ∀ fuel : Nat,
      (cs.flatMap (fun c => if c = q then [q, q] else [c])).length ≤ fuel →
      strings.replaceChars [q, q] [q] fuel
        (cs.flatMap (fun c => if c = q then [q, q] else [c])) = cs := by
  induction cs with
  | nil => intro fuel _; cases fuel <;> simp [strings.replaceChars]
  | cons c rest ih =>
    intro fuel hfuel
    by_cases hc : c = q
    · simp only [List.flatMap_cons, hc, if_true, List.cons_append, List.nil_append,
        List.length_cons] at hfuel ⊢
      cases fuel with
      | zero => omega
      | succ fuel =>
        have hrest := ih fuel (by omega)
        simp [strings.replaceChars, strings.startsWith, hrest]
    · simp only [List.flatMap_cons, hc, if_false, List.cons_append, List.nil_append,
        List.length_cons] at hfuel ⊢
      cases fuel with
      | zero => omega
      | succ fuel =>
        have hrest := ih fuel (by omega)
        simp [strings.replaceChars, strings.startsWith, hc, hrest]

theorem cli.scanLiteral_doubled (cs rest : List Char) (hrest : rest.head? ≠ some cli.quote) :
    cli.scanLiteral
        (cs.flatMap (fun c => if c = cli.quote then [cli.quote, cli.quote] else [c]) ++
          cli.quote :: rest) = some (cs, rest) := by
  induction cs with
  | nil =>
    cases rest with
    | nil => simp [cli.scanLiteral]
    | cons d ds =>
      have hd : d ≠ cli.quote := fun h => hrest (by simp [h])
      simp [cli.scanLiteral, hd]
  | cons c tail ih =>
    by_cases hc : c = cli.quote
    · simp only [List.flatMap_cons, hc, if_true, List.cons_append, List.nil_append,
        cli.scanLiteral, ih]
    · have hshape : ∃ d ds, tail.flatMap
          (fun c => if c = cli.quote then [cli.quote, cli.quote] else [c]) ++
            cli.quote :: rest = d :: ds := by
        cases hl : tail.flatMap
            (fun c => if c = cli.quote then [cli.quote, cli.quote] else [c]) with
        | nil => exact ⟨cli.quote, rest, rfl⟩
        | cons d ds => exact ⟨d, ds ++ cli.quote :: rest, rfl⟩
      obtain ⟨d, ds, hds⟩ := hshape
      simp only [List.flatMap_cons, hc, if_false, List.cons_append, List.nil_append]
      rw [hds] at ih ⊢
      simp only [cli.scanLiteral, hc, if_false, ih]

theorem cli.escapeWiql_toList (v : String) :
    (cli.escapeWiql v).toList =
      v.toList.flatMap (fun c => if c = cli.quote then [cli.quote, cli.quote] else [c]) := by
  rw [cli.escapeWiql_eq]
  rfl

theorem cli.scanLiteral_escapeWiql (v rest : String)
    (hrest : rest.toList.head? ≠ some cli.quote) :
    cli.scanLiteral ((cli.escapeWiql v ++ "'" ++ rest).toList) =
      some (v.toList, rest.toList) := by
  have hq : ("'" : String).toList = [cli.quote] := by decide
  have hlist : (cli.escapeWiql v ++ "'" ++ rest).toList =
      (cli.escapeWiql v).toList ++ cli.quote :: rest.toList := by
    simp only [String.toList, String.data_append, List.append_assoc]
    rfl
  rw [hlist, cli.escapeWiql_toList]
  exact cli.scanLiteral_doubled v.toList rest.toList hrest

theorem strings.intercalate_go_toList (sep : String) (parts : List String) :
    ∀ acc : String,
      (String.intercalate.go acc sep parts).toList =
        acc.toList ++ parts.flatMap (fun part => sep.toList ++ part.toList) := by
  induction parts with
  | nil => intro acc; simp [String.intercalate.go]
  | cons part parts ih =>
    intro acc
    rw [String.intercalate.go, ih]
    simp [String.toList, String.data_append, List.append_assoc]

theorem cli.joinWiqlValues_fold (values : List String) :
    ∀ quoted : List String,
      values.foldl (fun quoted value =>
        let trimmed := strings.TrimSpace value
        if trimmed = "" then quoted else quoted ++ ["'" ++ cli.escapeWiql trimmed ++ "'"])
        quoted =
      quoted ++ (cli.keptValues values).map (fun t => "'" ++ cli.escapeWiql t ++ "'") := by
  induction values with
  | nil => intro quoted; simp [cli.keptValues]
  | cons value rest ih =>
    intro quoted
    rw [List.foldl_cons, ih]
    by_cases hv : strings.TrimSpace value = ""
    · simp [cli.keptValues, hv]
    · simp [cli.keptValues, hv]

theorem cli.quoted_toList (t : String) :
    ("'" ++ cli.escapeWiql t ++ "'").toList =
      cli.quote :: (t.toList.flatMap
        (fun c => if c = cli.quote then [cli.quote, cli.quote] else [c]) ++ [cli.quote]) := by
  have hq : ("'" : String).toList = [cli.quote] := by decide
  have hlist : ("'" ++ cli.escapeWiql t ++ "'").toList =
      ("'" : String).toList ++ (cli.escapeWiql t).toList ++ ("'" : String).toList := by
    simp only [String.toList, String.data_append]
  rw [hlist, hq, cli.escapeWiql_toList]
  rfl

theorem cli.encodeLiterals_cons (t : List Char) (ts : List (List Char)) :
    cli.encodeLiterals (t :: ts) =
      cli.quote :: (t.flatMap (fun c => if c = cli.quote then [cli.quote, cli.quote] else [c]) ++
        [cli.quote]) ++
      ts.flatMap (fun u => [',', ' '] ++ (cli.quote ::
        (u.flatMap (fun c => if c = cli.quote then [cli.quote, cli.quote] else [c]) ++
          [cli.quote]))) := by
  induction ts generalizing t with
  | nil => simp [cli.encodeLiterals]
  | cons u us ih =>
    rw [cli.encodeLiterals, ih u]
    simp

theorem cli.joinWiqlValues_toList (values : List String) :
    (cli.joinWiqlValues values).toList =
      cli.encodeLiterals ((cli.keptValues values).map String.toList) := by
  unfold cli.joinWiqlValues
  simp only []
  rw [cli.joinWiqlValues_fold, List.nil_append]
  cases hk : cli.keptValues values with
  | nil => rfl
  | cons t ts =>
    have hsep : (", " : String).toList = [',', ' '] := by decide
    rw [List.map_cons, List.map_cons, cli.encodeLiterals_cons]
    unfold strings.Join String.intercalate
    rw [strings.intercalate_go_toList, cli.quoted_toList, hsep]
    simp only [List.flatMap_map, cli.quoted_toList]

theorem cli.scanLiteralList_encode (ts : List (List Char)) :
    ∀ fuel : Nat, ts.length < fuel →
      cli.scanLiteralList fuel (cli.encodeLiterals ts) = some ts := by
  induction ts with
  | nil =>
    intro fuel hfuel
    cases fuel with
    | zero => omega
    | succ fuel => rfl
  | cons t rest ih =>
    intro fuel hfuel
    cases fuel with
    | zero => omega
    | succ fuel =>
      cases rest with
      | nil =>
        have hscan := cli.scanLiteral_doubled t [] (by simp)
        simp only [cli.encodeLiterals, cli.scanLiteralList, if_true, hscan]
      | cons next more =>
        have hhead : (',' :: ' ' :: cli.encodeLiterals (next :: more)).head? ≠
            some cli.quote := by
          simp only [List.head?_cons, ne_eq, Option.some.injEq]
          decide
        have hscan := cli.scanLiteral_doubled t
          (',' :: ' ' :: cli.encodeLiterals (next :: more)) hhead
        have hrest := ih fuel (by simp only [List.length_cons] at hfuel ⊢; omega)
        have henc : cli.encodeLiterals (t :: next :: more) =
            cli.quote :: (t.flatMap
              (fun c => if c = cli.quote then [cli.quote, cli.quote] else [c]) ++
              cli.quote :: ',' :: ' ' :: cli.encodeLiterals (next :: more)) := rfl
        rw [henc]
        simp only [cli.scanLiteralList, if_true, hscan, hrest]

theorem cli.encodeLiterals_length (ts : List (List Char)) :
    ts.length ≤ (cli.encodeLiterals ts).length := by
  induction ts with
  | nil => simp
  | cons t rest ih =>
    rw [cli.encodeLiterals_cons]
    cases rest with
    | nil => simp
    | cons u us =>
      rw [cli.encodeLiterals_cons] at ih
      simp only [List.length_cons, List.length_append, List.flatMap_cons, List.cons_append,
        List.nil_append, List.singleton_append] at ih ⊢
      omega

theorem cli.readLiterals_joinWiqlValues (values : List String) :
    cli.readLiterals (cli.joinWiqlValues values) = some (cli.keptValues values) := by
  unfold cli.readLiterals
  have hlen : ((cli.keptValues values).map String.toList).length <
      (cli.joinWiqlValues values).length + 1 := by
    have h := cli.encodeLiterals_length ((cli.keptValues values).map String.toList)
    rw [← cli.joinWiqlValues_toList] at h
    exact Nat.lt_succ_of_le h
  have hscan := cli.scanLiteralList_encode ((cli.keptValues values).map String.toList)
    ((cli.joinWiqlValues values).length + 1) hlen
  rw [← cli.joinWiqlValues_toList] at hscan
  rw [hscan]
  simp only [List.map_map]
  congr 1
  exact List.map_id _

theorem cli.myWiqlQuery_type (typeFilter : String) (allTypes : Bool) (excludeState : String)
    (allStates : Bool) (ht : allTypes = false) (hne : strings.TrimSpace typeFilter ≠ "") :
    ∃ tail : String, tail.toList.head? ≠ some cli.quote ∧
      cli.myWiqlQuery typeFilter allTypes excludeState allStates =
        "SELECT [System.Id] FROM WorkItems WHERE [System.TeamProject] = @Project AND [System.AssignedTo] = @Me AND [System.WorkItemType] = '" ++
          (cli.escapeWiql typeFilter ++ "'" ++ tail) := by
  have hH : ("SELECT [System.Id] FROM WorkItems WHERE [System.TeamProject] = @Project AND [System.AssignedTo] = @Me AND [System.WorkItemType] = '" : String) =
      "SELECT [System.Id] FROM WorkItems WHERE " ++ ("[System.TeamProject] = @Project" ++
        (" AND " ++ ("[System.AssignedTo] = @Me" ++
          (" AND " ++ "[System.WorkItemType] = '")))) := by decide
  have hspace : ∀ t : String, (" " ++ t).toList.head? ≠ some cli.quote := by
    intro t
    have hl : (" " ++ t).toList = ' ' :: t.toList := rfl
    rw [hl]
    simp only [List.head?_cons, ne_eq, Option.some.injEq]
    decide
  have hand : (" AND " : String) = " " ++ "AND " := by decide
  have horder : (" ORDER BY [System.ChangedDate] DESC" : String) =
      " " ++ "ORDER BY [System.ChangedDate] DESC" := by decide
  subst ht
  unfold cli.myWiqlQuery strings.Join
  by_cases hall : allStates = true
  · subst hall
    refine ⟨" ORDER BY [System.ChangedDate] DESC", by rw [horder]; exact hspace _, ?_⟩
    rw [hH]
    simp only [hne, ne_eq, not_true_eq_false, not_false_eq_true, and_self, and_false,
      Bool.true_eq_false, false_and, if_true, if_false, List.cons_append, List.nil_append,
      String.intercalate, String.intercalate.go, String.append_assoc]
  · have hall : allStates = false := by simpa using hall
    subst hall
    by_cases hs : strings.TrimSpace excludeState = ""
    · refine ⟨" " ++ ("AND " ++ ("[System.State] IN (" ++
        cli.joinWiqlValues ["Разработка", "Выполняется"] ++ ")" ++
          " ORDER BY [System.ChangedDate] DESC")), hspace _, ?_⟩
      rw [hH]
      simp only [hne, hs, ne_eq, not_true_eq_false, not_false_eq_true, and_self, and_false,
        if_true, if_false, List.cons_append, List.nil_append, String.intercalate,
        String.intercalate.go, String.append_assoc, hand]
    · refine ⟨" " ++ ("AND " ++ ("[System.State] <> '" ++ cli.escapeWiql excludeState ++ "'" ++
          " ORDER BY [System.ChangedDate] DESC")), hspace _, ?_⟩
      rw [hH]
      simp only [hne, hs, ne_eq, not_true_eq_false, not_false_eq_true, and_self, and_false,
        if_true, if_false, List.cons_append, List.nil_append, String.intercalate,
        String.intercalate.go, String.append_assoc, hand]

theorem cli.myWiqlQuery_state (typeFilter : String) (allTypes : Bool) (excludeState : String)
    (allStates : Bool) (hs : allStates = false) (hne : strings.TrimSpace excludeState ≠ "") :
    ∃ head : String,
      cli.myWiqlQuery typeFilter allTypes excludeState allStates =
        head ++ ("[System.State] <> '" ++
          (cli.escapeWiql excludeState ++ "'" ++ " ORDER BY [System.ChangedDate] DESC")) := by
  subst hs
  unfold cli.myWiqlQuery strings.Join
  by_cases htype : allTypes = false ∧ strings.TrimSpace typeFilter ≠ ""
  · refine ⟨"SELECT [System.Id] FROM WorkItems WHERE " ++ ("[System.TeamProject] = @Project" ++
      (" AND " ++ ("[System.AssignedTo] = @Me" ++ (" AND " ++ ("[System.WorkItemType] = '" ++
        (cli.escapeWiql typeFilter ++ ("'" ++ " AND "))))))), ?_⟩
    simp only [htype, hne, ne_eq, not_true_eq_false, not_false_eq_true, and_self, and_false,
      if_true, if_false, List.cons_append, List.nil_append, String.intercalate,
      String.intercalate.go, String.append_assoc]
  · refine ⟨"SELECT [System.Id] FROM WorkItems WHERE " ++ ("[System.TeamProject] = @Project" ++
      (" AND " ++ ("[System.AssignedTo] = @Me" ++ " AND "))), ?_⟩
    simp only [htype, hne, ne_eq, not_true_eq_false, not_false_eq_true, and_self, and_false,
      if_true, if_false, List.cons_append, List.nil_append, String.intercalate,
      String.intercalate.go, String.append_assoc]

/-- C29: for every text `v`, every maximal run of single quotes in `escapeWiql v` has even
length, and replacing every pair of single quotes in it by one single quote gives back `v`.
Hence, read back as a quoted literal (from just after the opening quote, with any
continuation that does not begin with a quote), `escapeWiql v` followed by the closing
quote gives exactly `v` and that continuation: the literal does not end early. In
`wiqlSearchQuery v` both literals are read back as `v`. In `myWiqlQuery` the type filter,
when it is placed, stands after the fixed head of the query and is read back as the type
filter, and the excluded state, when it is placed, stands after `[System.State] <> '`
and is read back as the excluded state, up to the fixed `ORDER BY` tail. And the text of
`joinWiqlValues`, read as a list of quoted literals, gives exactly the trimmed, non-blank
values. -/
theorem cli.escapeWiql_quotes (v : String) :
    (∀ n ∈ cli.quoteRuns (cli.escapeWiql v), n % 2 = 0) ∧
      strings.ReplaceAll (cli.escapeWiql v) "''" "'" = v ∧
      (∀ rest : String, rest.toList.head? ≠ some cli.quote →
        cli.scanLiteral ((cli.escapeWiql v ++ "'" ++ rest).toList) =
          some (v.toList, rest.toList)) ∧
      cli.wiqlSearchQuery v =
        "SELECT [System.Id] FROM WorkItems WHERE ([System.Title] CONTAINS '" ++
          (cli.escapeWiql v ++ "'" ++
            (" OR [System.Description] CONTAINS '" ++
              (cli.escapeWiql v ++ "'" ++ ") ORDER BY [System.ChangedDate] DESC"))) ∧
      cli.scanLiteral ((cli.escapeWiql v ++ "'" ++
          (" OR [System.Description] CONTAINS '" ++
            (cli.escapeWiql v ++ "'" ++ ") ORDER BY [System.ChangedDate] DESC"))).toList) =
        some (v.toList, (" OR [System.Description] CONTAINS '" ++
          (cli.escapeWiql v ++ "'" ++ ") ORDER BY [System.ChangedDate] DESC")).toList) ∧
      cli.scanLiteral
          ((cli.escapeWiql v ++ "'" ++ ") ORDER BY [System.ChangedDate] DESC").toList) =
        some (v.toList, (") ORDER BY [System.ChangedDate] DESC" : String).toList) ∧
      (∀ (allTypes : Bool) (excludeState : String) (allStates : Bool),
        allTypes = false → strings.TrimSpace v ≠ "" →
        ∃ tail : String,
          cli.myWiqlQuery v allTypes excludeState allStates =
            "SELECT [System.Id] FROM WorkItems WHERE [System.TeamProject] = @Project AND [System.AssignedTo] = @Me AND [System.WorkItemType] = '" ++
              (cli.escapeWiql v ++ "'" ++ tail) ∧
          cli.scanLiteral ((cli.escapeWiql v ++ "'" ++ tail).toList) =
            some (v.toList, tail.toList)) ∧
      (∀ (typeFilter : String) (allTypes allStates : Bool),
        allStates = false → strings.TrimSpace v ≠ "" →
        ∃ head : String,
          cli.myWiqlQuery typeFilter allTypes v allStates =
            head ++ ("[System.State] <> '" ++
              (cli.escapeWiql v ++ "'" ++ " ORDER BY [System.ChangedDate] DESC")) ∧
          cli.scanLiteral
              ((cli.escapeWiql v ++ "'" ++ " ORDER BY [System.ChangedDate] DESC").toList) =
            some (v.toList, (" ORDER BY [System.ChangedDate] DESC" : String).toList)) ∧
      (∀ values : List String,
        cli.readLiterals (cli.joinWiqlValues values) = some (cli.keptValues values)) ∧
      cli.readLiterals (cli.joinWiqlValues [" it's ", "", "a, 'b'"]) =
        some ["it's", "a, 'b'"] := by
  refine ⟨?_, ?_, fun rest hrest => cli.scanLiteral_escapeWiql v rest hrest, ?_, ?_, ?_, ?_,
    ?_, cli.readLiterals_joinWiqlValues, by decide⟩
  · intro n hn
    unfold cli.quoteRuns at hn
    rw [cli.escapeWiql_toList] at hn
    exact cli.quoteRunsFrom_doubled v.toList 0 rfl n hn
  · have hold : ("''" : String).toList = [cli.quote, cli.quote] := by decide
    have hnew : ("'" : String).toList = [cli.quote] := by decide
    unfold strings.ReplaceAll
    rw [hold, hnew, cli.escapeWiql_toList]
    simp only [List.isEmpty_cons, Bool.false_eq_true, if_false]
    rw [strings.replaceChars_undouble cli.quote v.toList _ (Nat.le_refl _)]
    rfl
  · have hA : ("' OR [System.Description] CONTAINS '" : String) =
        "'" ++ " OR [System.Description] CONTAINS '" := by decide
    have hB : ("') ORDER BY [System.ChangedDate] DESC" : String) =
        "'" ++ ") ORDER BY [System.ChangedDate] DESC" := by decide
    unfold cli.wiqlSearchQuery cli.escapeWiql
    rw [hA, hB]
    simp only [String.append_assoc]
  · apply cli.scanLiteral_escapeWiql
    have hrest : (" OR [System.Description] CONTAINS '" ++
        (cli.escapeWiql v ++ "'" ++ ") ORDER BY [System.ChangedDate] DESC")).toList =
        ' ' :: ("OR [System.Description] CONTAINS '" ++
          (cli.escapeWiql v ++ "'" ++ ") ORDER BY [System.ChangedDate] DESC")).toList := by
      simp only [String.toList, String.data_append]
      rfl
    rw [hrest]
    intro h
    exact absurd (Option.some.inj h) (by decide)
  · apply cli.scanLiteral_escapeWiql
    decide
  · intro allTypes excludeState allStates ht hne
    obtain ⟨tail, htail, hquery⟩ :=
      cli.myWiqlQuery_type v allTypes excludeState allStates ht hne
    exact ⟨tail, hquery, cli.scanLiteral_escapeWiql v tail htail⟩
  · intro typeFilter allTypes allStates hs hne
    obtain ⟨head, hquery⟩ := cli.myWiqlQuery_state typeFilter allTypes v allStates hs hne
    exact ⟨head, hquery, cli.scanLiteral_escapeWiql v _ (by decide)⟩

/-- C29, at a concrete text: `it's` is escaped to `it''s` and read back from the literal
as `it's`, and in the query for the work item type `it's` the literal is read back as
`it's`. -/
theorem cli.escapeWiql_quotes_witness :
    cli.scanLiteral ((cli.escapeWiql "it's" ++ "'" ++ ", 'x'").toList) =
        some ("it's".toList, ", 'x'".toList) ∧
      cli.escapeWiql "it's" = "it''s" ∧ cli.quoteRuns (cli.escapeWiql "it's") = [2] ∧
      ∃ tail : String,
        cli.myWiqlQuery "it's" false "" true =
          "SELECT [System.Id] FROM WorkItems WHERE [System.TeamProject] = @Project AND [System.AssignedTo] = @Me AND [System.WorkItemType] = '" ++
            (cli.escapeWiql "it's" ++ "'" ++ tail) ∧
        cli.scanLiteral ((cli.escapeWiql "it's" ++ "'" ++ tail).toList) =
          some ("it's".toList, tail.toList) :=
  ⟨(cli.escapeWiql_quotes "it's").2.2.1 ", 'x'" (by decide), by decide, by decide,
    (cli.escapeWiql_quotes "it's").2.2.2.2.2.2.1 false "" true rfl (by decide)⟩

/-! ## The positional argument -/

theorem strings.HasPrefix_dash (arg : String) :
    strings.HasPrefix arg "-" = cli.isFlagArg arg := by
  have hd : ("-" : String).toList = ['-'] := by decide
  unfold strings.HasPrefix cli.isFlagArg
  rw [hd]
  cases arg.toList with
  | nil => simp [strings.startsWith]
  | cons c cs =>
    simp only [strings.startsWith, Bool.and_true, List.head?_cons, Option.some.injEq]
    by_cases h : c = '-' <;> simp [h]

theorem strings.indexByteFrom_nonneg (c : Char) (cs : List Char) :
    ∀ off : Nat, (strings.indexByteFrom c off cs ≥ 0 ↔ c ∈ cs) := by
  induction cs with
  | nil => intro off; simp [strings.indexByteFrom]
  | cons d ds ih =>
    intro off
    unfold strings.indexByteFrom
    by_cases h : d = c
    · simp [h]
    · rw [if_neg h, ih]
      simp [Ne.symm h]

theorem strings.IndexByte_TrimLeft_dash (arg : String) :
    decide (strings.IndexByte (strings.TrimLeft arg "-") '=' ≥ 0) = arg.toList.contains '=' := by
  have hd : ("-" : String).toList = ['-'] := by decide
  unfold strings.IndexByte strings.TrimLeft
  rw [hd]
  have hmem : ∀ cs : List Char,
      ('=' ∈ cs.dropWhile (fun c => ['-'].contains c)) ↔ '=' ∈ cs := by
    intro cs
    induction cs with
    | nil => simp
    | cons c cs ih =>
      by_cases hc : c = '-'
      · subst hc
        simp only [List.dropWhile_cons]
        rw [if_pos (by decide), ih]
        simp
      · rw [List.dropWhile_cons, if_neg (by simpa using hc)]
  rw [Bool.eq_iff_iff]
  rw [decide_eq_true_eq, strings.indexByteFrom_nonneg]
  have hc : arg.toList.contains '=' = true ↔ '=' ∈ arg.toList := by simp
  rw [hc]
  exact hmem arg.toList

theorem cli.splitStep_eq (valueFlags : List (String × Bool)) (st : cli.SplitState)
    (arg : String) :
    cli.splitStep valueFlags st arg =
      if st.skipNext then { st with rest := st.rest ++ [arg], skipNext := false }
      else if cli.isFlagArg arg then
        { st with rest := st.rest ++ [arg], skipNext := cli.isValueFlagArg valueFlags arg }
      else if st.positional = "" then { st with positional := arg }
      else { st with rest := st.rest ++ [arg] } := by
  unfold cli.splitStep cli.isValueFlagArg
  rw [strings.HasPrefix_dash, ← strings.IndexByte_TrimLeft_dash]
  cases hskip : st.skipNext with
  | true => simp
  | false =>
    cases hflag : cli.isFlagArg arg with
    | false => simp
    | true =>
      by_cases heq : strings.IndexByte (strings.TrimLeft arg "-") '=' ≥ 0
      · simp [heq, hskip]
      · cases hv : cli.flagTakesValue valueFlags (strings.TrimLeft arg "-") <;>
          simp [heq, hskip, hv]

theorem cli.splitFold_found (valueFlags : List (String × Bool)) (args : List String) :
    ∀ st : cli.SplitState, st.positional ≠ "" →
      (args.foldl (cli.splitStep valueFlags) st).positional = st.positional ∧
        (args.foldl (cli.splitStep valueFlags) st).rest = st.rest ++ args := by
  induction args with
  | nil => intro st _; simp
  | cons arg args ih =>
    intro st hst
    rw [List.foldl_cons]
    have hstep : (cli.splitStep valueFlags st arg).positional = st.positional ∧
        (cli.splitStep valueFlags st arg).rest = st.rest ++ [arg] := by
      rw [cli.splitStep_eq]
      split
      · exact ⟨rfl, rfl⟩
      · split
        · exact ⟨rfl, rfl⟩
        · exact ⟨rfl, rfl⟩
    obtain ⟨h1, h2⟩ := ih (cli.splitStep valueFlags st arg) (by rw [hstep.1]; exact hst)
    rw [h1, h2, hstep.1, hstep.2]
    simp

theorem cli.splitFold_search (valueFlags : List (String × Bool)) (args : List String) :
    ∀ (rest : List String) (skip : Bool),
      (args.foldl (cli.splitStep valueFlags)
          { positional := "", rest := rest, skipNext := skip }).positional =
        (cli.splitNonEmpty valueFlags skip args).1 ∧
      (args.foldl (cli.splitStep valueFlags)
          { positional := "", rest := rest, skipNext := skip }).rest =
        rest ++ (cli.splitNonEmpty valueFlags skip args).2 := by
  induction args with
  | nil => intro rest skip; cases skip <;> simp [cli.splitNonEmpty]
  | cons arg args ih =>
    intro rest skip
    rw [List.foldl_cons, cli.splitStep_eq]
    cases skip with
    | true =>
      simp only [if_true]
      obtain ⟨h1, h2⟩ := ih (rest ++ [arg]) false
      rw [h1, h2]
      simp [cli.splitNonEmpty]
    | false =>
      simp only [Bool.false_eq_true, if_false]
      cases hflag : cli.isFlagArg arg with
      | true =>
        simp only [if_true]
        obtain ⟨h1, h2⟩ := ih (rest ++ [arg]) (cli.isValueFlagArg valueFlags arg)
        rw [h1, h2]
        simp [cli.splitNonEmpty, hflag]
      | false =>
        simp only [Bool.false_eq_true, if_false, if_true]
        by_cases hempty : arg = ""
        · subst hempty
          obtain ⟨h1, h2⟩ := ih rest false
          rw [h1, h2]
          simp [cli.splitNonEmpty, hflag]
        · obtain ⟨h1, h2⟩ := cli.splitFold_found valueFlags args
            { positional := arg, rest := rest, skipNext := false } hempty
          rw [h1, h2]
          simp [cli.splitNonEmpty, hflag, hempty]

theorem cli.splitPositional_eq (args : List String) (valueFlags : List (String × Bool)) :
    cli.splitPositional args valueFlags = cli.splitNonEmpty valueFlags false args := by
  unfold cli.splitPositional
  obtain ⟨h1, h2⟩ := cli.splitFold_search valueFlags args [] false
  simp only [h1, h2, List.nil_append]

theorem cli.splitNonEmpty_eq (valueFlags : List (String × Bool)) (args : List String) :
    ∀ skip : Bool, "" ∉ args →
      cli.splitNonEmpty valueFlags skip args =
        match cli.firstCandidate valueFlags skip args with
        | some i => (args.getD i "", args.eraseIdx i)
        | none => ("", args) := by
  induction args with
  | nil => intro skip _; cases skip <;> rfl
  | cons arg args ih =>
    intro skip hne
    have hargs : "" ∉ args := fun h => hne (List.mem_cons_of_mem _ h)
    have harg : arg ≠ "" := fun h => hne (h ▸ List.mem_cons_self _ _)
    cases skip with
    | true =>
      simp only [cli.splitNonEmpty, cli.firstCandidate]
      rw [ih false hargs]
      cases cli.firstCandidate valueFlags false args <;> simp
    | false =>
      simp only [cli.splitNonEmpty, cli.firstCandidate]
      cases hflag : cli.isFlagArg arg with
      | true =>
        simp only [if_true]
        rw [ih _ hargs]
        cases cli.firstCandidate valueFlags (cli.isValueFlagArg valueFlags arg) args <;> simp
      | false =>
        simp [harg]

theorem cli.splitNonEmpty_sublist (valueFlags : List (String × Bool)) (args : List String) :
    ∀ skip : Bool, (cli.splitNonEmpty valueFlags skip args).2.Sublist args := by
  induction args with
  | nil => intro skip; cases skip <;> exact List.Sublist.refl _
  | cons arg args ih =>
    intro skip
    cases skip with
    | true =>
      simp only [cli.splitNonEmpty]
      exact (ih false).cons₂ arg
    | false =>
      simp only [cli.splitNonEmpty]
      split
      · exact (ih _).cons₂ arg
      · split
        · exact (ih false).cons arg
        · exact (List.Sublist.refl args).cons arg

theorem cli.firstCandidate_lt (valueFlags : List (String × Bool)) (args : List String) :
    ∀ (skip : Bool) (i : Nat),
      cli.firstCandidate valueFlags skip args = some i → i < args.length := by
  induction args with
  | nil => intro skip i h; cases skip <;> simp [cli.firstCandidate] at h
  | cons arg args ih =>
    intro skip i h
    cases skip with
    | true =>
      unfold cli.firstCandidate at h
      cases hj : cli.firstCandidate valueFlags false args with
      | none => rw [hj] at h; cases h
      | some j =>
        rw [hj] at h
        cases h
        have := ih false j hj
        simp only [List.length_cons]
        omega
    | false =>
      unfold cli.firstCandidate at h
      by_cases hflag : cli.isFlagArg arg = true
      · rw [if_pos hflag] at h
        cases hj : cli.firstCandidate valueFlags (cli.isValueFlagArg valueFlags arg) args with
        | none => rw [hj] at h; cases h
        | some j =>
          rw [hj] at h
          cases h
          have := ih _ j hj
          simp only [List.length_cons]
          omega
      · rw [if_neg hflag] at h
        cases h
        simp only [List.length_cons]
        omega

theorem cli.splitAtFirstCandidate_length (valueFlags : List (String × Bool))
    (args : List String) (hne : "" ∉ args) :
    ((cli.splitAtFirstCandidate valueFlags args).1 ≠ "" →
        (cli.splitAtFirstCandidate valueFlags args).2.length + 1 = args.length) ∧
      ((cli.splitAtFirstCandidate valueFlags args).1 = "" →
        (cli.splitAtFirstCandidate valueFlags args).2 = args) := by
  unfold cli.splitAtFirstCandidate
  cases h : cli.firstCandidate valueFlags false args with
  | none => exact ⟨fun _ => absurd rfl ‹_›, fun _ => rfl⟩
  | some i =>
    have hi := cli.firstCandidate_lt valueFlags args false i h
    constructor
    · intro _
      simp only [List.length_eraseIdx, hi, if_true]
      omega
    · intro hempty
      exfalso
      apply hne
      simp only [List.getD_eq_getElem?_getD, List.getElem?_eq_getElem hi,
        Option.getD_some] at hempty
      rw [← hempty]
      exact List.getElem_mem hi

/-- C27 (amended): for every argument list and value-flag table, `splitPositional` keeps
flags and their values in order, drops every empty argument that stands where a positional
could stand until it meets the first non-empty such argument, returns that one as
positional and keeps every argument after it; so rest is a sublist of args. When no
argument is the empty string, positional is the first argument that does not start with
`-` and is not the value following a value-taking flag written without `=`, rest is args
without that one argument, rest has one element fewer than args when a positional was found
and equals args otherwise. -/
theorem cli.splitPositional_spec (args : List String) (valueFlags : List (String × Bool)) :
    cli.splitPositional args valueFlags = cli.splitNonEmpty valueFlags false args ∧
      (cli.splitPositional args valueFlags).2.Sublist args ∧
      ("" ∉ args →
        cli.splitPositional args valueFlags = cli.splitAtFirstCandidate valueFlags args ∧
          ((cli.splitPositional args valueFlags).1 ≠ "" →
            (cli.splitPositional args valueFlags).2.length + 1 = args.length) ∧
          ((cli.splitPositional args valueFlags).1 = "" →
            (cli.splitPositional args valueFlags).2 = args)) := by
  have heq := cli.splitPositional_eq args valueFlags
  refine ⟨heq, ?_, ?_⟩
  · rw [heq]
    exact cli.splitNonEmpty_sublist valueFlags args false
  · intro hne
    have hfirst : cli.splitPositional args valueFlags =
        cli.splitAtFirstCandidate valueFlags args := by
      rw [heq, cli.splitNonEmpty_eq valueFlags args false hne]
      rfl
    rw [hfirst]
    exact ⟨rfl, cli.splitAtFirstCandidate_length valueFlags args hne⟩

/-- C27, on the arguments of the repository test: `123` is the positional, and the flags
with their values are the rest. -/
theorem cli.splitPositional_spec_witness :
    "" ∉ ["123", "--set", "System.Title=Hello", "--add-comment", "note", "--verbose"] ∧
      cli.splitPositional
          ["123", "--set", "System.Title=Hello", "--add-comment", "note", "--verbose"]
          cli.updateValueFlags =
        ("123", ["--set", "System.Title=Hello", "--add-comment", "note", "--verbose"]) :=
  ⟨by decide,
    ((cli.splitPositional_spec
      ["123", "--set", "System.Title=Hello", "--add-comment", "note", "--verbose"]
      cli.updateValueFlags).2.2 (by decide)).1.trans (by decide)⟩

/-- C27 as stated fails on an empty argument: in the arguments `""`, `123` the first
argument that does not start with `-` and follows no flag is the empty one, but
`splitPositional` returns `123` as positional and an empty rest, two elements fewer than
the arguments. -/
theorem cli.splitPositional_empty_argument :
    cli.firstCandidate cli.updateValueFlags false ["", "123"] = some 0 ∧
      cli.splitAtFirstCandidate cli.updateValueFlags ["", "123"] = ("", ["123"]) ∧
      cli.splitPositional ["", "123"] cli.updateValueFlags = ("123", []) ∧
      (cli.splitPositional ["", "123"] cli.updateValueFlags).2.length + 1 ≠
        ["", "123"].length := by
  decide

/-! ## The base URL without the project -/

theorem strings.dropRightWhile_concat_neg (p : Char → Bool) (xs : List Char) (c : Char)
    (h : p c = false) : strings.dropRightWhile p (xs ++ [c]) = xs ++ [c] := by
  unfold strings.dropRightWhile
  rw [List.reverse_append, List.reverse_singleton, List.singleton_append,
    List.dropWhile_cons, h]
  simp

theorem strings.dropRightWhile_concat_pos (p : Char → Bool) (xs : List Char) (c : Char)
    (h : p c = true) :
    strings.dropRightWhile p (xs ++ [c]) = strings.dropRightWhile p xs := by
  unfold strings.dropRightWhile
  rw [List.reverse_append, List.reverse_singleton, List.singleton_append,
    List.dropWhile_cons, h]
  simp

theorem strings.dropRightWhile_last (p : Char → Bool) (xs ys : List Char) (c : Char)
    (h : strings.dropRightWhile p xs = ys ++ [c]) : p c = false := by
  induction xs using List.reverseRecOn generalizing ys c with
  | nil => simp [strings.dropRightWhile] at h
  | append_singleton xs d ih =>
    cases hd : p d with
    | true =>
      rw [strings.dropRightWhile_concat_pos p xs d hd] at h
      exact ih ys c h
    | false =>
      rw [strings.dropRightWhile_concat_neg p xs d hd] at h
      have := List.append_inj_right' h rfl
      cases this
      exact hd

theorem strings.dropRightWhile_suffix (p : Char → Bool) (xs pre path : List Char)
    (h : strings.dropRightWhile p xs = pre ++ path) :
    strings.dropRightWhile p path = path := by
  rcases List.eq_nil_or_concat path with hnil | ⟨init, c, hc⟩
  · rw [hnil]; rfl
  · rw [hc, List.concat_eq_append]
    rw [hc, List.concat_eq_append, ← List.append_assoc] at h
    exact strings.dropRightWhile_concat_neg p init c
      (strings.dropRightWhile_last p xs (pre ++ init) c h)

theorem strings.splitChars_join (sep : Char) (cs : List Char) :
    ∃ first others, strings.splitChars sep cs = first :: others ∧
      cs = first ++ others.flatMap (fun part => sep :: part) := by
  induction cs with
  | nil => exact ⟨[], [], rfl, rfl⟩
  | cons c cs ih =>
    obtain ⟨first, others, hsplit, hcs⟩ := ih
    unfold strings.splitChars
    by_cases hc : c = sep
    · rw [if_pos hc, hsplit]
      refine ⟨[], first :: others, rfl, ?_⟩
      rw [List.flatMap_cons, List.nil_append, List.cons_append, ← hcs, hc]
    · rw [if_neg hc, hsplit]
      refine ⟨c :: first, others, rfl, ?_⟩
      rw [List.cons_append, ← hcs]

theorem strings.splitChars_no_sep (sep : Char) (cs : List Char) :
    ∀ part ∈ strings.splitChars sep cs, sep ∉ part := by
  induction cs with
  | nil => intro part hpart; simp [strings.splitChars] at hpart; simp [hpart]
  | cons c cs ih =>
    intro part hpart
    unfold strings.splitChars at hpart
    by_cases hc : c = sep
    · rw [if_pos hc] at hpart
      rcases List.mem_cons.1 hpart with h | h
      · simp [h]
      · exact ih part h
    · rw [if_neg hc] at hpart
      obtain ⟨first, others, hsplit, _⟩ := strings.splitChars_join sep cs
      rw [hsplit] at hpart ih
      rcases List.mem_cons.1 hpart with h | h
      · rw [h]
        intro hmem
        rcases List.mem_cons.1 hmem with h1 | h1
        · exact hc h1.symm
        · exact ih first (List.mem_cons_self _ _) h1
      · exact ih part (List.mem_cons_of_mem _ h)

theorem strings.byteLen_append (xs ys : List Char) :
    strings.byteLen (xs ++ ys) = strings.byteLen xs + strings.byteLen ys := by
  simp [strings.byteLen]

theorem strings.takeBytes_append (xs ys : List Char) :
    strings.takeBytes (xs ++ ys) (strings.byteLen xs) = some xs := by
  induction xs with
  | nil => cases ys <;> rfl
  | cons c xs ih =>
    have hpos : 0 < c.utf8Size := Char.utf8Size_pos c
    have hlen : strings.byteLen (c :: xs) = (c.utf8Size + strings.byteLen xs - 1) + 1 := by
      simp only [strings.byteLen, List.map_cons, List.sum_cons]
      omega
    rw [hlen, List.cons_append, strings.takeBytes]
    rw [if_pos (by omega)]
    have hsub : c.utf8Size + strings.byteLen xs - 1 + 1 - c.utf8Size = strings.byteLen xs := by
      omega
    rw [hsub, ih]

theorem cli.endsInProject_length (toLower : Char → Char) (baseURL project : String)
    (h : cli.endsInProject toLower baseURL project = true) :
    project.length + 1 ≤ (strings.TrimRight baseURL "/").length := by
  unfold cli.endsInProject strings.HasSuffix at h
  rw [List.isSuffixOf_iff_suffix] at h
  have hlen := h.length_le
  have hslash : ("/" ++ strings.ToLower toLower project).toList =
      '/' :: project.toList.map toLower := rfl
  rw [hslash] at hlen
  simp only [strings.ToLower, String.toList, List.length_cons, List.length_map] at hlen
  simp only [String.length]
  exact hlen

theorem strings.sliceTo_tail (s : String) (k extra : Nat)
    (hbytes : strings.byteLen (s.toList.drop (s.length - k)) = extra) :
    strings.sliceTo s (Int.ofNat (strings.byteLen s.toList) - Int.ofNat extra) =
      some (String.mk (s.toList.take (s.length - k))) := by
  have hsplit : s.toList = s.toList.take (s.length - k) ++ s.toList.drop (s.length - k) :=
    (List.take_append_drop _ _).symm
  have hlen : strings.byteLen s.toList =
      strings.byteLen (s.toList.take (s.length - k)) + extra := by
    conv_lhs => rw [hsplit]
    rw [strings.byteLen_append, hbytes]
  have hcut : Int.ofNat (strings.byteLen s.toList) - Int.ofNat extra =
      Int.ofNat (strings.byteLen (s.toList.take (s.length - k))) := by
    rw [hlen]
    simp
  have htake := strings.takeBytes_append (s.toList.take (s.length - k))
    (s.toList.drop (s.length - k))
  rw [← hsplit] at htake
  unfold strings.sliceTo
  rw [hcut, if_neg (by simp)]
  have hnat : (Int.ofNat (strings.byteLen (s.toList.take (s.length - k)))).toNat =
      strings.byteLen (s.toList.take (s.length - k)) := rfl
  rw [hnat, htake]

theorem cli.normalizeParsed_result (equalFold : String → String → Bool)
    (urlParse : String → Except GoError url.URL) (urlString : url.URL → String)
    (baseURL project result : String) (hp : project ≠ "")
    (hfold : ∀ s : String, equalFold s project = true → s.length = project.length)
    (hround : ∀ parsed : url.URL,
      urlParse (strings.TrimRight baseURL "/") = Except.ok parsed → parsed.Scheme ≠ "" →
        url.printsBack urlString (strings.TrimRight baseURL "/") parsed)
    (h : cli.normalizeParsed equalFold urlParse urlString (strings.TrimRight baseURL "/")
      project = some result) :
    result = cli.withoutProject baseURL project := by
  unfold cli.normalizeParsed at h
  cases hparse : urlParse (strings.TrimRight baseURL "/") with
  | error err => rw [hparse] at h; cases h
  | ok parsed =>
    rw [hparse] at h
    dsimp only at h
    by_cases hs : parsed.Scheme = ""
    · rw [if_pos hs] at h; cases h
    · rw [if_neg hs] at h
      obtain ⟨fixed, htext, hpath, hprint⟩ := hround parsed hparse hs
      have hT : (strings.TrimRight baseURL "/").toList = fixed.toList ++ parsed.Path.toList := by
        rw [htext]; rfl
      have hpt : strings.TrimRight parsed.Path "/" = parsed.Path := by
        have hdrop := strings.dropRightWhile_suffix (fun c => ("/" : String).toList.contains c)
          baseURL.toList fixed.toList parsed.Path.toList hT
        unfold strings.TrimRight
        rw [hdrop]
        rfl
      rw [hpt] at h
      obtain ⟨first, others, hsplit, hjoin⟩ := strings.splitChars_join '/' parsed.Path.toList
      have hnosep := strings.splitChars_no_sep '/' parsed.Path.toList
      unfold strings.Split at h
      rw [hsplit] at h hnosep
      rcases List.eq_nil_or_concat others with hnil | ⟨init, l, hconcat⟩
      · exfalso
        subst hnil
        simp only [List.map_cons, List.map_nil, List.getLast?_singleton] at h
        by_cases hf : equalFold (String.mk first) project = true
        · have hlen := hfold _ hf
          simp only [List.flatMap_nil, List.append_nil] at hjoin
          rcases hpath with hempty | hslash
          · rw [hempty] at hjoin
            have : first = [] := hjoin.symm
            subst this
            apply hp
            have h0 : project.length = 0 := hlen.symm
            exact String.ext (List.length_eq_zero.1 h0)
          · rw [hjoin] at hslash
            apply hnosep first (List.mem_singleton_self _)
            cases first with
            | nil => simp at hslash
            | cons c cs =>
              simp only [List.head?_cons, Option.some.injEq] at hslash
              rw [hslash]
              exact List.mem_cons_self _ _
        · rw [if_neg hf] at h; cases h
      · subst hconcat
        rw [List.concat_eq_append] at h hjoin
        have hparts : List.map String.mk (first :: (init ++ [l])) =
            (String.mk first :: init.map String.mk) ++ [String.mk l] := by simp
        rw [hparts, List.getLast?_concat, List.dropLast_concat] at h
        dsimp only at h
        by_cases hf : equalFold (String.mk l) project = true
        · rw [if_pos hf] at h
          have hlen : l.length = project.length := hfold _ hf
          have hJ : (strings.Join (String.mk first :: init.map String.mk) "/").toList =
              first ++ init.flatMap (fun part => '/' :: part) := by
            unfold strings.Join String.intercalate
            rw [strings.intercalate_go_toList]
            have hsep : ("/" : String).toList = ['/'] := by decide
            rw [hsep]
            simp [List.flatMap_map]
          have hpathList : parsed.Path.toList =
              (first ++ init.flatMap (fun part => '/' :: part)) ++ '/' :: l := by
            rw [hjoin]
            simp
          have htake : (strings.TrimRight baseURL "/").toList.take
              ((strings.TrimRight baseURL "/").length - (project.length + 1)) =
              fixed.toList ++ (first ++ init.flatMap (fun part => '/' :: part)) := by
            have hlenT : (strings.TrimRight baseURL "/").length =
                (fixed.toList ++ (first ++ init.flatMap (fun part => '/' :: part))).length +
                  (project.length + 1) := by
              show (strings.TrimRight baseURL "/").toList.length = _
              rw [hT, hpathList]
              simp only [List.length_append, List.length_cons, hlen]
              omega
            rw [hlenT, Nat.add_sub_cancel, hT, hpathList]
            generalize first ++ init.flatMap (fun part => '/' :: part) = joined
            have hassoc : fixed.toList ++ (joined ++ '/' :: l) =
                (fixed.toList ++ joined) ++ '/' :: l := (List.append_assoc _ _ _).symm
            rw [hassoc]
            exact List.take_left' rfl
          have hprefix : (strings.Join (String.mk first :: init.map String.mk) "/").toList <+:
              parsed.Path.toList := by
            rw [hJ, hpathList]
            exact List.prefix_append _ _
          unfold cli.withoutProject
          rw [htake]
          by_cases hempty : strings.Join (String.mk first :: init.map String.mk) "/" = ""
          · rw [if_pos hempty, hprint "/" (Or.inl rfl)] at h
            have hnil : first ++ init.flatMap (fun part => '/' :: part) = [] := by
              rw [← hJ, hempty]; rfl
            rw [hnil, List.append_nil]
            have hres := (Option.some.inj h).symm
            rw [hres]
            unfold strings.TrimRight
            have hlist : (fixed ++ "/").toList = fixed.toList ++ ['/'] := rfl
            rw [hlist, strings.dropRightWhile_concat_pos _ _ _ (by decide)]
            rfl
          · rw [if_neg hempty, hprint _ (Or.inr hprefix)] at h
            have hres := (Option.some.inj h).symm
            rw [hres, ← hJ]
            rfl
        · rw [if_neg hf] at h; cases h

theorem strings.takeWhile_append_stop (p : Char → Bool) (xs ys : List Char) (d : Char)
    (hxs : ∀ c ∈ xs, p c = true) (hd : p d = false) :
    (xs ++ d :: ys).takeWhile p = xs ∧ (xs ++ d :: ys).dropWhile p = d :: ys := by
  induction xs with
  | nil => simp [List.takeWhile_cons, List.dropWhile_cons, hd]
  | cons c cs ih =>
    have hc := hxs c (List.mem_cons_self _ _)
    obtain ⟨h1, h2⟩ := ih (fun e he => hxs e (List.mem_cons_of_mem _ he))
    simp [List.takeWhile_cons, List.dropWhile_cons, hc, h1, h2]

theorem strings.takeWhile_all (p : Char → Bool) (xs : List Char)
    (hxs : ∀ c ∈ xs, p c = true) : xs.takeWhile p = xs ∧ xs.dropWhile p = [] := by
  induction xs with
  | nil => simp
  | cons c cs ih =>
    have hc := hxs c (List.mem_cons_self _ _)
    obtain ⟨h1, h2⟩ := ih (fun e he => hxs e (List.mem_cons_of_mem _ he))
    simp [List.takeWhile_cons, List.dropWhile_cons, hc, h1, h2]

theorem strings.Split_segments (s : String) :
    (strings.Split s '/').getLast? = some (strings.lastSegment s) ∧
      strings.Join (strings.Split s '/').dropLast "/" = strings.withoutLastSegment s := by
  obtain ⟨first, others, hsplit, hjoin⟩ := strings.splitChars_join '/' s.toList
  have hnosep := strings.splitChars_no_sep '/' s.toList
  rw [hsplit] at hnosep
  have hp : ∀ part : List Char, '/' ∉ part →
      ∀ c ∈ part.reverse, (fun c : Char => decide (c ≠ '/')) c = true := by
    intro part hpart c hc
    have hmem : c ∈ part := List.mem_reverse.1 hc
    have hne : c ≠ '/' := fun h => hpart (h ▸ hmem)
    simpa using hne
  unfold strings.Split strings.lastSegment strings.withoutLastSegment
  rw [hsplit]
  rcases List.eq_nil_or_concat others with hnil | ⟨init, l, hconcat⟩
  · subst hnil
    simp only [List.flatMap_nil, List.append_nil] at hjoin
    have hall := strings.takeWhile_all (fun c : Char => decide (c ≠ '/')) s.toList.reverse
      (by rw [hjoin]; exact hp first (hnosep first (List.mem_singleton_self _)))
    constructor
    · simp only [List.map_cons, List.map_nil, List.getLast?_singleton]
      rw [hall.1, List.reverse_reverse, hjoin]
    · simp only [List.map_cons, List.map_nil, List.dropLast_single]
      rw [hall.2]
      rfl
  · subst hconcat
    rw [List.concat_eq_append] at hjoin hnosep
    have hl : '/' ∉ l := hnosep l (by simp)
    have hpathList : s.toList =
        (first ++ init.flatMap (fun part => '/' :: part)) ++ '/' :: l := by
      rw [hjoin]
      simp
    have hrev : s.toList.reverse =
        l.reverse ++ '/' :: (first ++ init.flatMap (fun part => '/' :: part)).reverse := by
      rw [hpathList]
      simp
    have hstop := strings.takeWhile_append_stop (fun c : Char => decide (c ≠ '/')) l.reverse
      (first ++ init.flatMap (fun part => '/' :: part)).reverse '/' (hp l hl) (by decide)
    have hparts : List.map String.mk (first :: init.concat l) =
        (String.mk first :: init.map String.mk) ++ [String.mk l] := by simp
    rw [hparts, List.getLast?_concat, List.dropLast_concat, hrev, hstop.1, hstop.2]
    constructor
    · rw [List.reverse_reverse]
    · have hJ : (strings.Join (String.mk first :: init.map String.mk) "/").toList =
          first ++ init.flatMap (fun part => '/' :: part) := by
        unfold strings.Join String.intercalate
        rw [strings.intercalate_go_toList]
        have hsep : ("/" : String).toList = ['/'] := by decide
        rw [hsep]
        simp [List.flatMap_map]
      apply String.ext
      rw [show (strings.Join (String.mk first :: init.map String.mk) "/").data =
        (strings.Join (String.mk first :: init.map String.mk) "/").toList from rfl, hJ]
      simp

theorem cli.normalizeParsed_eq (equalFold : String → String → Bool)
    (urlParse : String → Except GoError url.URL) (urlString : url.URL → String)
    (trimmed project : String) :
    cli.normalizeParsed equalFold urlParse urlString trimmed project =
      cli.printedWithoutProject equalFold urlParse urlString trimmed project := by
  unfold cli.normalizeParsed cli.printedWithoutProject
  cases urlParse trimmed with
  | error err => rfl
  | ok parsed =>
    dsimp only
    obtain ⟨hlast, hinit⟩ := strings.Split_segments (strings.TrimRight parsed.Path "/")
    rw [hlast, hinit]
    by_cases hs : parsed.Scheme = ""
    · simp [hs]
    · by_cases hf : equalFold (strings.lastSegment (strings.TrimRight parsed.Path "/"))
          project = true
      · simp [hs, hf]
      · simp [hs, hf]

theorem cli.normalizeBaseURL_no_suffix (toLower : Char → Char)
    (equalFold : String → String → Bool) (urlParse : String → Except GoError url.URL)
    (urlString : url.URL → String) (baseURL project : String)
    (h : cli.endsInProject toLower baseURL project = false) :
    cli.normalizeBaseURL toLower equalFold urlParse urlString baseURL project =
      some (baseURL, false) := by
  unfold cli.endsInProject at h
  unfold cli.normalizeBaseURL
  by_cases he : baseURL = "" ∨ project = ""
  · rw [if_pos he]
  · rw [if_neg he]
    dsimp only
    rw [h]
    rfl

theorem cli.normalizeBaseURL_ok (toLower : Char → Char)
    (equalFold : String → String → Bool) (urlParse : String → Except GoError url.URL)
    (urlString : url.URL → String) (baseURL project : String)
    (hb : baseURL ≠ "") (hp : project ≠ "")
    (h : cli.endsInProject toLower baseURL project = true) (r : String × Bool)
    (hr : cli.normalizeBaseURL toLower equalFold urlParse urlString baseURL project = some r) :
    r.2 = true := by
  unfold cli.endsInProject at h
  unfold cli.normalizeBaseURL at hr
  rw [if_neg (by simp [hb, hp])] at hr
  dsimp only at hr
  rw [h] at hr
  simp only [Bool.not_true, Bool.false_eq_true, if_false] at hr
  split at hr
  · cases hr; rfl
  · split at hr
    · cases hr; rfl
    · cases hr

theorem cli.normalizeBaseURL_result (toLower : Char → Char)
    (equalFold : String → String → Bool) (urlParse : String → Except GoError url.URL)
    (urlString : url.URL → String) (baseURL project : String)
    (hb : baseURL ≠ "") (hp : project ≠ "")
    (h : cli.endsInProject toLower baseURL project = true)
    (hfold : ∀ s : String, equalFold s project = true → s.length = project.length)
    (hround : ∀ parsed : url.URL,
      urlParse (strings.TrimRight baseURL "/") = Except.ok parsed → parsed.Scheme ≠ "" →
        url.printsBack urlString (strings.TrimRight baseURL "/") parsed)
    (hbytes : strings.byteLen ((strings.TrimRight baseURL "/").toList.drop
        ((strings.TrimRight baseURL "/").length - (project.length + 1))) =
      strings.byteLen project.toList + 1) :
    cli.normalizeBaseURL toLower equalFold urlParse urlString baseURL project =
      some (cli.withoutProject baseURL project, true) := by
  have hsuf := h
  unfold cli.endsInProject at hsuf
  unfold cli.normalizeBaseURL
  rw [if_neg (by simp [hb, hp])]
  dsimp only
  rw [hsuf]
  simp only [Bool.not_true, Bool.false_eq_true, if_false]
  cases hparsed : cli.normalizeParsed equalFold urlParse urlString
      (strings.TrimRight baseURL "/") project with
  | some result =>
    rw [cli.normalizeParsed_result equalFold urlParse urlString baseURL project result hp
      hfold hround hparsed]
  | none =>
    have hcut : Int.ofNat (strings.byteLen (strings.TrimRight baseURL "/").toList) -
        Int.ofNat (strings.byteLen project.toList) - 1 =
        Int.ofNat (strings.byteLen (strings.TrimRight baseURL "/").toList) -
          Int.ofNat (strings.byteLen project.toList + 1) := by
      simp only [Int.ofNat_eq_coe, Nat.cast_add, Nat.cast_one]
      omega
    dsimp only
    rw [hcut, strings.sliceTo_tail _ (project.length + 1) _ hbytes]
    rfl

theorem cli.normalizeBaseURL_suffix (toLower : Char → Char)
    (equalFold : String → String → Bool) (urlParse : String → Except GoError url.URL)
    (urlString : url.URL → String) (baseURL project : String)
    (hb : baseURL ≠ "") (hp : project ≠ "")
    (h : cli.endsInProject toLower baseURL project = true) :
    cli.normalizeBaseURL toLower equalFold urlParse urlString baseURL project =
      match cli.printedWithoutProject equalFold urlParse urlString
          (strings.TrimRight baseURL "/") project with
      | some text => some (text, true)
      | none =>
        match strings.sliceTo (strings.TrimRight baseURL "/")
            (Int.ofNat (strings.byteLen (strings.TrimRight baseURL "/").toList) -
              Int.ofNat (strings.byteLen project.toList) - 1) with
        | some head => some (strings.TrimRight head "/", true)
        | none => none := by
  unfold cli.endsInProject at h
  unfold cli.normalizeBaseURL
  rw [if_neg (by simp [hb, hp])]
  dsimp only
  rw [h, cli.normalizeParsed_eq]
  rfl

theorem strings.sliceTo_short (s : String) (extra : Nat)
    (hshort : strings.byteLen s.toList < extra + 1) :
    strings.sliceTo s (Int.ofNat (strings.byteLen s.toList) - Int.ofNat extra - 1) = none := by
  unfold strings.sliceTo
  rw [if_pos]
  simp only [Int.ofNat_eq_coe]
  omega

/-- C26, as amended: for every non-empty base URL and project, when the base URL with
trailing slashes removed does not end, case-insensitively, in `/` and the project,
`normalizeBaseURL` returns the base URL unchanged and ok = false. When it does, every
result has ok = true, and: when `url.Parse` accepts the trimmed base URL with a non-empty
scheme and the last segment of its path is the project under `EqualFold`, the result is
the URL printed by `URL.String` with that segment removed from its path, without trailing
slashes; in every other case the result is the trimmed base URL cut `len(project) + 1`
bytes before its end, without trailing slashes, and there is no result when the trimmed
base URL has fewer bytes than that, where the slice expression panics. The printed URL is
the base URL without trailing slashes, without its last project segment and again without
trailing slashes provided that (1) texts equal under `EqualFold` to the project have as
many characters as it and (2) the parsed URL prints back as it was written; the cut text
is that text provided that (3) the removed end takes as many bytes as `/` and the
project. -/
theorem cli.normalizeBaseURL_spec (toLower : Char → Char)
    (equalFold : String → String → Bool) (urlParse : String → Except GoError url.URL)
    (urlString : url.URL → String) (baseURL project : String)
    (hb : baseURL ≠ "") (hp : project ≠ "") :
    (cli.endsInProject toLower baseURL project = false →
        cli.normalizeBaseURL toLower equalFold urlParse urlString baseURL project =
          some (baseURL, false)) ∧
      (cli.endsInProject toLower baseURL project = true →
        (∀ r : String × Bool,
          cli.normalizeBaseURL toLower equalFold urlParse urlString baseURL project = some r →
            r.2 = true) ∧
        (∀ text : String,
          cli.printedWithoutProject equalFold urlParse urlString
              (strings.TrimRight baseURL "/") project = some text →
            cli.normalizeBaseURL toLower equalFold urlParse urlString baseURL project =
              some (text, true)) ∧
        (cli.printedWithoutProject equalFold urlParse urlString
            (strings.TrimRight baseURL "/") project = none →
          (∀ head : String,
            strings.sliceTo (strings.TrimRight baseURL "/")
                (Int.ofNat (strings.byteLen (strings.TrimRight baseURL "/").toList) -
                  Int.ofNat (strings.byteLen project.toList) - 1) = some head →
              cli.normalizeBaseURL toLower equalFold urlParse urlString baseURL project =
                some (strings.TrimRight head "/", true)) ∧
          (strings.sliceTo (strings.TrimRight baseURL "/")
                (Int.ofNat (strings.byteLen (strings.TrimRight baseURL "/").toList) -
                  Int.ofNat (strings.byteLen project.toList) - 1) = none →
              cli.normalizeBaseURL toLower equalFold urlParse urlString baseURL project =
                none) ∧
          (strings.byteLen (strings.TrimRight baseURL "/").toList <
              strings.byteLen project.toList + 1 →
            cli.normalizeBaseURL toLower equalFold urlParse urlString baseURL project =
              none) ∧
          (strings.byteLen ((strings.TrimRight baseURL "/").toList.drop
              ((strings.TrimRight baseURL "/").length - (project.length + 1))) =
              strings.byteLen project.toList + 1 →
            cli.normalizeBaseURL toLower equalFold urlParse urlString baseURL project =
              some (cli.withoutProject baseURL project, true))) ∧
        ((∀ s : String, equalFold s project = true → s.length = project.length) →
          (∀ parsed : url.URL,
            urlParse (strings.TrimRight baseURL "/") = Except.ok parsed →
              parsed.Scheme ≠ "" →
                url.printsBack urlString (strings.TrimRight baseURL "/") parsed) →
          ∀ text : String,
            cli.printedWithoutProject equalFold urlParse urlString
                (strings.TrimRight baseURL "/") project = some text →
              text = cli.withoutProject baseURL project) ∧
        ((∀ s : String, equalFold s project = true → s.length = project.length) →
          (∀ parsed : url.URL,
            urlParse (strings.TrimRight baseURL "/") = Except.ok parsed →
              parsed.Scheme ≠ "" →
                url.printsBack urlString (strings.TrimRight baseURL "/") parsed) →
          strings.byteLen ((strings.TrimRight baseURL "/").toList.drop
              ((strings.TrimRight baseURL "/").length - (project.length + 1))) =
            strings.byteLen project.toList + 1 →
          cli.normalizeBaseURL toLower equalFold urlParse urlString baseURL project =
            some (cli.withoutProject baseURL project, true))) := by
  refine ⟨cli.normalizeBaseURL_no_suffix toLower equalFold urlParse urlString baseURL project,
    fun h => ?_⟩
  have hform := cli.normalizeBaseURL_suffix toLower equalFold urlParse urlString baseURL
    project hb hp h
  refine ⟨cli.normalizeBaseURL_ok toLower equalFold urlParse urlString baseURL project hb hp h,
    ?_, ?_, ?_,
    cli.normalizeBaseURL_result toLower equalFold urlParse urlString baseURL project hb hp h⟩
  · intro text htext
    rw [hform, htext]
  · intro hnone
    rw [hnone] at hform
    refine ⟨?_, ?_, ?_, ?_⟩
    · intro head hhead
      rw [hform, hhead]
    · intro hslice
      rw [hform, hslice]
    · intro hshort
      rw [hform, strings.sliceTo_short _ _ hshort]
    · intro hbytes
      have hcut : Int.ofNat (strings.byteLen (strings.TrimRight baseURL "/").toList) -
          Int.ofNat (strings.byteLen project.toList) - 1 =
          Int.ofNat (strings.byteLen (strings.TrimRight baseURL "/").toList) -
            Int.ofNat (strings.byteLen project.toList + 1) := by
        simp only [Int.ofNat_eq_coe, Nat.cast_add, Nat.cast_one]
        omega
      rw [hform, hcut, strings.sliceTo_tail _ (project.length + 1) _ hbytes]
      rfl
  · intro hfold hround text htext
    rw [← cli.normalizeParsed_eq] at htext
    exact cli.normalizeParsed_result equalFold urlParse urlString baseURL project text hp
      hfold hround htext

theorem cli.asciiEqualFold_length (s t : String) (h : cli.asciiEqualFold s t = true) :
    s.length = t.length := by
  unfold cli.asciiEqualFold at h
  have hlen := congrArg List.length (eq_of_beq h)
  simpa using hlen

theorem url.sampleParse_printsBack :
    ∀ parsed : url.URL,
      url.sampleParse
          (strings.TrimRight "https://tfs.example.com/DefaultCollection/MyProject" "/") =
        Except.ok parsed →
      parsed.Scheme ≠ "" →
        url.printsBack url.sampleString
          (strings.TrimRight "https://tfs.example.com/DefaultCollection/MyProject" "/")
          parsed := by
  intro parsed hparse _
  have hvalue : url.sampleParse
      (strings.TrimRight "https://tfs.example.com/DefaultCollection/MyProject" "/") =
      Except.ok
        { Scheme := "https", Opaque := "", User := "", Host := "tfs.example.com",
          Path := "/DefaultCollection/MyProject", RawPath := "", RawQuery := "",
          Fragment := "" } := by
    rfl
  rw [hvalue] at hparse
  cases hparse
  exact ⟨"https://tfs.example.com", by decide, Or.inr (by decide), fun path _ => rfl⟩

set_option maxRecDepth 100000 in
/-- C26, on the example of the repository test: with the project `MyProject` the base URL
`https://tfs.example.com/DefaultCollection/MyProject` becomes
`https://tfs.example.com/DefaultCollection`, with ok = true. -/
theorem cli.normalizeBaseURL_spec_witness :
    cli.endsInProject Char.toLower "https://tfs.example.com/DefaultCollection/MyProject"
        "MyProject" = true ∧
      cli.normalizeBaseURL Char.toLower cli.asciiEqualFold url.sampleParse url.sampleString
          "https://tfs.example.com/DefaultCollection/MyProject" "MyProject" =
        some ("https://tfs.example.com/DefaultCollection", true) :=
  ⟨by decide,
    (((cli.normalizeBaseURL_spec Char.toLower cli.asciiEqualFold url.sampleParse
      url.sampleString "https://tfs.example.com/DefaultCollection/MyProject" "MyProject"
      (by decide) (by decide)).2 (by decide)).2.2.2.2
      (fun s h => cli.asciiEqualFold_length s "MyProject" h)
      url.sampleParse_printsBack (by decide)).trans (by decide)⟩

set_option maxRecDepth 100000 in
/-- C26 as stated fails when `url.Parse` and `URL.String` do not give the text back: the
base URL `HTTPS://tfs.example.com/DefaultCollection/MyProject` ends in `/MyProject`, and
without that segment it is `HTTPS://tfs.example.com/DefaultCollection`, but
`normalizeBaseURL` returns `https://tfs.example.com/DefaultCollection`, the parsed URL
printed with its scheme in lower case. -/
theorem cli.normalizeBaseURL_scheme_lowered :
    cli.endsInProject Char.toLower "HTTPS://tfs.example.com/DefaultCollection/MyProject"
        "MyProject" = true ∧
      cli.withoutProject "HTTPS://tfs.example.com/DefaultCollection/MyProject" "MyProject" =
        "HTTPS://tfs.example.com/DefaultCollection" ∧
      cli.normalizeBaseURL Char.toLower cli.asciiEqualFold url.sampleParse url.sampleString
          "HTTPS://tfs.example.com/DefaultCollection/MyProject" "MyProject" =
        some ("https://tfs.example.com/DefaultCollection", true) := by
  decide

/-- The byte count matters in the last statement of `normalizeBaseURL`: the Kelvin sign has
the lower case `k` and takes three bytes, so with the Kelvin sign as project the text
`host/k`, which has no scheme, ends in `/` and the project and is cut after
`ho`, and for the text `/k` the slice bound is negative. -/
theorem cli.normalizeBaseURL_kelvin_sign :
    cli.endsInProject unicode.sampleToLower "host/k" (String.mk [Char.ofNat 0x212A]) = true ∧
      cli.normalizeBaseURL unicode.sampleToLower cli.asciiEqualFold
          url.pathOnlyParse url.sampleString "host/k"
          (String.mk [Char.ofNat 0x212A]) = some ("ho", true) ∧
      cli.normalizeBaseURL unicode.sampleToLower cli.asciiEqualFold
          url.pathOnlyParse url.sampleString "/k"
          (String.mk [Char.ofNat 0x212A]) = none := by
  decide
